import Mathlib

/-!
# RetinaFace detection post-processing (`detection_model_retinaface.cpp`)

A shallow embedding of `demos/object_detection_demo/detection_model_retinaface.cpp`: the
anchor generator (`_ratio_enum`, `_scale_enum`, `generate_anchors`, `generate_anchors_fpn`),
the strided anchors plane, the tensor decoders (`_get_proposals`, `_get_scores`,
`_get_mask_scores`, `_get_landmarks`), the greedy non-maximum suppression `nms` and the method
`postprocess`, followed by theorems about them.

Conventions of the embedding.

* `double` and `float` values are exact rationals (`ℚ`): no rounding, no overflow, no NaN or
  infinity among the inputs. The one place where the quotient of two such values is not a
  rational, the division by zero in the overlap test of `nms`, follows IEEE-754 explicitly
  (see `overlapAtLeast`).
* `int` and `size_t` values are unbounded integers and naturals; the wrap-around of the
  unsigned difference in `_get_scores` is treated explicitly.
* A run that reads outside a `std::vector` or outside a tensor buffer, divides an integer by
  zero or fails to allocate has no defined result: the embedding returns `none` for it.
* `std::sort`, `exp` and the accessors of `ModelRetinaFace::Anchor` (declared in
  `detection_model_retinaface.h`) are not defined by the sources at hand and are taken as
  parameters.
-/

namespace RetinaFace

/-! ## Data model -/

/-- The struct `ModelRetinaFace::Anchor`: four edge coordinates. -/
structure Anchor where
  left : ℚ
  top : ℚ
  right : ℚ
  bottom : ℚ
deriving DecidableEq, Repr

/-! ## Greedy non-maximum suppression (`nms`) -/

/-- The entry `areas[i]` of `nms`: `(right - left) * (bottom - top)`. -/
def boxArea (b : Anchor) : ℚ := (b.right - b.left) * (b.bottom - b.top)

/-- The `intersection` computed in the inner loop of `nms`: the product of the overlapping
width and height when both are positive, and `0` otherwise. -/
def intersectionArea (b1 b2 : Anchor) : ℚ :=
  let overlappingWidth := min b1.right b2.right - max b1.left b2.left
  let overlappingHeight := min b1.bottom b2.bottom - max b1.top b2.top
  if 0 < overlappingWidth ∧ 0 < overlappingHeight then overlappingWidth * overlappingHeight else 0

/-- The test `overlap >= thresh` of `nms`, where
`overlap = intersection / (areas[idx1] + areas[idx2] - intersection)`.
With a non-zero denominator this is the comparison of the quotient with `thresh`. With a zero
denominator the `double` quotient is `+inf` for a positive numerator (the test is true), NaN
for a zero numerator and `-inf` for a negative one (the test is false in both cases). -/
def overlapAtLeast (intersection area1 area2 thresh : ℚ) : Bool :=
  if area1 + area2 - intersection = 0 then decide (0 < intersection)
  else decide (thresh ≤ intersection / (area1 + area2 - intersection))

/-- The scan `for (; scores[order[ordersNum]] >= 0; ordersNum++);` of `nms`, run on the part of
`order` that starts at position `ordersNum`: the number of further steps it makes. The loop has
no bound on `ordersNum`: once every entry of `order` has been passed it reads `order` beyond
its end, which is `none` here, as is a read of `scores` at an entry of `order` that is not one
of its indices. -/
def countActive (scores : List ℚ) : List Int → Option Nat
  | [] => none
  | o :: order =>
    if o < 0 then none
    else
      match scores[o.toNat]? with
      | none => none
      | some s =>
        if 0 ≤ s then
          match countActive scores order with
          | none => none
          | some n => some (n + 1)
        else some 0

/-- The inner loop `for (int j = i + 1; j < ordersNum; j++)` of `nms` for the kept index `idx1`,
run over the entries `order[i+1 .. ordersNum)`. It returns these entries after the pass (a
suppressed entry is overwritten by `-1`) and the value of `shouldContinue` at the end of the
loop, which starts as `false`. -/
def suppressLater (boxes : List Anchor) (areas : List ℚ) (thresh : ℚ) (idx1 : Int) :
    List Int → Option (List Int × Bool)
  | [] => some ([], false)
  | idx2 :: later =>
    if 0 ≤ idx2 then
      match boxes[idx1.toNat]?, boxes[idx2.toNat]?, areas[idx1.toNat]?, areas[idx2.toNat]? with
      | some b1, some b2, some a1, some a2 =>
        match suppressLater boxes areas thresh idx1 later with
        | none => none
        | some (later', _) =>
          some ((if overlapAtLeast (intersectionArea b1 b2) a1 a2 thresh then -1 else idx2)
            :: later', true)
      | _, _, _, _ => none
    else
      match suppressLater boxes areas thresh idx1 later with
      | none => none
      | some (later', shouldContinue) => some (idx2 :: later', shouldContinue)

/-- The outer loop `for (int i = 0; shouldContinue && i < ordersNum; i++)` of `nms`. The first
argument is `ordersNum - i`, the number of iterations that the bound `i < ordersNum` still
allows, the list holds the entries `order[i .. ordersNum)`, followed by the current
`shouldContinue` and `keep`. -/
def nmsLoop (boxes : List Anchor) (areas : List ℚ) (thresh : ℚ) :
    Nat → List Int → Bool → List Int → Option (List Int)
  | 0, _, _, keep => some keep
  | _ + 1, [], _, keep => some keep
  | _ + 1, _ :: _, false, keep => some keep
  | remaining + 1, idx1 :: later, true, keep =>
    if 0 ≤ idx1 then
      match suppressLater boxes areas thresh idx1 later with
      | none => none
      | some (later', shouldContinue) =>
        nmsLoop boxes areas thresh remaining later' shouldContinue (keep ++ [idx1])
    else nmsLoop boxes areas thresh remaining later true keep

/-- The function `nms`. The index order produced by `std::iota` followed by `std::sort` with
the comparison `scores[o1] > scores[o2]` is the value `sort scores`: which order `std::sort`
leaves entries of equal score in is not fixed by its contract, so the sorting step is a
parameter (see `IsSortedOrder` for what every `std::sort` guarantees). -/
def nms (sort : List ℚ → List Int) (boxes : List Anchor) (scores : List ℚ) (thresh : ℚ) :
    Option (List Int) :=
  let areas := boxes.map boxArea
  let order := sort scores
  match countActive scores order with
  | none => none
  | some ordersNum => nmsLoop boxes areas thresh ordersNum (order.take ordersNum) true []

/-- The indices `0, 1, ..., n-1` written by `std::iota(order.begin(), order.end(), 0)`. -/
def iota (n : Nat) : List Int := (List.range n).map Int.ofNat

/-- The score read as `scores[o]` for an entry `o` of `order`. -/
def scoreAt (scores : List ℚ) (o : Int) : ℚ := (scores[o.toNat]?).getD 0

/-- What `std::sort(order.begin(), order.end(), comp)` with
`comp(o1, o2) = scores[o1] > scores[o2]` guarantees about `order`: it is a rearrangement of the
indices `0 .. |scores|-1`, and no entry compares before an earlier one, that is, scores do not
increase along `order`. -/
def IsSortedOrder (scores : List ℚ) (order : List Int) : Prop :=
  List.Perm order (iota scores.length) ∧
    order.Pairwise (fun o1 o2 => ¬ scoreAt scores o2 > scoreAt scores o1)

instance (scores : List ℚ) (order : List Int) : Decidable (IsSortedOrder scores order) := by
  unfold IsSortedOrder
  infer_instance

/-- Insertion of the index `o` into an order sorted by non-increasing score, behind every entry
whose score is at least that of `o`. -/
def insertByScore (scores : List ℚ) (o : Int) : List Int → List Int
  | [] => [o]
  | p :: rest =>
    if scoreAt scores o > scoreAt scores p then o :: p :: rest
    else p :: insertByScore scores o rest

/-- One admissible behaviour of the sorting step: a stable sort, which leaves indices of equal
score in increasing order. -/
def stableSort (scores : List ℚ) : List Int :=
  (iota scores.length).foldl (fun acc o => insertByScore scores o acc) []

/-- Insertion of the index `o` into an order sorted by non-increasing score, in front of every
entry whose score is at most that of `o`. -/
def insertBeforeTies (scores : List ℚ) (o : Int) : List Int → List Int
  | [] => [o]
  | p :: rest =>
    if scoreAt scores o ≥ scoreAt scores p then o :: p :: rest
    else p :: insertBeforeTies scores o rest

/-- Another admissible behaviour of the sorting step: indices of equal score end up in
decreasing order. -/
def tieReversingSort (scores : List ℚ) : List Int :=
  (iota scores.length).foldl (fun acc o => insertBeforeTies scores o acc) []


/-- The value `intersection / (areas[idx1] + areas[idx2] - intersection)` as a rational
(intersection over union), with the quotient by zero being `0`. -/
def iou (b1 b2 : Anchor) : ℚ :=
  intersectionArea b1 b2 / (boxArea b1 + boxArea b2 - intersectionArea b1 b2)

/-- The outcome of the test `overlap >= thresh` for the boxes at the indices `i` and `j`
(`false` when one of them is not an index of `boxes`). -/
def overlapTest (boxes : List Anchor) (thresh : ℚ) (i j : Int) : Bool :=
  match boxes[i.toNat]?, boxes[j.toNat]? with
  | some b1, some b2 => overlapAtLeast (intersectionArea b1 b2) (boxArea b1) (boxArea b2) thresh
  | _, _ => false

/-- The entry `order[j]` after the inner loop of `nms` for the kept index `idx1`. -/
def markSuppressed (boxes : List Anchor) (thresh : ℚ) (idx1 idx2 : Int) : Int :=
  if 0 ≤ idx2 ∧ overlapTest boxes thresh idx1 idx2 = true then -1 else idx2

/-- Greedy selection as a function on the list of candidates in processing order: keep the
first candidate, drop the later ones it suppresses, continue with the rest. -/
def greedyKeep (R : Int → Int → Bool) : List Int → List Int
  | [] => []
  | x :: xs => x :: greedyKeep R (xs.filter (fun y => !R x y))
termination_by l => l.length
decreasing_by
  simp only [List.length_cons]
  exact Nat.lt_succ_of_le (List.length_filter_le _ _)

/-- The boxes or scores selected by the kept indices, as `postprocess` collects them with
`push_back(proposals[kp])` and `push_back(scores[kp])`. -/
def selectKept {α : Type} (xs : List α) (keep : List Int) : List α :=
  keep.filterMap (fun kp => xs[kp.toNat]?)

/-- The boxes of the suppression example of the specification, followed by one more box whose
score is below the confidence threshold. -/
def exampleBoxes : List Anchor :=
  [⟨0, 0, 10, 10⟩, ⟨1, 1, 11, 11⟩, ⟨50, 50, 60, 60⟩, ⟨0, 0, 1, 1⟩]

/-- The scores of `exampleBoxes`; the last one is the mark `-1` of an entry below the
confidence threshold. -/
def exampleScores : List ℚ := [9 / 10, 8 / 10, 7 / 10, -1]

/-- Two boxes reduced to a point (zero area, zero union) and a third, marked box. -/
def pointBoxes : List Anchor := [⟨0, 0, 0, 0⟩, ⟨5, 5, 5, 5⟩, ⟨0, 0, 1, 1⟩]

/-- Two copies of one box with equal scores, and a third, marked box. -/
def tiedBoxes : List Anchor := [⟨0, 0, 10, 10⟩, ⟨0, 0, 10, 10⟩, ⟨0, 0, 1, 1⟩]

/-- The scores of `tiedBoxes`: a tie between the indices 0 and 1. -/
def tiedScores : List ℚ := [1, 1, -1]

/-- Two copies of one box, followed by nineteen copies of a small box: 21 entries, more than
the 16 entries up to which `std::sort` of libstdc++ sorts by insertion alone. -/
def tiedBoxes21 : List Anchor :=
  ⟨0, 0, 10, 10⟩ :: ⟨0, 0, 10, 10⟩ :: List.replicate 19 ⟨0, 0, 1, 1⟩

/-- The scores of `tiedBoxes21`: a tie between the indices 0 and 1, every other entry marked
`-1`. -/
def tiedScores21 : List ℚ := 1 :: 1 :: List.replicate 19 (-1)

/-- The order in which `std::sort` of libstdc++ (GCC 12) leaves the indices `0 .. 20` for the
scores `tiedScores21` and the comparison `scores[o1] > scores[o2]`. With more than 16 entries
it partitions first: the median-of-three step on the entries 1, 10 and 20 swaps the entries at
the positions 0 and 20, the partition around the new first entry 20 steps over the index 1 and
swaps the positions 2 and 20, 3 and 19, ..., 10 and 12, and the final insertion sort moves the
index 1 and then the index 0 in front of the marked entries. -/
def stdSortOrder21 : List Int :=
  [1, 0, 20, 19, 18, 17, 16, 15, 14, 13, 12, 11, 10, 9, 8, 7, 6, 5, 4, 3, 2]

/-! ## Anchor template generator (`_ratio_enum`, `_scale_enum`, `generate_anchors`) -/

/-- The accessors `getWidth`, `getHeight`, `getXCenter` and `getYCenter` of
`ModelRetinaFace::Anchor`. They are declared in `detection_model_retinaface.h`, which is not
among the translated sources, so the functions that call them take them as a parameter. -/
structure AnchorAccessors where
  getWidth : Anchor → ℚ
  getHeight : Anchor → ℚ
  getXCenter : Anchor → ℚ
  getYCenter : Anchor → ℚ

/-- Modelled from the spec: the accessors of `Anchor`, whose declaration is missing from the
sources, in the words of section 3 of the specification: "width = right-left,
height = bottom-top, center = midpoints". -/
def specAccessors : AnchorAccessors where
  getWidth := fun a => a.right - a.left
  getHeight := fun a => a.bottom - a.top
  getXCenter := fun a => (a.left + a.right) / 2
  getYCenter := fun a => (a.top + a.bottom) / 2

/-- The accessors under the convention that an anchor covers the pixels `left .. right` and
`top .. bottom` inclusively, so that its width is `right - left + 1`. This is the convention
that the re-centring `ctr - 0.5 * (size - 1), ctr + 0.5 * (size - 1)` of `_ratio_enum`,
`_scale_enum` and `_get_proposals` inverts. -/
def inclusiveAccessors : AnchorAccessors where
  getWidth := fun a => a.right - a.left + 1
  getHeight := fun a => a.bottom - a.top + 1
  getXCenter := fun a => a.left + (a.right - a.left + 1 - 1) / 2
  getYCenter := fun a => a.top + (a.bottom - a.top + 1 - 1) / 2

/-- The function `std::round`: the nearest integer, halves rounded away from zero. -/
def stdRound (q : ℚ) : ℚ := if 0 ≤ q then (⌊q + 1 / 2⌋ : ℤ) else -(⌊-q + 1 / 2⌋ : ℤ)

/-- The value `std::round(sqrt(x))` for `x ≥ 0`, computed exactly: it is the natural number `n`
with `(2n-1)² ≤ 4x < (2n+1)²`. (For `x < 0` the square root is NaN in the source, which the
embedding does not represent; the value here is then `0`.) -/
def roundSqrt (x : ℚ) : ℚ := ((Nat.sqrt ⌊4 * x⌋₊ + 1) / 2 : ℕ)

/-- The function `_ratio_enum`: one anchor per ratio, of about the same area as `anchor`
and with its centre. -/
def _ratio_enum (acc : AnchorAccessors) (anchor : Anchor) (ratios : List ℚ) : List Anchor :=
  let w := acc.getWidth anchor
  let h := acc.getHeight anchor
  let xCtr := acc.getXCenter anchor
  let yCtr := acc.getYCenter anchor
  ratios.map (fun ratio =>
    let size := w * h
    let size_ratio := size / ratio
    let ws := roundSqrt size_ratio
    let hs := stdRound (ws * ratio)
    ⟨xCtr - 1 / 2 * (ws - 1), yCtr - 1 / 2 * (hs - 1),
      xCtr + 1 / 2 * (ws - 1), yCtr + 1 / 2 * (hs - 1)⟩)

/-- The function `_scale_enum`: one anchor per scale, with the width and height of `anchor`
multiplied by the scale, and with its centre. -/
def _scale_enum (acc : AnchorAccessors) (anchor : Anchor) (scales : List ℚ) : List Anchor :=
  let w := acc.getWidth anchor
  let h := acc.getHeight anchor
  let xCtr := acc.getXCenter anchor
  let yCtr := acc.getYCenter anchor
  scales.map (fun scale =>
    let ws := w * scale
    let hs := h * scale
    ⟨xCtr - 1 / 2 * (ws - 1), yCtr - 1 / 2 * (hs - 1),
      xCtr + 1 / 2 * (ws - 1), yCtr + 1 / 2 * (hs - 1)⟩)

/-- The base anchor `{ 0, 0, (double)base_size - 1, (double)base_size - 1 }` of
`generate_anchors`. -/
def baseAnchor (base_size : Int) : Anchor := ⟨0, 0, (base_size : ℚ) - 1, (base_size : ℚ) - 1⟩

/-- The function `generate_anchors`: the scale variants of each ratio variant of the base
anchor, appended to `retVal` ratio after ratio. -/
def generate_anchors (acc : AnchorAccessors) (base_size : Int) (ratios scales : List ℚ) :
    List Anchor :=
  let ratio_anchors := _ratio_enum acc (baseAnchor base_size) ratios
  ratio_anchors.foldl (fun retVal ra => retVal ++ _scale_enum acc ra scales) []

/-- The struct `AnchorCfgLine`, as the constructor of `ModelRetinaFace` fills it:
`{ stride, scales, baseSize, ratios }`. -/
structure AnchorCfgLine where
  stride : Int
  scales : List ℚ
  baseSize : Int
  ratios : List ℚ
deriving DecidableEq, Repr

/-- The member `_anchors_fpn`, a map from stride to canonical anchors (`none`: no entry). -/
abbrev AnchorMap := Int → Option (List Anchor)

/-- The map without entries. -/
def emptyAnchorMap : AnchorMap := fun _ => none

/-- The call `m.emplace(key, value)`: the entry is added unless the key is present. -/
def mapEmplace (m : AnchorMap) (key : Int) (value : List Anchor) : AnchorMap :=
  fun k => if k = key then (match m k with
    | some old => some old
    | none => some value) else m k

/-- The read `_anchors_fpn[s]`: the anchors stored for `s`, and an empty vector when there is
no entry. -/
def mapGet (m : AnchorMap) (key : Int) : List Anchor := (m key).getD []

/-- What `std::sort(cfg.begin(), cfg.end(), comp)` with `comp(x, y) = x.stride > y.stride`
guarantees: a rearrangement of the lines in which strides do not increase. -/
def IsSortedCfg (cfg sorted : List AnchorCfgLine) : Prop :=
  List.Perm sorted cfg ∧ sorted.Pairwise (fun x y => ¬ y.stride > x.stride)

/-- The method `generate_anchors_fpn`, as a function from the member `_anchors_fpn` before the
call to the member after it. The sorting step is a parameter, as in `nms`. -/
def generate_anchors_fpn (acc : AnchorAccessors)
    (sortCfg : List AnchorCfgLine → List AnchorCfgLine) (anchorCfg : List AnchorCfgLine)
    (_anchors_fpn : AnchorMap) : AnchorMap :=
  let cfg := sortCfg anchorCfg
  cfg.foldl (fun m cfgLine =>
    mapEmplace m cfgLine.stride
      (generate_anchors acc cfgLine.baseSize cfgLine.ratios cfgLine.scales)) _anchors_fpn

/-- The three lines that the constructor of `ModelRetinaFace` pushes to `anchorCfg`. -/
def defaultAnchorCfg : List AnchorCfgLine :=
  [⟨32, [32, 16], 16, [1]⟩, ⟨16, [8, 4], 16, [1]⟩, ⟨8, [2, 1], 16, [1]⟩]

instance (cfg sorted : List AnchorCfgLine) : Decidable (IsSortedCfg cfg sorted) := by
  unfold IsSortedCfg
  infer_instance

/-! ## Anchor grid (the strided anchors plane of `postprocess`) -/

/-- The four assignments `anc.left = anchors_fpn[k].left + sw; anc.top = anchors_fpn[k].top + sh;
anc.right = anchors_fpn[k].right + sw; anc.bottom = anchors_fpn[k].bottom + sh`. -/
def shiftAnchor (a : Anchor) (sw sh : Int) : Anchor :=
  ⟨a.left + sw, a.top + sh, a.right + sw, a.bottom + sh⟩

/-- The strided anchors plane built in `postprocess` for the stride `s`, the grid
`height × width` of the bounding-box tensor and the canonical anchors `anchors_fpn`: a vector
of `height*width*anchor_num` zero anchors, filled by the three nested loops over `iw`, `ih`
and `k`. -/
def anchorsPlane (s : Int) (height width : Nat) (anchors_fpn : List Anchor) : List Anchor :=
  let anchor_num := anchors_fpn.length
  (List.range width).foldl (fun (anchors : List Anchor) (iw : Nat) =>
    let sw := (iw : Int) * s
    (List.range height).foldl (fun (anchors : List Anchor) (ih : Nat) =>
      let sh := (ih : Int) * s
      anchors_fpn.enum.foldl (fun (anchors : List Anchor) (ka : Nat × Anchor) =>
        anchors.set ((ih * width + iw) * anchor_num + ka.1) (shiftAnchor ka.2 sw sh)) anchors)
      anchors)
    (List.replicate (height * width * anchor_num) ⟨0, 0, 0, 0⟩)

/-- The entry at position `q` of the anchors plane in closed form: the canonical anchor
`q mod anchor_num`, moved to the cell `q / anchor_num` of the grid. -/
def planeEntry (s : Int) (width : Nat) (anchors_fpn : List Anchor) (q : Nat) : Anchor :=
  shiftAnchor ((anchors_fpn[q % anchors_fpn.length]?).getD ⟨0, 0, 0, 0⟩)
    (((q / anchors_fpn.length % width : Nat) : Int) * s)
    (((q / anchors_fpn.length / width : Nat) : Int) * s)

/-! ## Tensor decoders -/

/-- A blob of the inference result: its dimensions `sz = (1, channels, height, width)` and its
buffer `memPtr` of `float` values in this (channel-major) order. -/
structure Tensor where
  channels : Nat
  height : Nat
  width : Nat
  data : List ℚ
deriving DecidableEq, Repr

/-- The type `cv::Point2f`. -/
structure Point2f where
  x : ℚ
  y : ℚ
deriving DecidableEq, Repr

/-- Modelled from the spec: the constant `ModelRetinaFace::LANDMARKS_NUM`, declared in the
missing header; the specification gives "5 in the reference configuration". -/
def LANDMARKS_NUM : Nat := 5

/-- All the values of a list of results, or `none` when one of them is `none`. -/
def collectAll {α : Type} : List (Option α) → Option (List α)
  | [] => some []
  | none :: _ => none
  | some a :: rest =>
    match collectAll rest with
    | some as => some (a :: as)
    | none => none

/-- The body of the loop of `_get_proposals` for the anchor `i`: the box `retVal[i]`. The four
deltas are read at `offset`, `offset + blockWidth`, `offset + 2*blockWidth` and
`offset + 3*blockWidth`. -/
def proposalAt (acc : AnchorAccessors) (exp : ℚ → ℚ) (rawData : Tensor) (anchor_num : Nat)
    (i : Nat) (anchor : Anchor) : Option Anchor :=
  let bbox_pred_len := rawData.channels / anchor_num
  let blockWidth := rawData.height * rawData.width
  let offset := blockWidth * bbox_pred_len * (i % anchor_num) + i / anchor_num
  match rawData.data[offset]?, rawData.data[offset + blockWidth]?,
      rawData.data[offset + blockWidth * 2]?, rawData.data[offset + blockWidth * 3]? with
  | some dx, some dy, some dw, some dh =>
    let pred_ctr_x := dx * acc.getWidth anchor + acc.getXCenter anchor
    let pred_ctr_y := dy * acc.getHeight anchor + acc.getYCenter anchor
    let exp_dw := exp dw
    let exp_dh := exp dh
    let w := acc.getWidth anchor
    let h := acc.getHeight anchor
    let pred_w := exp_dw * w
    let pred_h := exp_dh * h
    some ⟨pred_ctr_x - 1 / 2 * (pred_w - 1), pred_ctr_y - 1 / 2 * (pred_h - 1),
      pred_ctr_x + 1 / 2 * (pred_w - 1), pred_ctr_y + 1 / 2 * (pred_h - 1)⟩
  | _, _, _, _ => none

/-- The function `_get_proposals`. The quotient `sz[1] / anchor_num` is an integer division:
with `anchor_num = 0` it is undefined (`none`). -/
def _get_proposals (acc : AnchorAccessors) (exp : ℚ → ℚ) (rawData : Tensor) (anchor_num : Nat)
    (anchors : List Anchor) : Option (List Anchor) :=
  if anchor_num = 0 then none
  else collectAll (anchors.enum.map (fun (ia : Nat × Anchor) =>
    proposalAt acc exp rawData anchor_num ia.1 ia.2))

/-- The function `_get_scores`. When `anchor_num` exceeds the channel count, the unsigned
difference `sz[1] - anchor_num` wraps around: the vector `retVal` is then empty if the plane is
empty, and otherwise its allocation fails (`none`). -/
def _get_scores (rawData : Tensor) (anchor_num : Nat) : Option (List ℚ) :=
  if rawData.channels < anchor_num then
    if rawData.height = 0 ∨ rawData.width = 0 then some [] else none
  else
    let restAnchors := rawData.channels - anchor_num
    (List.range' anchor_num restAnchors).foldlM (fun (retVal : List ℚ) (x : Nat) =>
      (List.range rawData.height).foldlM (fun (retVal : List ℚ) (y : Nat) =>
        (List.range rawData.width).foldlM (fun (retVal : List ℚ) (z : Nat) =>
          match rawData.data[(x * rawData.height + y) * rawData.width + z]? with
          | some v =>
            some (retVal.set ((y * rawData.width + z) * restAnchors + (x - anchor_num)) v)
          | none => none) retVal) retVal)
      (List.replicate (restAnchors * rawData.height * rawData.width) 0)

/-- The function `_get_mask_scores`: the same loops with `anchor_num*2` as the first channel. -/
def _get_mask_scores (rawData : Tensor) (anchor_num : Nat) : Option (List ℚ) :=
  if rawData.channels < anchor_num * 2 then
    if rawData.height = 0 ∨ rawData.width = 0 then some [] else none
  else
    let restAnchors := rawData.channels - anchor_num * 2
    (List.range' (anchor_num * 2) restAnchors).foldlM (fun (retVal : List ℚ) (x : Nat) =>
      (List.range rawData.height).foldlM (fun (retVal : List ℚ) (y : Nat) =>
        (List.range rawData.width).foldlM (fun (retVal : List ℚ) (z : Nat) =>
          match rawData.data[(x * rawData.height + y) * rawData.width + z]? with
          | some v =>
            some (retVal.set ((y * rawData.width + z) * restAnchors + (x - anchor_num * 2)) v)
          | none => none) retVal) retVal)
      (List.replicate (restAnchors * rawData.height * rawData.width) 0)

/-- The point that `_get_landmarks` computes for the landmark `j` of the anchor `i` and
assigns to `retVal[i][j]`. -/
def landmarkPoint (acc : AnchorAccessors) (rawData : Tensor) (anchor_num : Nat)
    (landmark_std : ℚ) (i : Nat) (anchor : Anchor) (j : Nat) : Option Point2f :=
  let landmark_pred_len := rawData.channels / anchor_num
  let stride := landmark_pred_len * rawData.height * rawData.width
  let blockWidth := rawData.height * rawData.width
  match
    (if i % 2 ≠ 0 then rawData.data[stride + i / 2 + j * 2 * blockWidth]?
      else rawData.data[i / 2 + j * 2 * blockWidth]?),
    (if i % 2 ≠ 0 then rawData.data[stride + i / 2 + (j * 2 + 1) * blockWidth]?
      else rawData.data[i / 2 + (j * 2 + 1) * blockWidth]?) with
  | some vx, some vy =>
    let deltaX := vx * landmark_std
    let deltaY := vy * landmark_std
    some ⟨deltaX * acc.getWidth anchor + acc.getXCenter anchor,
      deltaY * acc.getHeight anchor + acc.getYCenter anchor⟩
  | _, _ => none

/-- The function `_get_landmarks`. Each `retVal[i]` is created empty;
`retVal[i].reserve(LANDMARKS_NUM)` reserves storage without changing its size, and the
assignments `retVal[i][j] = ...` store the points into that storage, beyond the size of the
vector. The size of every returned vector is therefore still 0: it is the empty list here,
once the reads that compute its points have succeeded. With `anchor_num = 0` the integer
division `sz[1] / anchor_num` is undefined (`none`). -/
def _get_landmarks (acc : AnchorAccessors) (rawData : Tensor) (anchor_num : Nat)
    (anchors : List Anchor) (landmark_std : ℚ) : Option (List (List Point2f)) :=
  if anchor_num = 0 then none
  else collectAll (anchors.enum.map (fun (ia : Nat × Anchor) =>
    match collectAll ((List.range LANDMARKS_NUM).map (fun j =>
      landmarkPoint acc rawData anchor_num landmark_std ia.1 ia.2 j)) with
    | some _ => some []
    | none => none))

/-! ## The method `postprocess` -/

/-- The enumeration `EOutputType` that indexes `separateOutputsNames`. -/
inductive EOutputType where
  | OT_BBOX
  | OT_SCORES
  | OT_LANDMARK
  | OT_MASKSCORES
deriving DecidableEq, Repr

/-- The members of `ModelRetinaFace` (and of its base `DetectionModel`) that `postprocess`
reads. -/
structure ModelRetinaFace where
  anchorCfg : List AnchorCfgLine
  _anchors_fpn : AnchorMap
  landmark_std : ℚ
  shouldDetectMasks : Bool
  confidenceThreshold : ℚ
  netInputHeight : Nat
  netInputWidth : Nat
  separateOutputsNames : EOutputType → List String

/-- The argument `infResult` of `postprocess`: the output blobs by name, and the size of the
image held by its meta data. -/
structure InferenceResult where
  outputsData : List (String × Tensor)
  imgWidth : Int
  imgHeight : Int

/-- The struct `DetectedObject`: a rectangle with confidence and label. -/
structure DetectedObject where
  x : ℚ
  y : ℚ
  width : ℚ
  height : ℚ
  confidence : ℚ
  labelID : Int
  label : String
deriving DecidableEq, Repr

/-- What `postprocess` produces: the objects of the returned `DetectionResult` and the
`landmarks_regression` stored in the meta data. -/
structure DetectionResult where
  objects : List DetectedObject
  landmarks_regression : List (List Point2f)
deriving DecidableEq, Repr

/-- The parts of the run-time environment that the sources do not define: the accessors of
`Anchor`, the function `exp` and the behaviour of `std::sort` on the index order of `nms`. -/
structure Env where
  acc : AnchorAccessors
  exp : ℚ → ℚ
  sort : List ℚ → List Int

/-- The vectors decoded for one scale level, before the confidence threshold is applied. -/
structure LevelDecoded where
  proposals : List Anchor
  landmarks : List (List Point2f)
  scores : List ℚ
  maskScores : List ℚ
deriving DecidableEq, Repr

/-- The candidates of one scale level that are appended to `proposals_list`, `landmarks_list`,
`scores_list` and `mask_scores_list`. -/
structure LevelKept where
  proposals : List Anchor
  landmarks : List (List Point2f)
  scores : List ℚ
  maskScores : List ℚ
deriving DecidableEq, Repr

/-- The first part of the body of the loop over `anchorCfg` in `postprocess`, for the level
`idx`: the blobs are looked up by name, the scores are extracted, the anchors plane is built
on the grid of the bounding-box blob, and proposals, landmarks and (if requested) mask scores
are decoded. A missing name, a missing blob or a read outside a buffer gives `none`. -/
def decodeLevel (env : Env) (m : ModelRetinaFace) (infResult : InferenceResult) (idx : Nat)
    (cfgLine : AnchorCfgLine) : Option LevelDecoded := do
  let s := cfgLine.stride
  let anchors_fpn := mapGet m._anchors_fpn s
  let anchor_num := anchors_fpn.length
  let scoresName ← (m.separateOutputsNames EOutputType.OT_SCORES)[idx]?
  let scoresBlob ← infResult.outputsData.lookup scoresName
  let scores ← _get_scores scoresBlob anchor_num
  let bboxName ← (m.separateOutputsNames EOutputType.OT_BBOX)[idx]?
  let bbox_deltas ← infResult.outputsData.lookup bboxName
  let height := bbox_deltas.height
  let width := bbox_deltas.width
  let anchors := anchorsPlane s height width anchors_fpn
  let proposals ← _get_proposals env.acc env.exp bbox_deltas anchor_num anchors
  let landmarkName ← (m.separateOutputsNames EOutputType.OT_LANDMARK)[idx]?
  let landmarkBlob ← infResult.outputsData.lookup landmarkName
  let landmarks ← _get_landmarks env.acc landmarkBlob anchor_num anchors m.landmark_std
  let maskScores ←
    if m.shouldDetectMasks then do
      let maskName ← (m.separateOutputsNames EOutputType.OT_MASKSCORES)[idx]?
      let maskBlob ← infResult.outputsData.lookup maskName
      _get_mask_scores maskBlob anchor_num
    else some []
  some ⟨proposals, landmarks, scores, maskScores⟩

/-- The loop `for (auto& sc : scores) if (sc < confidenceThreshold) sc = -1;`. -/
def markBelowThreshold (confidenceThreshold : ℚ) (scores : List ℚ) : List ℚ :=
  scores.map (fun sc => if sc < confidenceThreshold then -1 else sc)

/-- The loop `for (auto kp : keep)` of `postprocess`: the entries at the kept indices are
pushed to the four lists; a read outside a vector gives `none`. -/
def gatherKept (shouldDetectMasks : Bool) (d : LevelDecoded) (scores : List ℚ) :
    List Int → Option LevelKept
  | [] => some ⟨[], [], [], []⟩
  | kp :: keep =>
    match d.proposals[kp.toNat]?, d.landmarks[kp.toNat]?, scores[kp.toNat]?,
        (if shouldDetectMasks then d.maskScores[kp.toNat]? else some 0) with
    | some p, some l, some sc, some ms =>
      match gatherKept shouldDetectMasks d scores keep with
      | some rest =>
        some ⟨p :: rest.proposals, l :: rest.landmarks, sc :: rest.scores,
          if shouldDetectMasks then ms :: rest.maskScores else rest.maskScores⟩
      | none => none
    | _, _, _, _ => none

/-- The second part of the body of the loop over `anchorCfg`: the scores below the confidence
threshold are marked, and, if there is any score, `nms` with the threshold 0.5 selects the
candidates that are kept. -/
def keepLevel (env : Env) (m : ModelRetinaFace) (d : LevelDecoded) : Option LevelKept :=
  let scores := markBelowThreshold m.confidenceThreshold d.scores
  if scores.length = 0 then some ⟨[], [], [], []⟩
  else
    match nms env.sort d.proposals scores (1 / 2) with
    | none => none
    | some keep => gatherKept m.shouldDetectMasks d scores keep

/-- The loop `for (int i = 0; i < scores_list.size(); i++)` at the end of `postprocess`: each
kept candidate becomes a `DetectedObject` with its coordinates divided by the scale factors,
and is pushed to `result->objects` if `desc.confidence > confidenceThreshold`. The lists
`scores_list` and `proposals_list` have the same length. -/
def emitObjects (acc : AnchorAccessors) (confidenceThreshold scale_x scale_y : ℚ)
    (scores_list : List ℚ) (proposals_list : List Anchor) : List DetectedObject :=
  (scores_list.zip proposals_list).filterMap (fun (sp : ℚ × Anchor) =>
    let desc : DetectedObject :=
      { confidence := sp.1
        x := sp.2.left / scale_x
        y := sp.2.top / scale_y
        width := acc.getWidth sp.2 / scale_x
        height := acc.getHeight sp.2 / scale_y
        labelID := 1
        label := "Face" }
    if desc.confidence > confidenceThreshold then some desc else none)

/-- The method `postprocess`. The scale factors are the quotients of the network input size by
the image size (an image size of 0 is outside the embedding). -/
def postprocess (env : Env) (m : ModelRetinaFace) (infResult : InferenceResult) :
    Option DetectionResult :=
  match collectAll (m.anchorCfg.enum.map (fun (ic : Nat × AnchorCfgLine) =>
      match decodeLevel env m infResult ic.1 ic.2 with
      | none => none
      | some d => keepLevel env m d)) with
  | none => none
  | some levels =>
    let proposals_list := (levels.map (fun l => l.proposals)).flatten
    let scores_list := (levels.map (fun l => l.scores)).flatten
    let landmarks_list := (levels.map (fun l => l.landmarks)).flatten
    let scale_x := (m.netInputWidth : ℚ) / (infResult.imgWidth : ℚ)
    let scale_y := (m.netInputHeight : ℚ) / (infResult.imgHeight : ℚ)
    some
      { objects := emitObjects env.acc m.confidenceThreshold scale_x scale_y scores_list
          proposals_list
        landmarks_regression := landmarks_list.map (fun face_landmarks =>
          face_landmarks.map (fun landmark => ⟨landmark.x / scale_x, landmark.y / scale_y⟩)) }

/-- A function that agrees with `exp` at `0`. It stands for `exp` in the examples below, whose
regression deltas are all zero, so that `exp` is only ever applied to `0` there. -/
def expAtZero (x : ℚ) : ℚ := if x = 0 then 1 else 0

/-- An environment for the examples: the given accessors, `expAtZero` and the stable sort. -/
def exampleEnv (acc : AnchorAccessors) : Env := ⟨acc, expAtZero, stableSort⟩

/-- The map `_anchors_fpn` that `generate_anchors_fpn` builds for `defaultAnchorCfg` under the
inclusive convention of the accessors: two canonical anchors per stride. -/
def exampleAnchorsFpn : AnchorMap :=
  mapEmplace
    (mapEmplace
      (mapEmplace emptyAnchorMap 32 [⟨-248, -248, 263, 263⟩, ⟨-120, -120, 135, 135⟩])
      16 [⟨-56, -56, 71, 71⟩, ⟨-24, -24, 39, 39⟩])
    8 [⟨-8, -8, 23, 23⟩, ⟨0, 0, 15, 15⟩]

/-- A model in the state that the constructor and `prepareInputsOutputs` leave: the three
configuration lines of the constructor, their canonical anchors, `landmark_std = 0.2`, no mask
detection, a network input of 8 × 8 and nine outputs, three per head type, listed in the order
in which they are visited; the confidence threshold is the argument. -/
def exampleModel (confidenceThreshold : ℚ) : ModelRetinaFace where
  anchorCfg := defaultAnchorCfg
  _anchors_fpn := exampleAnchorsFpn
  landmark_std := 1 / 5
  shouldDetectMasks := false
  confidenceThreshold := confidenceThreshold
  netInputHeight := 8
  netInputWidth := 8
  separateOutputsNames := fun t =>
    match t with
    | EOutputType.OT_BBOX => ["bbox_0", "bbox_1", "bbox_2"]
    | EOutputType.OT_SCORES => ["cls_0", "cls_1", "cls_2"]
    | EOutputType.OT_LANDMARK => ["landmark_0", "landmark_1", "landmark_2"]
    | EOutputType.OT_MASKSCORES => []

/-- An inference result for `exampleModel` on an 8 × 8 image: every level has a grid of one
cell (two anchors), all regression deltas are zero, the foreground scores are 1/10 and 1/10 on
the levels 0 and 1, and 1/2 and 1/10 on the level 2 (stride 8). -/
def exampleResult : InferenceResult where
  outputsData :=
    [("bbox_0", ⟨8, 1, 1, List.replicate 8 0⟩),
      ("bbox_1", ⟨8, 1, 1, List.replicate 8 0⟩),
      ("bbox_2", ⟨8, 1, 1, List.replicate 8 0⟩),
      ("cls_0", ⟨4, 1, 1, [9 / 10, 9 / 10, 1 / 10, 1 / 10]⟩),
      ("cls_1", ⟨4, 1, 1, [9 / 10, 9 / 10, 1 / 10, 1 / 10]⟩),
      ("cls_2", ⟨4, 1, 1, [1 / 2, 9 / 10, 1 / 2, 1 / 10]⟩),
      ("landmark_0", ⟨20, 1, 1, List.replicate 20 0⟩),
      ("landmark_1", ⟨20, 1, 1, List.replicate 20 0⟩),
      ("landmark_2", ⟨20, 1, 1, List.replicate 20 0⟩)]
  imgWidth := 8
  imgHeight := 8

/-- The blob `infResult.outputsData[separateOutputsNames[type][idx]]` that `postprocess` reads
for the head `type` of the level `idx` (`none` when the name or the blob is missing). -/
def levelBlob (m : ModelRetinaFace) (infResult : InferenceResult) (type : EOutputType)
    (idx : Nat) : Option Tensor :=
  match (m.separateOutputsNames type)[idx]? with
  | none => none
  | some name => infResult.outputsData.lookup name

/-- The blob `t` has the spatial dimensions of the bounding-box blob `bbox`, and its buffer
holds one value for every position of its shape. -/
def fitsGrid (t bbox : Tensor) : Prop :=
  t.height = bbox.height ∧ t.width = bbox.width ∧
    t.data.length = t.channels * t.height * t.width

instance (t bbox : Tensor) : Decidable (fitsGrid t bbox) := by
  unfold fitsGrid
  infer_instance

/-- The inference result `infResult` with the blob `name` replaced by `t`. -/
def replaceBlob (infResult : InferenceResult) (name : String) (t : Tensor) : InferenceResult :=
  { infResult with outputsData := (name, t) :: infResult.outputsData }

/-- A model with a single configuration line, whose canonical anchors are `anchors_fpn`, with
one output per head type and no mask detection. -/
def singleLevelModel (cfgLine : AnchorCfgLine) (anchors_fpn : List Anchor)
    (confidenceThreshold : ℚ) (netInputHeight netInputWidth : Nat) : ModelRetinaFace where
  anchorCfg := [cfgLine]
  _anchors_fpn := mapEmplace emptyAnchorMap cfgLine.stride anchors_fpn
  landmark_std := 1 / 5
  shouldDetectMasks := false
  confidenceThreshold := confidenceThreshold
  netInputHeight := netInputHeight
  netInputWidth := netInputWidth
  separateOutputsNames := fun t =>
    match t with
    | EOutputType.OT_BBOX => ["bbox"]
    | EOutputType.OT_SCORES => ["cls"]
    | EOutputType.OT_LANDMARK => ["landmark"]
    | EOutputType.OT_MASKSCORES => []

/-- An inference result for `singleLevelModel`: the three blobs and the size of the image. -/
def singleLevelResult (bbox cls landmark : Tensor) (imgWidth imgHeight : Int) :
    InferenceResult where
  outputsData := [("bbox", bbox), ("cls", cls), ("landmark", landmark)]
  imgWidth := imgWidth
  imgHeight := imgHeight

/-! ## Label names (`DetectionModel::getLabelName`) -/

/-- The conversion `(size_t)labelID` of an `int` to the unsigned 64-bit type `size_t`: the
value modulo `2^64`. -/
def toSizeT (n : Int) : Nat := (n % 2 ^ 64).toNat

/-- The function `std::to_string` on an `int`: the decimal digits, after a minus sign for a
negative value. -/
def std_to_string (n : Int) : String :=
  if n < 0 then "-" ++ Nat.repr n.natAbs else Nat.repr n.toNat

/-- The method `DetectionModel::getLabelName`:
`(size_t)labelID < labels.size() ? labels[labelID] : std::string("Label #") + std::to_string(labelID)`. -/
def getLabelName (labels : List String) (labelID : Int) : String :=
  if h : toSizeT labelID < labels.length then labels[toSizeT labelID]
  else "Label #" ++ std_to_string labelID

/-! ## The method `prepareInputsOutputs` -/

/-- The characters of `pattern` are the first characters of `s`. -/
def startsWith : List Char → List Char → Bool
  | _, [] => true
  | [], _ :: _ => false
  | c :: s, p :: ps => c == p && startsWith s ps

/-- The test `s.find(pattern) != -1` of `std::string`: `pattern` occurs in `s` at some
position (`find` returns `npos`, which is what `-1` converts to, exactly when it does not). -/
def findsIn : List Char → List Char → Bool
  | [], pattern => startsWith [] pattern
  | c :: s, pattern => startsWith (c :: s) pattern || findsIn s pattern

/-- What `prepareInputsOutputs` reads of one entry of the input map of the network: its name
and the height and width of its tensor descriptor (`getTensorHeight` and `getTensorWidth` are
not in the sources; their values are taken as given). -/
structure NetInput where
  name : String
  height : Nat
  width : Nat
deriving DecidableEq, Repr

/-- What `prepareInputsOutputs` reads of one entry of the output map: its name and `getDims()`. -/
structure NetOutput where
  name : String
  dims : List Nat
deriving DecidableEq, Repr

/-- The network `cnnNetwork`: the entries of `getInputsInfo()` and of `getOutputsInfo()`, in the
order in which the maps are iterated. -/
structure CNNNetwork where
  inputs : List NetInput
  outputs : List NetOutput
deriving DecidableEq, Repr

/-- The members of the model that `prepareInputsOutputs` writes. -/
structure ModelNames where
  inputsNames : List String
  outputsNames : List String
  separateOutputsNames : EOutputType → List String
  netInputHeight : Nat
  netInputWidth : Nat

/-- The model before `prepareInputsOutputs` is called: no name is recorded. -/
def freshNames : ModelNames := ⟨[], [], fun _ => [], 0, 0⟩

/-- The conversion of a `size_t` to `int` (32 bits, two's complement), as when `num` is
inserted into a `std::vector<int>`. -/
def toInt32 (n : Nat) : Int := (((n + 2 ^ 31) % 2 ^ 32 : Nat) : Int) - 2 ^ 31

/-- The chain of tests on the name of an output: the first of "bbox", "cls", "landmark" that
occurs in the name decides the type, "type" counts only when masks are detected, and any other
output is skipped (`none` is the `continue`). -/
def classifyOutput (shouldDetectMasks : Bool) (name : String) : Option EOutputType :=
  if findsIn name.data "bbox".data then some EOutputType.OT_BBOX
  else if findsIn name.data "cls".data then some EOutputType.OT_SCORES
  else if findsIn name.data "landmark".data then some EOutputType.OT_LANDMARK
  else if shouldDetectMasks && findsIn name.data "type".data then some EOutputType.OT_MASKSCORES
  else none

/-- The loop `for (; i < outputsSizes[type].size(); i++) if (num < outputsSizes[type][i]) break;`:
the index of the first recorded size that `num` is less than (the `int` is converted to
`size_t` for the comparison), or the number of recorded sizes. -/
def insertPosition (num : Nat) : List Int → Nat
  | [] => 0
  | sz :: rest => if num < toSizeT sz then 0 else insertPosition num rest + 1

/-- The variables that the loop over the outputs updates: the member `outputsNames`, the member
`separateOutputsNames` and the local array `outputsSizes`. -/
structure OutputsState where
  outputsNames : List String
  separateOutputsNames : EOutputType → List String
  outputsSizes : EOutputType → List Int

/-- The body of the loop `for (auto& output : outputInfo)`: the name is pushed to `outputsNames`;
if the name has a type, the name and `getDims()[2]` are inserted at the same position of the
lists of that type. Reading `getDims()[2]` of a shorter shape gives `none`. -/
def visitOutput (shouldDetectMasks : Bool) (st : OutputsState) (output : NetOutput) :
    Option OutputsState :=
  let outputsNames := st.outputsNames ++ [output.name]
  match classifyOutput shouldDetectMasks output.name with
  | none => some ⟨outputsNames, st.separateOutputsNames, st.outputsSizes⟩
  | some type =>
    match output.dims[2]? with
    | none => none
    | some num =>
      let i := insertPosition num (st.outputsSizes type)
      some ⟨outputsNames,
        Function.update st.separateOutputsNames type
          ((st.separateOutputsNames type).insertIdx i output.name),
        Function.update st.outputsSizes type ((st.outputsSizes type).insertIdx i (toInt32 num))⟩

/-- The loop `for (auto& output : outputInfo)`. -/
def visitOutputs (shouldDetectMasks : Bool) : OutputsState → List NetOutput → Option OutputsState
  | st, [] => some st
  | st, output :: rest =>
    match visitOutput shouldDetectMasks st output with
    | none => none
    | some st1 => visitOutputs shouldDetectMasks st1 rest

/-- The method `prepareInputsOutputs`, on the members `names` of the model. A thrown
`std::logic_error` is `Except.error` with its message; `none` is a read outside a shape. -/
def prepareInputsOutputs (shouldDetectMasks : Bool) (names : ModelNames)
    (cnnNetwork : CNNNetwork) : Option (Except String ModelNames) :=
  match cnnNetwork.inputs with
  | [input] =>
    match visitOutputs shouldDetectMasks
        ⟨names.outputsNames, names.separateOutputsNames, fun _ => []⟩ cnnNetwork.outputs with
    | none => none
    | some st =>
      if st.outputsNames.length ≠ 9 ∧ st.outputsNames.length ≠ 12 then
        some (Except.error "Expected 12 or 9 output blobs")
      else
        some (Except.ok ⟨names.inputsNames ++ [input.name], st.outputsNames,
          st.separateOutputsNames, input.height, input.width⟩)
  | _ => some (Except.error "This demo accepts networks that have only one input")

/-- A network with one input and nine outputs, three per stride, none of whose names contains
"landmark". -/
def networkWithoutLandmarks : CNNNetwork where
  inputs := [⟨"data", 8, 8⟩]
  outputs :=
    [⟨"face_rpn_bbox_pred_stride16", [1, 8, 2, 2]⟩,
      ⟨"face_rpn_bbox_pred_stride32", [1, 8, 1, 1]⟩,
      ⟨"face_rpn_bbox_pred_stride8", [1, 8, 4, 4]⟩,
      ⟨"face_rpn_cls_prob_reshape_stride16", [1, 4, 2, 2]⟩,
      ⟨"face_rpn_cls_prob_reshape_stride32", [1, 4, 1, 1]⟩,
      ⟨"face_rpn_cls_prob_reshape_stride8", [1, 4, 4, 4]⟩,
      ⟨"other_stride16", [1, 20, 2, 2]⟩,
      ⟨"other_stride32", [1, 20, 1, 1]⟩,
      ⟨"other_stride8", [1, 20, 4, 4]⟩]

/-- The value `getDims()[2]` of an output, the height of its tensor (`0` stands for a shape
with fewer than three dimensions, on which `prepareInputsOutputs` does not get as far as
recording the output). -/
def tensorHeight (o : NetOutput) : Nat := (o.dims[2]?).getD 0

/-- A network with one input of 8 × 8 and the nine outputs of a RetinaFace model without mask
detection, in the order of their names: for each head the outputs of the strides 16, 32 and 8,
on grids of 2 × 2, 1 × 1 and 4 × 4. -/
def exampleNetwork : CNNNetwork where
  inputs := [⟨"data", 8, 8⟩]
  outputs :=
    [⟨"face_rpn_bbox_pred_stride16", [1, 8, 2, 2]⟩,
      ⟨"face_rpn_bbox_pred_stride32", [1, 8, 1, 1]⟩,
      ⟨"face_rpn_bbox_pred_stride8", [1, 8, 4, 4]⟩,
      ⟨"face_rpn_cls_prob_reshape_stride16", [1, 4, 2, 2]⟩,
      ⟨"face_rpn_cls_prob_reshape_stride32", [1, 4, 1, 1]⟩,
      ⟨"face_rpn_cls_prob_reshape_stride8", [1, 4, 4, 4]⟩,
      ⟨"face_rpn_landmark_pred_stride16", [1, 20, 2, 2]⟩,
      ⟨"face_rpn_landmark_pred_stride32", [1, 20, 1, 1]⟩,
      ⟨"face_rpn_landmark_pred_stride8", [1, 20, 4, 4]⟩]

/-- The state `st` of the loop over the outputs records, for every type, the outputs
`heads type`: their names in `separateOutputsNames`, their heights (converted to `int`) in
`outputsSizes`, at the same positions; these outputs are the ones of that type among the
outputs `visited` so far, in the order of their heights, outputs of equal height in the order
in which they were visited, and every height fits in an `int`. -/
def HeadsRecorded (shouldDetectMasks : Bool) (visited : List NetOutput) (st : OutputsState)
    (heads : EOutputType → List NetOutput) : Prop :=
  ∀ type : EOutputType,
    st.separateOutputsNames type = (heads type).map (fun o => o.name) ∧
    st.outputsSizes type = (heads type).map (fun o => toInt32 (tensorHeight o)) ∧
    (heads type).Pairwise (fun x y => tensorHeight x ≤ tensorHeight y) ∧
    List.Perm (heads type)
      (visited.filter (fun o => decide (classifyOutput shouldDetectMasks o.name = some type))) ∧
    (∀ n : Nat, (heads type).filter (fun o => decide (tensorHeight o = n)) =
      (visited.filter (fun o =>
        decide (classifyOutput shouldDetectMasks o.name = some type))).filter
          (fun o => decide (tensorHeight o = n))) ∧
    ∀ x ∈ heads type, tensorHeight x < 2 ^ 31

/-! # Theorems -/

/-! ### Lemmas on the suppression loop -/

theorem suppressLater_length (boxes : List Anchor) (areas : List ℚ) (thresh : ℚ) (idx1 : Int) :
    ∀ (l l' : List Int) (sc : Bool),
      suppressLater boxes areas thresh idx1 l = some (l', sc) → l'.length = l.length
  | [], l', sc, h => by
    simp only [suppressLater, Option.some.injEq, Prod.mk.injEq] at h
    rw [← h.1]
  | idx2 :: later, l', sc, h => by
    unfold suppressLater at h
    split at h
    · split at h
      · split at h
        · exact absurd h (by simp)
        · rename_i later' _ hrec
          simp only [Option.some.injEq, Prod.mk.injEq] at h
          rw [← h.1]
          simp [suppressLater_length boxes areas thresh idx1 later later' _ hrec]
      · exact absurd h (by simp)
    · split at h
      · exact absurd h (by simp)
      · rename_i later' sc' hrec
        simp only [Option.some.injEq, Prod.mk.injEq] at h
        rw [← h.1]
        simp [suppressLater_length boxes areas thresh idx1 later later' _ hrec]


theorem intersectionArea_comm (b1 b2 : Anchor) :
    intersectionArea b1 b2 = intersectionArea b2 b1 := by
  unfold intersectionArea
  simp only [min_comm b1.right b2.right, max_comm b1.left b2.left,
    min_comm b1.bottom b2.bottom, max_comm b1.top b2.top]

theorem iou_comm (b1 b2 : Anchor) : iou b1 b2 = iou b2 b1 := by
  unfold iou
  rw [intersectionArea_comm b1 b2, add_comm (boxArea b1) (boxArea b2)]

theorem overlapTest_comm (boxes : List Anchor) (thresh : ℚ) (i j : Int) :
    overlapTest boxes thresh i j = overlapTest boxes thresh j i := by
  unfold overlapTest
  cases hi : boxes[i.toNat]? <;> cases hj : boxes[j.toNat]? <;> simp only []
  rename_i b1 b2
  unfold overlapAtLeast
  rw [intersectionArea_comm b1 b2, add_comm (boxArea b1) (boxArea b2)]

theorem intersectionArea_nonneg (b1 b2 : Anchor) : 0 ≤ intersectionArea b1 b2 := by
  unfold intersectionArea
  simp only []
  split
  · rename_i h
    exact le_of_lt (mul_pos h.1 h.2)
  · exact le_refl 0

/-- A positive intersection is at most each of the two areas, so the union is positive. -/
theorem union_pos_of_intersection_pos (b1 b2 : Anchor) (h : 0 < intersectionArea b1 b2) :
    0 < boxArea b1 + boxArea b2 - intersectionArea b1 b2 := by
  unfold intersectionArea at h ⊢
  unfold boxArea
  simp only [] at h ⊢
  split at h
  · rename_i hpos
    rw [if_pos hpos]
    obtain ⟨hw, hh⟩ := hpos
    have hw1 : min b1.right b2.right - max b1.left b2.left ≤ b1.right - b1.left :=
      sub_le_sub (min_le_left _ _) (le_max_left _ _)
    have hw2 : min b1.right b2.right - max b1.left b2.left ≤ b2.right - b2.left :=
      sub_le_sub (min_le_right _ _) (le_max_right _ _)
    have hh1 : min b1.bottom b2.bottom - max b1.top b2.top ≤ b1.bottom - b1.top :=
      sub_le_sub (min_le_left _ _) (le_max_left _ _)
    have hh2 : min b1.bottom b2.bottom - max b1.top b2.top ≤ b2.bottom - b2.top :=
      sub_le_sub (min_le_right _ _) (le_max_right _ _)
    have h1 := mul_le_mul hw1 hh1 (le_of_lt hh) (le_trans (le_of_lt hw) hw1)
    have h2 := mul_le_mul hw2 hh2 (le_of_lt hh) (le_trans (le_of_lt hw) hw2)
    have h3 := mul_pos hw hh
    linarith
  · exact absurd h (lt_irrefl 0)

/-- When the test `overlap >= thresh` succeeds, the union is non-zero and the rational
intersection over union is at least `thresh`. -/
theorem iou_ge_of_overlapAtLeast (b1 b2 : Anchor) (thresh : ℚ)
    (h : overlapAtLeast (intersectionArea b1 b2) (boxArea b1) (boxArea b2) thresh = true) :
    boxArea b1 + boxArea b2 - intersectionArea b1 b2 ≠ 0 ∧ thresh ≤ iou b1 b2 := by
  unfold overlapAtLeast at h
  split at h
  · rename_i hz
    have hpos : 0 < intersectionArea b1 b2 := of_decide_eq_true h
    have := union_pos_of_intersection_pos b1 b2 hpos
    rw [hz] at this
    exact absurd this (lt_irrefl 0)
  · rename_i hnz
    exact ⟨hnz, of_decide_eq_true h⟩

/-- When the test `overlap >= thresh` fails on a non-zero union, the rational intersection over
union is below `thresh`. -/
theorem iou_lt_of_not_overlapAtLeast (b1 b2 : Anchor) (thresh : ℚ)
    (hnz : boxArea b1 + boxArea b2 - intersectionArea b1 b2 ≠ 0)
    (h : overlapAtLeast (intersectionArea b1 b2) (boxArea b1) (boxArea b2) thresh = false) :
    iou b1 b2 < thresh := by
  unfold overlapAtLeast at h
  rw [if_neg hnz] at h
  exact not_le.mp (of_decide_eq_false h)

theorem suppressLater_eq (boxes : List Anchor) (thresh : ℚ) (idx1 : Int) :
    ∀ (l l' : List Int) (sc : Bool),
      suppressLater boxes (boxes.map boxArea) thresh idx1 l = some (l', sc) →
      l' = l.map (markSuppressed boxes thresh idx1) ∧ sc = l.any (fun b => decide (0 ≤ b))
  | [], l', sc, h => by
    simp only [suppressLater, Option.some.injEq, Prod.mk.injEq] at h
    simp [← h.1, ← h.2]
  | idx2 :: later, l', sc, h => by
    unfold suppressLater at h
    split at h
    · rename_i hnn
      split at h
      · rename_i b1 b2 a1 a2 hb1 hb2 ha1 ha2
        split at h
        · exact absurd h (by simp)
        · rename_i later' sc' hrec
          have ih := suppressLater_eq boxes thresh idx1 later later' sc' hrec
          simp only [Option.some.injEq, Prod.mk.injEq] at h
          rw [List.getElem?_map, hb1] at ha1
          rw [List.getElem?_map, hb2] at ha2
          simp only [Option.map_some', Option.some.injEq] at ha1 ha2
          refine ⟨?_, ?_⟩
          · rw [← h.1, ih.1, List.map_cons]
            congr 1
            unfold markSuppressed overlapTest
            simp only [hb1, hb2, hnn, true_and, ha1, ha2]
          · rw [← h.2]
            simp [hnn]
      · exact absurd h (by simp)
    · rename_i hneg
      split at h
      · exact absurd h (by simp)
      · rename_i later' sc' hrec
        have ih := suppressLater_eq boxes thresh idx1 later later' sc' hrec
        simp only [Option.some.injEq, Prod.mk.injEq] at h
        refine ⟨?_, ?_⟩
        · rw [← h.1, ih.1, List.map_cons]
          congr 1
          unfold markSuppressed
          simp [hneg]
        · rw [← h.2, ih.2]
          simp [hneg]

theorem filter_nonneg_map_markSuppressed (boxes : List Anchor) (thresh : ℚ) (idx1 : Int)
    (l : List Int) :
    (l.map (markSuppressed boxes thresh idx1)).filter (fun b => decide (0 ≤ b)) =
      (l.filter (fun b => decide (0 ≤ b))).filter (fun y => !overlapTest boxes thresh idx1 y) := by
  induction l with
  | nil => rfl
  | cons b rest ih =>
    rw [List.map_cons]
    by_cases hb : 0 ≤ b
    · by_cases hr : overlapTest boxes thresh idx1 b = true
      · have hm : markSuppressed boxes thresh idx1 b = -1 := by
          unfold markSuppressed
          rw [if_pos ⟨hb, hr⟩]
        rw [hm, List.filter_cons_of_neg (by decide), List.filter_cons_of_pos (by simpa using hb),
          List.filter_cons_of_neg (by simp [hr]), ih]
      · have hm : markSuppressed boxes thresh idx1 b = b := by
          unfold markSuppressed
          rw [if_neg (fun h => hr h.2)]
        rw [hm, List.filter_cons_of_pos (by simpa using hb),
          List.filter_cons_of_pos (by simpa using hb),
          List.filter_cons_of_pos (by simpa using hr), ih]
    · have hm : markSuppressed boxes thresh idx1 b = b := by
        unfold markSuppressed
        rw [if_neg (fun h => hb h.1)]
      rw [hm, List.filter_cons_of_neg (by simpa using hb),
        List.filter_cons_of_neg (by simpa using hb), ih]


/-! ### The loop of `nms` computes the greedy selection -/

theorem greedyKeep_nil (R : Int → Int → Bool) : greedyKeep R [] = [] := by
  rw [greedyKeep]

theorem greedyKeep_cons (R : Int → Int → Bool) (x : Int) (xs : List Int) :
    greedyKeep R (x :: xs) = x :: greedyKeep R (xs.filter (fun y => !R x y)) := by
  rw [greedyKeep]

theorem nmsLoop_eq_greedyKeep (boxes : List Anchor) (thresh : ℚ) :
    ∀ (n : Nat) (active : List Int) (sc : Bool) (keep res : List Int),
      active.length = n → (sc = false → ∀ b ∈ active, ¬ 0 ≤ b) →
      nmsLoop boxes (boxes.map boxArea) thresh n active sc keep = some res →
      res = keep ++ greedyKeep (overlapTest boxes thresh)
        (active.filter (fun b => decide (0 ≤ b))) := by
  intro n
  induction n with
  | zero =>
    intro active sc keep res hlen _ h
    have hnil : active = [] := List.length_eq_zero.mp hlen
    subst hnil
    rw [nmsLoop] at h
    simp only [Option.some.injEq] at h
    simp [greedyKeep_nil, h]
  | succ n ih =>
    intro active sc keep res hlen hsc h
    match active, hlen with
    | idx1 :: later, hlen =>
      have hlen' : later.length = n := by simpa using hlen
      cases sc with
      | false =>
        rw [nmsLoop] at h
        simp only [Option.some.injEq] at h
        have hall := hsc rfl
        have hfil : (idx1 :: later).filter (fun b => decide (0 ≤ b)) = [] := by
          rw [List.filter_eq_nil_iff]
          intro b hb
          simpa using hall b hb
        rw [hfil, greedyKeep_nil, List.append_nil, h]
      | true =>
        rw [nmsLoop] at h
        split at h
        · rename_i hnn
          split at h
          · exact absurd h (by simp)
          · rename_i later' sc' hsup
            have hs := suppressLater_eq boxes thresh idx1 later later' sc' hsup
            have hl : later'.length = n := by
              rw [suppressLater_length boxes _ thresh idx1 later later' sc' hsup, hlen']
            have hsc' : sc' = false → ∀ b ∈ later', ¬ 0 ≤ b := by
              intro hf b hb
              rw [hs.1] at hb
              rw [hs.2] at hf
              obtain ⟨c, hc, hcb⟩ := List.mem_map.mp hb
              have hcneg : ¬ 0 ≤ c := by
                intro hc0
                have : later.any (fun b => decide (0 ≤ b)) = true :=
                  List.any_eq_true.mpr ⟨c, hc, by simpa using hc0⟩
                rw [hf] at this
                exact Bool.noConfusion this
              rw [← hcb]
              unfold markSuppressed
              rw [if_neg (fun hh => hcneg hh.1)]
              exact hcneg
            have hrec := ih later' sc' (keep ++ [idx1]) res hl hsc' h
            rw [hrec, hs.1, filter_nonneg_map_markSuppressed,
              List.filter_cons_of_pos (by simpa using hnn), greedyKeep_cons]
            simp
        · rename_i hneg
          have hrec := ih later true keep res hlen' (fun hf => Bool.noConfusion hf) h
          rw [hrec, List.filter_cons_of_neg (by simpa using hneg)]

theorem greedyKeep_sublist_aux (R : Int → Int → Bool) :
    ∀ (n : Nat) (l : List Int), l.length ≤ n → List.Sublist (greedyKeep R l) l := by
  intro n
  induction n with
  | zero =>
    intro l hl
    have : l = [] := List.length_eq_zero.mp (Nat.le_zero.mp hl)
    subst this
    rw [greedyKeep_nil]
  | succ n ih =>
    intro l hl
    match l, hl with
    | [], _ => rw [greedyKeep_nil]
    | x :: xs, hl =>
      rw [greedyKeep_cons]
      have hlen : (xs.filter (fun y => !R x y)).length ≤ n :=
        le_trans (List.length_filter_le _ _) (Nat.le_of_succ_le_succ hl)
      exact ((ih _ hlen).trans (List.filter_sublist xs)).cons₂ x

theorem greedyKeep_pairwise_aux (R : Int → Int → Bool) :
    ∀ (n : Nat) (l : List Int), l.length ≤ n →
      (greedyKeep R l).Pairwise (fun a b => R a b = false) := by
  intro n
  induction n with
  | zero =>
    intro l hl
    have : l = [] := List.length_eq_zero.mp (Nat.le_zero.mp hl)
    subst this
    rw [greedyKeep_nil]
    exact List.Pairwise.nil
  | succ n ih =>
    intro l hl
    match l, hl with
    | [], _ =>
      rw [greedyKeep_nil]
      exact List.Pairwise.nil
    | x :: xs, hl =>
      rw [greedyKeep_cons]
      have hlen : (xs.filter (fun y => !R x y)).length ≤ n :=
        le_trans (List.length_filter_le _ _) (Nat.le_of_succ_le_succ hl)
      refine List.Pairwise.cons ?_ (ih _ hlen)
      intro b hb
      have hb' := (greedyKeep_sublist_aux R n _ hlen).subset hb
      have := (List.mem_filter.mp hb').2
      simpa using this

/-- Every candidate is kept or suppressed by a kept candidate that precedes it. -/
theorem greedyKeep_complete_aux (R : Int → Int → Bool) (S : Int → Int → Prop) :
    ∀ (n : Nat) (l : List Int), l.length ≤ n → l.Pairwise S →
      ∀ b ∈ l, b ∈ greedyKeep R l ∨ ∃ k ∈ greedyKeep R l, R k b = true ∧ S k b := by
  intro n
  induction n with
  | zero =>
    intro l hl _ b hb
    have : l = [] := List.length_eq_zero.mp (Nat.le_zero.mp hl)
    subst this
    exact absurd hb (List.not_mem_nil b)
  | succ n ih =>
    intro l hl hS b hb
    match l, hl, hS, hb with
    | x :: xs, hl, hS, hb =>
      rw [greedyKeep_cons]
      have hlen : (xs.filter (fun y => !R x y)).length ≤ n :=
        le_trans (List.length_filter_le _ _) (Nat.le_of_succ_le_succ hl)
      rcases List.mem_cons.mp hb with hbx | hbxs
      · left
        rw [hbx]
        exact List.mem_cons_self x _
      · by_cases hr : R x b = true
        · right
          exact ⟨x, List.mem_cons_self x _, hr, List.rel_of_pairwise_cons hS hbxs⟩
        · have hbf : b ∈ xs.filter (fun y => !R x y) :=
            List.mem_filter.mpr ⟨hbxs, by simpa using hr⟩
          have hS' : (xs.filter (fun y => !R x y)).Pairwise S :=
            (List.pairwise_cons.mp hS).2.sublist (List.filter_sublist xs)
          rcases ih _ hlen hS' b hbf with hin | ⟨k, hk, hkr, hks⟩
          · left
            exact List.mem_cons_of_mem x hin
          · right
            exact ⟨k, List.mem_cons_of_mem x hk, hkr, hks⟩


theorem greedyKeep_sublist (R : Int → Int → Bool) (l : List Int) :
    List.Sublist (greedyKeep R l) l :=
  greedyKeep_sublist_aux R l.length l (le_refl _)

theorem greedyKeep_pairwise (R : Int → Int → Bool) (l : List Int) :
    (greedyKeep R l).Pairwise (fun a b => R a b = false) :=
  greedyKeep_pairwise_aux R l.length l (le_refl _)

theorem greedyKeep_complete (R : Int → Int → Bool) (S : Int → Int → Prop) (l : List Int)
    (hS : l.Pairwise S) (b : Int) (hb : b ∈ l) :
    b ∈ greedyKeep R l ∨ ∃ k ∈ greedyKeep R l, R k b = true ∧ S k b :=
  greedyKeep_complete_aux R S l.length l (le_refl _) hS b hb

/-! ### The scan that counts the active range -/

theorem countActive_spec (scores : List ℚ) :
    ∀ (order : List Int) (n : Nat), countActive scores order = some n →
      (∀ o ∈ order.take n, 0 ≤ scoreAt scores o ∧ o.toNat < scores.length) ∧
      ∃ o, order[n]? = some o ∧ scoreAt scores o < 0 ∧ o.toNat < scores.length
  | [], n, h => by
    rw [countActive] at h
    exact absurd h (by simp)
  | o :: order, n, h => by
    rw [countActive] at h
    split at h
    · exact absurd h (by simp)
    split at h
    · exact absurd h (by simp)
    · rename_i s hs
      have hlt : o.toNat < scores.length := by
        rcases List.getElem?_eq_some_iff.mp hs with ⟨hlt, _⟩
        exact hlt
      have hsc : scoreAt scores o = s := by
        unfold scoreAt
        rw [hs]
        rfl
      split at h
      · rename_i hnn
        split at h
        · exact absurd h (by simp)
        · rename_i m hrec
          simp only [Option.some.injEq] at h
          subst h
          obtain ⟨h1, o', ho', hneg⟩ := countActive_spec scores order m hrec
          refine ⟨?_, o', by simpa using ho', hneg⟩
          intro p hp
          rw [List.take_succ_cons] at hp
          rcases List.mem_cons.mp hp with hpo | hpr
          · rw [hpo, hsc]
            exact ⟨hnn, hlt⟩
          · exact h1 p hpr
      · rename_i hneg
        simp only [Option.some.injEq] at h
        subst h
        refine ⟨by simp, o, by simp, ?_, hlt⟩
        rw [hsc]
        exact not_le.mp hneg

/-- The scan runs off the end of `order` when no entry of `scores` is negative. -/
theorem countActive_none_of_nonneg (scores : List ℚ) (hall : ∀ s ∈ scores, 0 ≤ s) :
    ∀ order : List Int, countActive scores order = none
  | [] => by rw [countActive]
  | o :: order => by
    rw [countActive]
    split
    · rfl
    split
    · rfl
    · rename_i s hs
      have hmem : s ∈ scores := by
        rcases List.getElem?_eq_some_iff.mp hs with ⟨hlt, hget⟩
        rw [← hget]
        exact List.getElem_mem hlt
      rw [if_pos (hall s hmem), countActive_none_of_nonneg scores hall order]

theorem mem_iota (n : Nat) (o : Int) : o ∈ iota n ↔ 0 ≤ o ∧ o.toNat < n := by
  unfold iota
  constructor
  · intro h
    obtain ⟨k, hk, hko⟩ := List.mem_map.mp h
    rw [← hko]
    exact ⟨Int.ofNat_nonneg k, by simpa using List.mem_range.mp hk⟩
  · rintro ⟨h0, hlt⟩
    exact List.mem_map.mpr ⟨o.toNat, List.mem_range.mpr hlt, Int.toNat_of_nonneg h0⟩

/-- What a completed call of `nms` returns: the greedy selection over the active range. -/
theorem nms_eq_greedyKeep (sort : List ℚ → List Int) (boxes : List Anchor) (scores : List ℚ)
    (thresh : ℚ) (keep : List Int) (h : nms sort boxes scores thresh = some keep) :
    ∃ n, countActive scores (sort scores) = some n ∧
      keep = greedyKeep (overlapTest boxes thresh)
        (((sort scores).take n).filter (fun b => decide (0 ≤ b))) := by
  unfold nms at h
  simp only [] at h
  split at h
  · exact absurd h (by simp)
  · rename_i n hn
    refine ⟨n, hn, ?_⟩
    have hlen : ((sort scores).take n).length = n := by
      obtain ⟨_, o, ho, _⟩ := countActive_spec scores (sort scores) n hn
      rw [List.length_take]
      exact Nat.min_eq_left (le_of_lt (List.getElem?_eq_some_iff.mp ho).1)
    have := nmsLoop_eq_greedyKeep boxes thresh n ((sort scores).take n) true [] keep hlen
      (fun hf => Bool.noConfusion hf) h
    simpa using this

/-- Under the contract of `std::sort`, the active range holds exactly the indices whose score
is non-negative, and none of its entries is negative. -/
theorem active_range_spec (scores : List ℚ) (order : List Int) (n : Nat)
    (hsort : IsSortedOrder scores order) (hn : countActive scores order = some n) :
    (order.take n).filter (fun b => decide (0 ≤ b)) = order.take n ∧
      ∀ i : Int, 0 ≤ i → i.toNat < scores.length → 0 ≤ scoreAt scores i → i ∈ order.take n := by
  obtain ⟨hperm, hpw⟩ := hsort
  obtain ⟨_, o, ho, honeg, _⟩ := countActive_spec scores order n hn
  constructor
  · rw [List.filter_eq_self]
    intro b hb
    have hb' : b ∈ iota scores.length := hperm.subset (List.mem_of_mem_take hb)
    simpa using ((mem_iota _ _).mp hb').1
  · intro i hi0 hilt hisc
    have hmem : i ∈ order := hperm.symm.subset ((mem_iota _ _).mpr ⟨hi0, hilt⟩)
    rw [← List.take_append_drop n order] at hmem hpw
    rcases List.mem_append.mp hmem with ht | hd
    · exact ht
    · exfalso
      have hdrop : order.drop n = o :: order.drop (n + 1) := by
        rw [List.getElem?_eq_some_iff] at ho
        obtain ⟨hlt, hget⟩ := ho
        rw [← hget]
        exact List.drop_eq_getElem_cons hlt
      have hpd := (List.pairwise_append.mp hpw).2.1
      rw [hdrop] at hpd hd
      rcases List.mem_cons.mp hd with hio | hlater
      · rw [hio] at hisc
        exact absurd honeg (not_lt.mpr hisc)
      · have := List.rel_of_pairwise_cons hpd hlater
        exact this (lt_of_lt_of_le honeg hisc)


theorem overlapTest_true_iff (boxes : List Anchor) (thresh : ℚ) (i j : Int)
    (h : overlapTest boxes thresh i j = true) :
    ∃ bi bj, boxes[i.toNat]? = some bi ∧ boxes[j.toNat]? = some bj ∧
      boxArea bi + boxArea bj - intersectionArea bi bj ≠ 0 ∧ thresh ≤ iou bi bj := by
  unfold overlapTest at h
  split at h
  · rename_i bi bj hbi hbj
    exact ⟨bi, bj, hbi, hbj, iou_ge_of_overlapAtLeast bi bj thresh h⟩
  · exact absurd h (by simp)

theorem overlapTest_of_iou_ge (boxes : List Anchor) (thresh : ℚ) (i j : Int) (bi bj : Anchor)
    (hbi : boxes[i.toNat]? = some bi) (hbj : boxes[j.toNat]? = some bj)
    (hunion : boxArea bi + boxArea bj - intersectionArea bi bj ≠ 0) (hge : thresh ≤ iou bi bj) :
    overlapTest boxes thresh i j = true := by
  unfold overlapTest
  simp only [hbi, hbj]
  unfold overlapAtLeast
  rw [if_neg hunion]
  exact decide_eq_true hge

/-- No two different kept indices pass the test `overlap >= thresh`. -/
theorem nms_kept_not_overlapping (sort : List ℚ → List Int) (boxes : List Anchor)
    (scores : List ℚ) (thresh : ℚ) (keep : List Int)
    (h : nms sort boxes scores thresh = some keep) (i j : Int) (hi : i ∈ keep) (hj : j ∈ keep)
    (hij : i ≠ j) : overlapTest boxes thresh i j = false := by
  obtain ⟨n, _, hkeep⟩ := nms_eq_greedyKeep sort boxes scores thresh keep h
  have hpw := greedyKeep_pairwise (overlapTest boxes thresh)
    (((sort scores).take n).filter (fun b => decide (0 ≤ b)))
  rw [← hkeep] at hpw
  have hsymm : ∀ a b : Int, overlapTest boxes thresh a b = false →
      overlapTest boxes thresh b a = false := by
    intro a b hab
    rw [overlapTest_comm]
    exact hab
  exact hpw.forall (fun {a b} hab => hsymm a b hab) hi hj hij

/-- The kept indices lie in the active range, so each has a non-negative score. -/
theorem nms_kept_score_nonneg (sort : List ℚ → List Int) (boxes : List Anchor)
    (scores : List ℚ) (thresh : ℚ) (keep : List Int)
    (h : nms sort boxes scores thresh = some keep) (k : Int) (hk : k ∈ keep) :
    0 ≤ k ∧ k.toNat < scores.length ∧ 0 ≤ scoreAt scores k := by
  obtain ⟨n, hn, hkeep⟩ := nms_eq_greedyKeep sort boxes scores thresh keep h
  rw [hkeep] at hk
  have hk' := (greedyKeep_sublist (overlapTest boxes thresh) _).subset hk
  obtain ⟨hkt, hk0⟩ := List.mem_filter.mp hk'
  obtain ⟨hall, _⟩ := countActive_spec scores (sort scores) n hn
  exact ⟨by simpa using hk0, (hall k hkt).2, (hall k hkt).1⟩


/-! ### When `nms` returns -/

theorem countActive_some (scores : List ℚ) :
    ∀ order : List Int, (∀ o ∈ order, 0 ≤ o ∧ o.toNat < scores.length) →
      (∃ o ∈ order, scoreAt scores o < 0) → ∃ n, countActive scores order = some n
  | [], _, hex => by
    obtain ⟨o, ho, _⟩ := hex
    exact absurd ho (List.not_mem_nil o)
  | o :: order, hall, hex => by
    obtain ⟨h0, hlt⟩ := hall o (List.mem_cons_self _ _)
    have hsc : scoreAt scores o = scores[o.toNat] := by
      unfold scoreAt
      rw [List.getElem?_eq_getElem hlt]
      rfl
    rw [countActive, if_neg (not_lt.mpr h0), List.getElem?_eq_getElem hlt]
    simp only []
    by_cases hnn : 0 ≤ scores[o.toNat]
    · rw [if_pos hnn]
      have hex' : ∃ p ∈ order, scoreAt scores p < 0 := by
        obtain ⟨p, hp, hpneg⟩ := hex
        rcases List.mem_cons.mp hp with hpo | hpr
        · rw [hpo, hsc] at hpneg
          exact absurd hnn (not_le.mpr hpneg)
        · exact ⟨p, hpr, hpneg⟩
      obtain ⟨n, hn⟩ := countActive_some scores order
        (fun p hp => hall p (List.mem_cons_of_mem _ hp)) hex'
      rw [hn]
      exact ⟨n + 1, rfl⟩
    · rw [if_neg hnn]
      exact ⟨0, rfl⟩

theorem suppressLater_some (boxes : List Anchor) (thresh : ℚ) (idx1 : Int)
    (h1 : idx1.toNat < boxes.length) :
    ∀ l : List Int, (∀ idx2 ∈ l, 0 ≤ idx2 → idx2.toNat < boxes.length) →
      ∃ l' sc, suppressLater boxes (boxes.map boxArea) thresh idx1 l = some (l', sc)
  | [], _ => ⟨[], false, rfl⟩
  | idx2 :: later, hall => by
    obtain ⟨l', sc, hrec⟩ := suppressLater_some boxes thresh idx1 h1 later
      (fun b hb => hall b (List.mem_cons_of_mem _ hb))
    unfold suppressLater
    split
    · rename_i hnn
      have h2 : idx2.toNat < boxes.length := hall idx2 (List.mem_cons_self _ _) hnn
      rw [List.getElem?_eq_getElem h1, List.getElem?_eq_getElem h2,
        List.getElem?_eq_getElem (by rw [List.length_map]; exact h1),
        List.getElem?_eq_getElem (by rw [List.length_map]; exact h2), hrec]
      exact ⟨_, _, rfl⟩
    · rw [hrec]
      exact ⟨_, _, rfl⟩

theorem nmsLoop_some (boxes : List Anchor) (thresh : ℚ) :
    ∀ (n : Nat) (active : List Int) (sc : Bool) (keep : List Int),
      (∀ idx ∈ active, 0 ≤ idx → idx.toNat < boxes.length) →
      ∃ res, nmsLoop boxes (boxes.map boxArea) thresh n active sc keep = some res := by
  intro n
  induction n with
  | zero =>
    intro active sc keep _
    exact ⟨keep, by rw [nmsLoop]⟩
  | succ n ih =>
    intro active sc keep hall
    match active, sc, hall with
    | [], sc, _ => exact ⟨keep, by rw [nmsLoop]⟩
    | idx1 :: later, false, _ => exact ⟨keep, by rw [nmsLoop]⟩
    | idx1 :: later, true, hall =>
      rw [nmsLoop]
      split
      · rename_i hnn
        have h1 := hall idx1 (List.mem_cons_self _ _) hnn
        obtain ⟨l', sc', hsup⟩ := suppressLater_some boxes thresh idx1 h1 later
          (fun b hb => hall b (List.mem_cons_of_mem _ hb))
        rw [hsup]
        apply ih
        intro b hb hb0
        rw [(suppressLater_eq boxes thresh idx1 later l' sc' hsup).1] at hb
        obtain ⟨c, hc, hcb⟩ := List.mem_map.mp hb
        unfold markSuppressed at hcb
        split at hcb
        · rw [← hcb] at hb0
          exact absurd hb0 (by decide)
        · rw [← hcb]
          rw [← hcb] at hb0
          exact hall c (List.mem_cons_of_mem _ hc) hb0
      · exact ih later true keep (fun b hb => hall b (List.mem_cons_of_mem _ hb))

/-- On lists of equal length and with a sort that meets its contract, `nms` returns a result
exactly when some score is negative. -/
theorem nms_returns_iff (sort : List ℚ → List Int) (boxes : List Anchor) (scores : List ℚ)
    (thresh : ℚ) (hsort : IsSortedOrder scores (sort scores))
    (hlen : boxes.length = scores.length) :
    (∃ keep, nms sort boxes scores thresh = some keep) ↔ ∃ s ∈ scores, s < 0 := by
  have hall : ∀ o ∈ sort scores, 0 ≤ o ∧ o.toNat < scores.length :=
    fun o ho => (mem_iota _ _).mp (hsort.1.subset ho)
  constructor
  · rintro ⟨keep, h⟩
    obtain ⟨n, hn, _⟩ := nms_eq_greedyKeep sort boxes scores thresh keep h
    obtain ⟨_, o, _, honeg, holt⟩ := countActive_spec scores (sort scores) n hn
    refine ⟨scores[o.toNat], List.getElem_mem holt, ?_⟩
    unfold scoreAt at honeg
    rw [List.getElem?_eq_getElem holt] at honeg
    exact honeg
  · rintro ⟨s, hs, hsneg⟩
    obtain ⟨i, hi, hget⟩ := List.getElem_of_mem hs
    have hmem : (i : Int) ∈ sort scores :=
      hsort.1.symm.subset ((mem_iota _ _).mpr ⟨Int.ofNat_nonneg i, by simpa using hi⟩)
    have hneg : scoreAt scores (i : Int) < 0 := by
      unfold scoreAt
      simp only [Int.toNat_ofNat, List.getElem?_eq_getElem hi, Option.getD_some, hget]
      exact hsneg
    obtain ⟨n, hn⟩ := countActive_some scores (sort scores) hall ⟨i, hmem, hneg⟩
    unfold nms
    simp only [hn]
    apply nmsLoop_some
    intro idx hidx _
    rw [hlen]
    exact (hall idx (List.mem_of_mem_take hidx)).2


/-! ## Claims on `nms` -/

/-- C1 (as amended): any two distinct indices returned by `nms` whose union area
`area1 + area2 - intersection` is not zero have intersection over union strictly below
`thresh`. -/
theorem nms_kept_pair_iou_lt_thresh (sort : List ℚ → List Int) (boxes : List Anchor)
    (scores : List ℚ) (thresh : ℚ) (keep : List Int)
    (h : nms sort boxes scores thresh = some keep) (i j : Int) (hi : i ∈ keep) (hj : j ∈ keep)
    (hij : i ≠ j) (bi bj : Anchor) (hbi : boxes[i.toNat]? = some bi)
    (hbj : boxes[j.toNat]? = some bj)
    (hunion : boxArea bi + boxArea bj - intersectionArea bi bj ≠ 0) : iou bi bj < thresh := by
  have hno := nms_kept_not_overlapping sort boxes scores thresh keep h i j hi hj hij
  unfold overlapTest at hno
  simp only [hbi, hbj] at hno
  exact iou_lt_of_not_overlapAtLeast bi bj thresh hunion hno

/-- C1 (witness): on the example boxes the indices 0 and 2 are returned and the intersection
over union of their boxes is below 1/2. -/
theorem nms_kept_pair_iou_lt_thresh_witness :
    nms stableSort exampleBoxes exampleScores (1 / 2) = some [0, 2] ∧
      iou ⟨0, 0, 10, 10⟩ ⟨50, 50, 60, 60⟩ < 1 / 2 :=
  ⟨by decide!,
    nms_kept_pair_iou_lt_thresh stableSort exampleBoxes exampleScores (1 / 2) [0, 2]
      (by decide!) 0 2 (by decide) (by decide) (by decide) ⟨0, 0, 10, 10⟩ ⟨50, 50, 60, 60⟩
      (by decide!) (by decide!) (by decide!)⟩

/-- C1 (counterexample): with threshold 0 and two boxes reduced to a point, `nms` returns both
indices 0 and 1, although the intersection over union of their boxes, 0/0, is not below 0: the
test `overlap >= thresh` is false for the quotient 0/0. -/
theorem nms_returns_zero_union_pair :
    IsSortedOrder [1, 1 / 2, -1] (stableSort [1, 1 / 2, -1]) ∧
      nms stableSort pointBoxes [1, 1 / 2, -1] 0 = some [0, 1] ∧
      pointBoxes[0]? = some ⟨0, 0, 0, 0⟩ ∧ pointBoxes[1]? = some ⟨5, 5, 5, 5⟩ ∧
      ¬ iou ⟨0, 0, 0, 0⟩ ⟨5, 5, 5, 5⟩ < 0 := by
  decide!

/-- What a completed call of `nms` leaves out is suppressed by what it returns, and the
first index of the order, one of maximal score, is returned. -/
theorem nms_complete_of_returned (sort : List ℚ → List Int) (boxes : List Anchor)
    (scores : List ℚ) (thresh : ℚ) (keep : List Int)
    (hsort : IsSortedOrder scores (sort scores))
    (h : nms sort boxes scores thresh = some keep) :
    (∀ i : Nat, i < scores.length → 0 ≤ scoreAt scores i → (i : Int) ∉ keep →
      ∃ k ∈ keep, scoreAt scores i ≤ scoreAt scores k ∧
        ∃ bk bi, boxes[k.toNat]? = some bk ∧ boxes[i]? = some bi ∧ thresh ≤ iou bk bi) ∧
    ((∃ i : Nat, i < scores.length ∧ 0 ≤ scoreAt scores i) →
      ∃ k ∈ keep, 0 ≤ scoreAt scores k ∧
        ∀ i : Nat, i < scores.length → scoreAt scores i ≤ scoreAt scores k) := by
  obtain ⟨n, hn, hkeep⟩ := nms_eq_greedyKeep sort boxes scores thresh keep h
  obtain ⟨hfil, hact⟩ := active_range_spec scores (sort scores) n hsort hn
  rw [hfil] at hkeep
  have hpw : ((sort scores).take n).Pairwise
      (fun o1 o2 => ¬ scoreAt scores o2 > scoreAt scores o1) :=
    hsort.2.sublist (List.take_sublist n _)
  constructor
  · intro i hi hsc hnot
    have hmem : (i : Int) ∈ (sort scores).take n :=
      hact i (Int.ofNat_nonneg i) (by simpa using hi) hsc
    rcases greedyKeep_complete (overlapTest boxes thresh) _ _ hpw i hmem with hin | hsup
    · rw [← hkeep] at hin
      exact absurd hin hnot
    · obtain ⟨k, hk, hov, hks⟩ := hsup
      obtain ⟨bk, bi, hbk, hbi, _, hge⟩ := overlapTest_true_iff boxes thresh k i hov
      rw [← hkeep] at hk
      exact ⟨k, hk, not_lt.mp hks, bk, bi, hbk, by simpa using hbi, hge⟩
  · rintro ⟨i, hi, hsc⟩
    have hmem : (i : Int) ∈ (sort scores).take n :=
      hact i (Int.ofNat_nonneg i) (by simpa using hi) hsc
    match hord : sort scores, hn with
    | [], hn =>
      rw [hord] at hmem
      simp at hmem
    | o :: rest, hn =>
      match n, hn with
      | 0, _ => simp at hmem
      | m + 1, hn =>
        rw [hord, List.take_succ_cons, greedyKeep_cons] at hkeep
        have hok : o ∈ keep := by
          rw [hkeep]
          exact List.mem_cons_self o _
        have hsortpw := hsort.2
        rw [hord] at hsortpw
        have hmax : ∀ j : Nat, j < scores.length → scoreAt scores j ≤ scoreAt scores o := by
          intro j hj
          have hjmem : (j : Int) ∈ o :: rest := by
            rw [← hord]
            exact hsort.1.symm.subset
              ((mem_iota _ _).mpr ⟨Int.ofNat_nonneg j, by simpa using hj⟩)
          rcases List.mem_cons.mp hjmem with hjo | hjr
          · rw [hjo]
          · exact not_lt.mp (List.rel_of_pairwise_cons hsortpw hjr)
        exact ⟨o, hok, le_trans hsc (hmax i hi), hmax⟩

/-- C2 (the code on every input): on lists of equal length, with a sort that meets the contract
of `std::sort`. When no score is negative, `nms` returns nothing: the scan that counts the
active range leaves `order`, so not even an index of maximal score is returned. When some
score is negative (marked), `nms` returns a result; and for every result `keep` that it
returns, every index with a non-negative score that is not in `keep` is suppressed by an index
of `keep` of at least the same score whose box has intersection over union at least `thresh`
with its box, and, if some score is non-negative, `keep` holds an index of maximal score. -/
theorem nms_unreturned_suppressed_by_returned (sort : List ℚ → List Int) (boxes : List Anchor)
    (scores : List ℚ) (thresh : ℚ) (hsort : IsSortedOrder scores (sort scores))
    (hlen : boxes.length = scores.length) :
    ((∀ s ∈ scores, 0 ≤ s) → nms sort boxes scores thresh = none) ∧
    ((∃ s ∈ scores, s < 0) → ∃ keep, nms sort boxes scores thresh = some keep) ∧
    ∀ keep, nms sort boxes scores thresh = some keep →
      (∀ i : Nat, i < scores.length → 0 ≤ scoreAt scores i → (i : Int) ∉ keep →
        ∃ k ∈ keep, scoreAt scores i ≤ scoreAt scores k ∧
          ∃ bk bi, boxes[k.toNat]? = some bk ∧ boxes[i]? = some bi ∧ thresh ≤ iou bk bi) ∧
      ((∃ i : Nat, i < scores.length ∧ 0 ≤ scoreAt scores i) →
        ∃ k ∈ keep, 0 ≤ scoreAt scores k ∧
          ∀ i : Nat, i < scores.length → scoreAt scores i ≤ scoreAt scores k) := by
  refine ⟨?_, (nms_returns_iff sort boxes scores thresh hsort hlen).mpr,
    fun keep h => nms_complete_of_returned sort boxes scores thresh keep hsort h⟩
  intro hall
  unfold nms
  simp only [countActive_none_of_nonneg scores hall (sort scores)]

/-- C2 (witness, the failing input): two boxes far apart with the scores 0.9 and 0.8. No score
is negative and `nms` returns nothing, where the index 0 of maximal score (and the index 1,
which nothing suppresses) should be returned. On the example boxes, whose last score is
marked, the indices 0 and 2 are returned, and the index 1 is suppressed by the index 0. -/
theorem nms_unreturned_suppressed_by_returned_witness :
    nms stableSort [⟨0, 0, 10, 10⟩, ⟨20, 20, 30, 30⟩] [9 / 10, 8 / 10] (1 / 2) = none ∧
      nms stableSort exampleBoxes exampleScores (1 / 2) = some [0, 2] ∧
      (∃ k ∈ [(0 : Int), 2], scoreAt exampleScores (1 : Nat) ≤ scoreAt exampleScores k ∧
        ∃ bk bi, exampleBoxes[k.toNat]? = some bk ∧ exampleBoxes[1]? = some bi ∧
          1 / 2 ≤ iou bk bi) ∧
      (∃ k ∈ [(0 : Int), 2], 0 ≤ scoreAt exampleScores k ∧
        ∀ i : Nat, i < exampleScores.length →
          scoreAt exampleScores i ≤ scoreAt exampleScores k) :=
  have h := (nms_unreturned_suppressed_by_returned stableSort exampleBoxes exampleScores
    (1 / 2) (by decide!) (by decide)).2.2 [0, 2] (by decide!)
  ⟨(nms_unreturned_suppressed_by_returned stableSort [⟨0, 0, 10, 10⟩, ⟨20, 20, 30, 30⟩]
      [9 / 10, 8 / 10] (1 / 2) (by decide!) (by decide)).1 (by decide!),
    by decide!, h.1 1 (by decide) (by decide!) (by decide),
    h.2 ⟨0, by decide, by decide!⟩⟩

/-- C3 (code evaluated at the input of the claim): for the three boxes with scores
0.9, 0.8, 0.7 no score is negative, so the scan that counts the active range reads `order`
beyond its last entry, whatever order the sort produced; with one more entry marked `-1` the
scan stops and the indices 0 and 2 are returned. -/
theorem nms_three_boxes_scan_leaves_order :
    (∀ sort : List ℚ → List Int,
      nms sort [⟨0, 0, 10, 10⟩, ⟨1, 1, 11, 11⟩, ⟨50, 50, 60, 60⟩] [9 / 10, 8 / 10, 7 / 10]
        (1 / 2) = none) ∧
    nms stableSort exampleBoxes exampleScores (1 / 2) = some [0, 2] := by
  constructor
  · intro sort
    unfold nms
    simp only []
    rw [countActive_none_of_nonneg _ (by
      intro s hs
      simp only [List.mem_cons, List.mem_singleton, List.not_mem_nil, or_false] at hs
      rcases hs with h | h | h <;> rw [h] <;> norm_num)]
  · decide!

/-- C4 (behaviour of the code on every second pass): whenever `nms` returns `keep`, the call
of `nms` on the boxes and scores selected by `keep` reads `order` beyond its last entry,
because none of the selected scores is negative. -/
theorem nms_second_pass_scan_leaves_order (sort sort' : List ℚ → List Int)
    (boxes : List Anchor) (scores : List ℚ) (thresh : ℚ) (keep : List Int)
    (h : nms sort boxes scores thresh = some keep) :
    nms sort' (selectKept boxes keep) (selectKept scores keep) thresh = none := by
  have hall : ∀ s ∈ selectKept scores keep, 0 ≤ s := by
    intro s hs
    unfold selectKept at hs
    obtain ⟨k, hk, hks⟩ := List.mem_filterMap.mp hs
    have hsc := (nms_kept_score_nonneg sort boxes scores thresh keep h k hk).2.2
    unfold scoreAt at hsc
    rw [hks] at hsc
    exact hsc
  unfold nms
  simp only []
  rw [countActive_none_of_nonneg _ hall]

/-- C4 (witness): the first pass on the example boxes returns the indices 0 and 2; the second
pass on the two selected boxes does not return. -/
theorem nms_second_pass_scan_leaves_order_witness :
    nms stableSort exampleBoxes exampleScores (1 / 2) = some [0, 2] ∧
      nms stableSort (selectKept exampleBoxes [0, 2]) (selectKept exampleScores [0, 2])
        (1 / 2) = none :=
  ⟨by decide!,
    nms_second_pass_scan_leaves_order stableSort stableSort exampleBoxes exampleScores (1 / 2)
      [0, 2] (by decide!)⟩


theorem iota_nodup (n : Nat) : (iota n).Nodup := by
  unfold iota
  exact (List.nodup_range n).map (fun a b hab => Int.ofNat.inj hab)

/-- C5 (as amended): entries of equal score are processed in the order in which `std::sort`
leaves them. For two indices `a`, `b` (of equal score or not) where `a` has a non-negative
score and comes before `b` in that order: when their boxes overlap with intersection over union at least `thresh` (on a
non-zero union) and no returned index that comes before `a` suppresses `a`, then `a` is
returned and `b` is not. -/
theorem nms_first_of_tied_pair_is_returned (sort : List ℚ → List Int) (boxes : List Anchor)
    (scores : List ℚ) (thresh : ℚ) (keep : List Int)
    (hsort : IsSortedOrder scores (sort scores))
    (h : nms sort boxes scores thresh = some keep) (a b : Int)
    (hab : List.Sublist [a, b] (sort scores))
    (hsa : 0 ≤ scoreAt scores a)
    (ba bb : Anchor) (hba : boxes[a.toNat]? = some ba) (hbb : boxes[b.toNat]? = some bb)
    (hunion : boxArea ba + boxArea bb - intersectionArea ba bb ≠ 0)
    (hge : thresh ≤ iou ba bb)
    (hfree : ∀ k ∈ keep, List.Sublist [k, a] (sort scores) → ∀ bk : Anchor,
      boxes[k.toNat]? = some bk → boxArea bk + boxArea ba - intersectionArea bk ba ≠ 0 →
      iou bk ba < thresh) :
    a ∈ keep ∧ b ∉ keep := by
  obtain ⟨n, hn, hkeep⟩ := nms_eq_greedyKeep sort boxes scores thresh keep h
  obtain ⟨hfil, hact⟩ := active_range_spec scores (sort scores) n hsort hn
  rw [hfil] at hkeep
  have hamem : a ∈ sort scores := hab.subset (List.mem_cons_self a _)
  have hain := (mem_iota _ _).mp (hsort.1.subset hamem)
  have hatake : a ∈ (sort scores).take n := hact a hain.1 hain.2 hsa
  have hS : ((sort scores).take n).Pairwise (fun x y => List.Sublist [x, y] (sort scores)) :=
    List.pairwise_iff_forall_sublist.mpr (fun hxy => hxy.trans (List.take_sublist n _))
  have hak : a ∈ keep := by
    rcases greedyKeep_complete (overlapTest boxes thresh) _ _ hS a hatake with hin | hsup
    · rw [hkeep]
      exact hin
    · obtain ⟨k, hk, hov, hka⟩ := hsup
      rw [← hkeep] at hk
      obtain ⟨bk, ba', hbk, hba', hnz, hthr⟩ := overlapTest_true_iff boxes thresh k a hov
      rw [hba] at hba'
      cases hba'
      exact absurd (hfree k hk hka bk hbk hnz) (not_lt.mpr hthr)
  refine ⟨hak, fun hbk => ?_⟩
  have hne : a ≠ b := by
    intro heq
    rw [← heq] at hab
    have hnd : (sort scores).Nodup := hsort.1.nodup_iff.mpr (iota_nodup _)
    have : [a, a].Nodup := hnd.sublist hab
    simp at this
  have hno := nms_kept_not_overlapping sort boxes scores thresh keep h a b hak hbk hne
  rw [overlapTest_of_iou_ge boxes thresh a b ba bb hba hbb hunion hge] at hno
  exact Bool.noConfusion hno

/-- C5 (witness): the 21 entries of `tiedBoxes21` in the order that `std::sort` leaves: the
index 1 comes before the index 0, is returned, and suppresses the index 0. -/
theorem nms_first_of_tied_pair_is_returned_witness :
    IsSortedOrder tiedScores21 stdSortOrder21 ∧
      nms (fun _ => stdSortOrder21) tiedBoxes21 tiedScores21 (1 / 2) = some [1] ∧
      List.Sublist [(1 : Int), 0] stdSortOrder21 ∧
      ((1 : Int) ∈ [(1 : Int)] ∧ (0 : Int) ∉ [(1 : Int)]) :=
  ⟨by decide!, by decide!, by decide!,
    nms_first_of_tied_pair_is_returned (fun _ => stdSortOrder21) tiedBoxes21 tiedScores21
      (1 / 2) [1] (by decide!) (by decide!) 1 0 (by decide!) (by decide!)
      ⟨0, 0, 10, 10⟩ ⟨0, 0, 10, 10⟩ (by decide!) (by decide!) (by decide!) (by decide!)
      (by
        intro k hk hka
        rw [List.mem_singleton] at hk
        subst hk
        exact absurd hka (by decide!))⟩

/-- C5 (counterexample): 21 boxes and scores. The indices 0 and 1 have the same box and the
same score 1, every other entry is marked `-1`, so no earlier box suppresses either of them.
`std::sort` leaves the order `stdSortOrder21`, in which the index 1 precedes the index 0; it
is a rearrangement of the indices with non-increasing scores. With this order `nms` returns
the index 1 and not the index 0. (On the three entries of `tiedBoxes`, which `std::sort` sorts
by insertion alone, the order is 0, 1, 2 and the index 0 is returned.) -/
theorem nms_tie_not_resolved_by_index :
    tiedBoxes21.length = 21 ∧ tiedScores21.length = 21 ∧
      (0 : Int) < 1 ∧ scoreAt tiedScores21 0 = scoreAt tiedScores21 1 ∧
      0 ≤ scoreAt tiedScores21 0 ∧
      tiedBoxes21[0]? = some ⟨0, 0, 10, 10⟩ ∧ tiedBoxes21[1]? = some ⟨0, 0, 10, 10⟩ ∧
      (1 : ℚ) / 2 ≤ iou ⟨0, 0, 10, 10⟩ ⟨0, 0, 10, 10⟩ ∧
      IsSortedOrder tiedScores21 stdSortOrder21 ∧
      List.Sublist [(1 : Int), 0] stdSortOrder21 ∧
      nms (fun _ => stdSortOrder21) tiedBoxes21 tiedScores21 (1 / 2) = some [1] ∧
      nms stableSort tiedBoxes tiedScores (1 / 2) = some [0] := by
  decide!

/-- What `nms` returns is a part of the index order, in that order. -/
theorem nms_keep_sublist (sort : List ℚ → List Int) (boxes : List Anchor) (scores : List ℚ)
    (thresh : ℚ) (keep : List Int) (h : nms sort boxes scores thresh = some keep) :
    List.Sublist keep (sort scores) := by
  obtain ⟨n, _, hkeep⟩ := nms_eq_greedyKeep sort boxes scores thresh keep h
  rw [hkeep]
  exact ((greedyKeep_sublist _ _).trans (List.filter_sublist _)).trans (List.take_sublist n _)

/-- C19: on lists of equal length and with a sort that meets the contract of `std::sort`, every
index that `nms` returns is an index of `boxes` whose score is non-negative, no index is
returned twice, and the scores of the returned indices do not increase along the result. -/
theorem nms_returned_indices_valid (sort : List ℚ → List Int) (boxes : List Anchor)
    (scores : List ℚ) (thresh : ℚ) (keep : List Int)
    (hsort : IsSortedOrder scores (sort scores)) (hlen : boxes.length = scores.length)
    (h : nms sort boxes scores thresh = some keep) :
    (∀ k ∈ keep, 0 ≤ k ∧ k.toNat < boxes.length ∧ 0 ≤ scoreAt scores k) ∧
      keep.Nodup ∧ keep.Pairwise (fun a b => scoreAt scores b ≤ scoreAt scores a) := by
  have hsub := nms_keep_sublist sort boxes scores thresh keep h
  refine ⟨?_, ?_, ?_⟩
  · intro k hk
    obtain ⟨h0, hlt, hsc⟩ := nms_kept_score_nonneg sort boxes scores thresh keep h k hk
    exact ⟨h0, by rw [hlen]; exact hlt, hsc⟩
  · exact (hsort.1.nodup_iff.mpr (iota_nodup _)).sublist hsub
  · exact (hsort.2.sublist hsub).imp (fun hab => not_lt.mp hab)

/-- C19 (witness): the example boxes; the indices 0 and 2 are returned, with the scores 9/10
and 7/10. -/
theorem nms_returned_indices_valid_witness :
    IsSortedOrder exampleScores (stableSort exampleScores) ∧
      exampleBoxes.length = exampleScores.length ∧
      nms stableSort exampleBoxes exampleScores (1 / 2) = some [0, 2] ∧
      ((∀ k ∈ [(0 : Int), 2],
          0 ≤ k ∧ k.toNat < exampleBoxes.length ∧ 0 ≤ scoreAt exampleScores k) ∧
        [(0 : Int), 2].Nodup ∧
        [(0 : Int), 2].Pairwise (fun a b => scoreAt exampleScores b ≤ scoreAt exampleScores a)) :=
  ⟨by decide!, by decide, by decide!,
    nms_returned_indices_valid stableSort exampleBoxes exampleScores (1 / 2) [0, 2]
      (by decide!) (by decide) (by decide!)⟩

/-! ## Claims on the anchor generator -/

theorem roundSqrt_natCast_mul_self (n : Nat) : roundSqrt ((n : ℚ) * n) = n := by
  unfold roundSqrt
  have h4 : (4 : ℚ) * ((n : ℚ) * n) = ((2 * n * (2 * n) : ℕ) : ℚ) := by
    push_cast
    ring
  rw [h4, Nat.floor_natCast, Nat.sqrt_eq]
  congr 1
  omega

theorem stdRound_natCast (n : Nat) : stdRound (n : ℚ) = n := by
  unfold stdRound
  rw [if_pos (Nat.cast_nonneg n)]
  have hfl : ⌊(n : ℚ) + 1 / 2⌋ = (n : ℤ) := by
    rw [Int.floor_eq_iff]
    constructor
    · push_cast
      linarith
    · push_cast
      linarith
  rw [hfl]
  simp

theorem foldl_append_eq {α β : Type} (f : α → List β) :
    ∀ (l : List α) (init : List β),
      l.foldl (fun acc x => acc ++ f x) init = init ++ (l.map f).flatten
  | [], init => by simp
  | x :: xs, init => by
    rw [List.foldl_cons, foldl_append_eq f xs, List.map_cons, List.flatten_cons,
      List.append_assoc]

/-- Reading position `i * m + j` in the concatenation of blocks of length `m`. -/
theorem getElem?_flatten_blocks {β : Type} (m : Nat) :
    ∀ (blocks : List (List β)), (∀ blk ∈ blocks, blk.length = m) →
      blocks.flatten.length = blocks.length * m ∧
      ∀ i j : Nat, j < m →
        blocks.flatten[i * m + j]? = (blocks[i]?).bind (fun blk => blk[j]?)
  | [], _ => by simp
  | blk :: rest, hall => by
    have hblk : blk.length = m := hall blk (List.mem_cons_self _ _)
    obtain ⟨hlen, hget⟩ := getElem?_flatten_blocks m rest
      (fun b hb => hall b (List.mem_cons_of_mem _ hb))
    constructor
    · rw [List.flatten_cons, List.length_append, hlen, hblk, List.length_cons]
      ring
    · intro i j hj
      rw [List.flatten_cons]
      cases i with
      | zero =>
        rw [Nat.zero_mul, Nat.zero_add, List.getElem?_append_left (by rw [hblk]; exact hj)]
        simp
      | succ i =>
        have hge : blk.length ≤ (i + 1) * m + j := by
          rw [hblk, Nat.succ_mul]
          omega
        rw [List.getElem?_append_right hge]
        have hidx : (i + 1) * m + j - blk.length = i * m + j := by
          rw [hblk, Nat.succ_mul]
          omega
        rw [hidx, hget i j hj]
        simp

theorem length_scale_enum (acc : AnchorAccessors) (anchor : Anchor) (scales : List ℚ) :
    (_scale_enum acc anchor scales).length = scales.length := by
  simp [_scale_enum]

theorem length_ratio_enum (acc : AnchorAccessors) (anchor : Anchor) (ratios : List ℚ) :
    (_ratio_enum acc anchor ratios).length = ratios.length := by
  simp [_ratio_enum]

theorem generate_anchors_spec (acc : AnchorAccessors) (base_size : Int)
    (ratios scales : List ℚ) :
    (generate_anchors acc base_size ratios scales).length = ratios.length * scales.length ∧
    ∀ i j : Nat, j < scales.length →
      (generate_anchors acc base_size ratios scales)[i * scales.length + j]? =
        ((_ratio_enum acc (baseAnchor base_size) ratios)[i]?).bind
          (fun ra => (_scale_enum acc ra scales)[j]?) := by
  unfold generate_anchors
  simp only []
  rw [foldl_append_eq, List.nil_append]
  obtain ⟨hlen, hget⟩ := getElem?_flatten_blocks scales.length
    ((_ratio_enum acc (baseAnchor base_size) ratios).map (fun ra => _scale_enum acc ra scales))
    (by
      intro blk hblk
      obtain ⟨ra, _, hra⟩ := List.mem_map.mp hblk
      rw [← hra, length_scale_enum])
  constructor
  · rw [hlen, List.length_map, length_ratio_enum]
  · intro i j hj
    rw [hget i j hj, List.getElem?_map]
    cases (_ratio_enum acc (baseAnchor base_size) ratios)[i]? <;> rfl


/-- The entries of `_anchors_fpn` after `generate_anchors_fpn`, started on the empty map: for
every line of the configuration there is an entry at its stride, and it holds the anchors
generated for a line of that stride. -/
theorem generate_anchors_fpn_entries (acc : AnchorAccessors)
    (sortCfg : List AnchorCfgLine → List AnchorCfgLine) (anchorCfg : List AnchorCfgLine)
    (hsort : IsSortedCfg anchorCfg (sortCfg anchorCfg)) :
    ∀ line ∈ anchorCfg, ∃ line' ∈ anchorCfg, line'.stride = line.stride ∧
      generate_anchors_fpn acc sortCfg anchorCfg emptyAnchorMap line.stride =
        some (generate_anchors acc line'.baseSize line'.ratios line'.scales) := by
  have hstep : ∀ (l : List AnchorCfgLine) (m : AnchorMap),
      (∀ k v, m k = some v → ∃ line' ∈ anchorCfg, line'.stride = k ∧
        v = generate_anchors acc line'.baseSize line'.ratios line'.scales) →
      (∀ line ∈ l, line ∈ anchorCfg) →
      (∀ k v, m k = some v → (l.foldl (fun m cfgLine => mapEmplace m cfgLine.stride
        (generate_anchors acc cfgLine.baseSize cfgLine.ratios cfgLine.scales)) m) k = some v) ∧
      (∀ line ∈ l, ∃ v, (l.foldl (fun m cfgLine => mapEmplace m cfgLine.stride
        (generate_anchors acc cfgLine.baseSize cfgLine.ratios cfgLine.scales)) m) line.stride
          = some v) ∧
      (∀ k v, (l.foldl (fun m cfgLine => mapEmplace m cfgLine.stride
        (generate_anchors acc cfgLine.baseSize cfgLine.ratios cfgLine.scales)) m) k = some v →
        ∃ line' ∈ anchorCfg, line'.stride = k ∧
          v = generate_anchors acc line'.baseSize line'.ratios line'.scales) := by
    intro l
    induction l with
    | nil =>
      intro m hm _
      exact ⟨fun k v h => h, fun line hl => absurd hl (List.not_mem_nil _), hm⟩
    | cons c rest ih =>
      intro m hm hsub
      have hm' : ∀ k v, mapEmplace m c.stride
          (generate_anchors acc c.baseSize c.ratios c.scales) k = some v →
          ∃ line' ∈ anchorCfg, line'.stride = k ∧
            v = generate_anchors acc line'.baseSize line'.ratios line'.scales := by
        intro k v hkv
        unfold mapEmplace at hkv
        split at hkv
        · rename_i hk
          split at hkv
          · rename_i old hold
            simp only [Option.some.injEq] at hkv
            rw [← hkv]
            exact hm k old hold
          · simp only [Option.some.injEq] at hkv
            exact ⟨c, hsub c (List.mem_cons_self _ _), hk.symm, hkv.symm⟩
        · exact hm k v hkv
      have hkeepOld : ∀ k v, m k = some v → mapEmplace m c.stride
          (generate_anchors acc c.baseSize c.ratios c.scales) k = some v := by
        intro k v hkv
        unfold mapEmplace
        split
        · rw [hkv]
        · exact hkv
      have hc : ∃ v, mapEmplace m c.stride
          (generate_anchors acc c.baseSize c.ratios c.scales) c.stride = some v := by
        unfold mapEmplace
        rw [if_pos rfl]
        cases m c.stride with
        | none => exact ⟨_, rfl⟩
        | some old => exact ⟨old, rfl⟩
      obtain ⟨h1, h2, h3⟩ := ih _ hm' (fun line hl => hsub line (List.mem_cons_of_mem _ hl))
      rw [List.foldl_cons]
      refine ⟨fun k v hkv => h1 k v (hkeepOld k v hkv), ?_, h3⟩
      intro line hl
      rcases List.mem_cons.mp hl with hlc | hlr
      · obtain ⟨v, hv⟩ := hc
        rw [hlc]
        exact ⟨v, h1 _ v hv⟩
      · exact h2 line hlr
  intro line hline
  have hline' : line ∈ sortCfg anchorCfg := hsort.1.symm.subset hline
  obtain ⟨_, h2, h3⟩ := hstep (sortCfg anchorCfg) emptyAnchorMap
    (fun k v h => absurd h (by simp [emptyAnchorMap])) (fun l hl => hsort.1.subset hl)
  obtain ⟨v, hv⟩ := h2 line hline'
  obtain ⟨line', hl', hs', hv'⟩ := h3 _ v hv
  refine ⟨line', hl', hs', ?_⟩
  unfold generate_anchors_fpn
  rw [hv, hv']

theorem generate_anchors_unit_aux (b : Int) (hb : 1 ≤ b) :
    generate_anchors inclusiveAccessors b [1] [1] = [baseAnchor b] ∧
    generate_anchors specAccessors b [1] [1] = [⟨1, 1, (b : ℚ) - 2, (b : ℚ) - 2⟩] := by
  obtain ⟨n, hn⟩ : ∃ n : Nat, b = (n : Int) + 1 := ⟨(b - 1).toNat, by omega⟩
  have hq : (b : ℚ) = (n : ℚ) + 1 := by
    rw [hn]
    push_cast
    rfl
  constructor
  · have hsz : ((b : ℚ) - 1 - 0 + 1) * ((b : ℚ) - 1 - 0 + 1) / 1 =
        ((n + 1 : ℕ) : ℚ) * ((n + 1 : ℕ) : ℚ) := by
      rw [hq]
      push_cast
      ring
    simp only [generate_anchors, _ratio_enum, _scale_enum, baseAnchor, inclusiveAccessors,
      List.map, List.foldl, List.nil_append, hsz, roundSqrt_natCast_mul_self, mul_one,
      stdRound_natCast]
    rw [hq]
    push_cast
    congr 1
    congr 1 <;> ring
  · have hsz : ((b : ℚ) - 1 - 0) * ((b : ℚ) - 1 - 0) / 1 = ((n : ℕ) : ℚ) * ((n : ℕ) : ℚ) := by
      rw [hq]
      ring
    simp only [generate_anchors, _ratio_enum, _scale_enum, baseAnchor, specAccessors,
      List.map, List.foldl, List.nil_append, hsz, roundSqrt_natCast_mul_self, mul_one,
      stdRound_natCast]
    rw [hq]
    congr 1
    congr 1 <;> ring

/-- C8 (as amended): for every base size `b ≥ 1`, `generate_anchors(b, [1.0], [1.0])` returns
exactly one anchor. It is the base anchor `(0, 0, b-1, b-1)` when the accessors of `Anchor`
follow the inclusive convention `width = right - left + 1`, `height = bottom - top + 1`; with
the accessors worded as in section 3 of the specification (`width = right - left`,
`height = bottom - top`) it is `(1, 1, b-2, b-2)`. -/
theorem generate_anchors_unit_ratio_scale (b : Int) (hb : 1 ≤ b) :
    generate_anchors inclusiveAccessors b [1] [1] = [baseAnchor b] ∧
    generate_anchors specAccessors b [1] [1] = [⟨1, 1, (b : ℚ) - 2, (b : ℚ) - 2⟩] :=
  generate_anchors_unit_aux b hb

/-- C8 (witness): base size 16. -/
theorem generate_anchors_unit_ratio_scale_witness :
    (1 : Int) ≤ 16 ∧
      generate_anchors inclusiveAccessors 16 [1] [1] = [baseAnchor 16] ∧
      generate_anchors specAccessors 16 [1] [1] = [⟨1, 1, ((16 : Int) : ℚ) - 2, ((16 : Int) : ℚ) - 2⟩] :=
  ⟨by decide, generate_anchors_unit_ratio_scale 16 (by decide)⟩

/-- C8 (counterexample): with `width = right - left`, `height = bottom - top` and the
midpoints as centres, as section 3 of the specification words the accessors,
`generate_anchors(16, [1.0], [1.0])` is the single anchor `(1, 1, 14, 14)`, not the base
anchor `(0, 0, 15, 15)`. -/
theorem generate_anchors_spec_accessors_shrink :
    generate_anchors specAccessors 16 [1] [1] = [⟨1, 1, 14, 14⟩] ∧
      generate_anchors specAccessors 16 [1] [1] ≠ [⟨0, 0, 15, 15⟩] := by
  have h := (generate_anchors_unit_aux 16 (by decide)).2
  have h14 : ((16 : Int) : ℚ) - 2 = 14 := by norm_num
  rw [h14] at h
  rw [h]
  exact ⟨rfl, by decide⟩

/-- C9: `generate_anchors` returns `|ratios| * |scales|` anchors, the anchor at index
`i * |scales| + j` being the `j`-th scale variant of the `i`-th ratio variant of the base
anchor; and after `generate_anchors_fpn` (whose sort meets the contract of `std::sort`) the
entry stored at the stride of a configuration line holds the anchors of a line of that stride,
`|ratios| * |scales|` of them. -/
theorem generate_anchors_ratio_major (acc : AnchorAccessors) (base_size : Int)
    (ratios scales : List ℚ) (sortCfg : List AnchorCfgLine → List AnchorCfgLine)
    (anchorCfg : List AnchorCfgLine) (hsort : IsSortedCfg anchorCfg (sortCfg anchorCfg)) :
    (generate_anchors acc base_size ratios scales).length = ratios.length * scales.length ∧
    (∀ i j : Nat, i < ratios.length → j < scales.length →
      ∃ ra a, (_ratio_enum acc (baseAnchor base_size) ratios)[i]? = some ra ∧
        (_scale_enum acc ra scales)[j]? = some a ∧
        (generate_anchors acc base_size ratios scales)[i * scales.length + j]? = some a) ∧
    (∀ line ∈ anchorCfg, ∃ line' ∈ anchorCfg, line'.stride = line.stride ∧
      generate_anchors_fpn acc sortCfg anchorCfg emptyAnchorMap line.stride =
        some (generate_anchors acc line'.baseSize line'.ratios line'.scales) ∧
      (mapGet (generate_anchors_fpn acc sortCfg anchorCfg emptyAnchorMap) line.stride).length =
        line'.ratios.length * line'.scales.length) := by
  obtain ⟨hlen, hget⟩ := generate_anchors_spec acc base_size ratios scales
  refine ⟨hlen, ?_, ?_⟩
  · intro i j hi hj
    have hi' : i < (_ratio_enum acc (baseAnchor base_size) ratios).length := by
      rw [length_ratio_enum]
      exact hi
    have hj' : j < (_scale_enum acc
        ((_ratio_enum acc (baseAnchor base_size) ratios)[i]) scales).length := by
      rw [length_scale_enum]
      exact hj
    refine ⟨(_ratio_enum acc (baseAnchor base_size) ratios)[i], _,
      List.getElem?_eq_getElem hi', List.getElem?_eq_getElem hj', ?_⟩
    rw [hget i j hj, List.getElem?_eq_getElem hi']
    exact List.getElem?_eq_getElem hj'
  · intro line hline
    obtain ⟨line', hl', hs', hv⟩ := generate_anchors_fpn_entries acc sortCfg anchorCfg hsort
      line hline
    refine ⟨line', hl', hs', hv, ?_⟩
    unfold mapGet
    rw [hv]
    exact (generate_anchors_spec acc line'.baseSize line'.ratios line'.scales).1


/-- C9 (witness): the configuration of the constructor, already in descending stride order,
and the anchors of its first line (base size 16, one ratio, the scales 32 and 16). -/
theorem generate_anchors_ratio_major_witness :
    IsSortedCfg defaultAnchorCfg (id defaultAnchorCfg) ∧
      (generate_anchors inclusiveAccessors 16 [1] [32, 16]).length =
        ([1] : List ℚ).length * ([32, 16] : List ℚ).length ∧
      (∃ ra a, (_ratio_enum inclusiveAccessors (baseAnchor 16) [1])[0]? = some ra ∧
        (_scale_enum inclusiveAccessors ra [32, 16])[1]? = some a ∧
        (generate_anchors inclusiveAccessors 16 [1] [32, 16])[
          0 * ([32, 16] : List ℚ).length + 1]? = some a) :=
  have h := generate_anchors_ratio_major inclusiveAccessors 16 [1] [32, 16] id defaultAnchorCfg
    (by decide!)
  ⟨by decide!, h.1, h.2.1 0 1 (by decide) (by decide)⟩

theorem roundSqrt_256 : roundSqrt 256 = 16 := by
  have h := roundSqrt_natCast_mul_self 16
  norm_num at h
  exact h

theorem stdRound_16 : stdRound 16 = 16 := by
  have h := stdRound_natCast 16
  norm_num at h
  exact h

/-- The anchors that `generate_anchors` gives for the base size 16, the ratio 1 and two scales,
under the inclusive convention. -/
theorem generate_anchors_16 (s1 s2 : ℚ) :
    generate_anchors inclusiveAccessors 16 [1] [s1, s2] =
      [⟨15 / 2 - 1 / 2 * (16 * s1 - 1), 15 / 2 - 1 / 2 * (16 * s1 - 1),
          15 / 2 + 1 / 2 * (16 * s1 - 1), 15 / 2 + 1 / 2 * (16 * s1 - 1)⟩,
        ⟨15 / 2 - 1 / 2 * (16 * s2 - 1), 15 / 2 - 1 / 2 * (16 * s2 - 1),
          15 / 2 + 1 / 2 * (16 * s2 - 1), 15 / 2 + 1 / 2 * (16 * s2 - 1)⟩] := by
  have hsz : (((16 : Int) : ℚ) - 1 - 0 + 1) * (((16 : Int) : ℚ) - 1 - 0 + 1) / 1 = 256 := by
    norm_num
  simp only [generate_anchors, _ratio_enum, _scale_enum, baseAnchor, inclusiveAccessors,
    List.map, List.foldl, List.nil_append, hsz, roundSqrt_256, mul_one, stdRound_16]
  norm_num

/-- The map `exampleAnchorsFpn` is the one that `generate_anchors_fpn` builds for the
configuration of the constructor under the inclusive convention. -/
theorem exampleAnchorsFpn_eq (s : Int) :
    generate_anchors_fpn inclusiveAccessors id defaultAnchorCfg emptyAnchorMap s =
      exampleAnchorsFpn s := by
  simp only [generate_anchors_fpn, defaultAnchorCfg, id, List.foldl, generate_anchors_16,
    exampleAnchorsFpn]
  norm_num


/-! ## Claims on the anchor grid -/

theorem plane_index_lt (H W A ih iw k : Nat) (hih : ih < H) (hiw : iw < W) (hk : k < A) :
    (ih * W + iw) * A + k < H * W * A := by
  have h1 : ih * W + iw + 1 ≤ H * W := by
    have : (ih + 1) * W ≤ H * W := Nat.mul_le_mul_right W hih
    rw [Nat.succ_mul] at this
    omega
  have h2 : (ih * W + iw + 1) * A ≤ H * W * A := Nat.mul_le_mul_right A h1
  rw [Nat.succ_mul] at h2
  omega

theorem planeEntry_at (s : Int) (W : Nat) (anchors_fpn : List Anchor) (ih iw k : Nat)
    (a : Anchor) (hiw : iw < W) (hk : anchors_fpn[k]? = some a) :
    planeEntry s W anchors_fpn ((ih * W + iw) * anchors_fpn.length + k) =
      shiftAnchor a ((iw : Int) * s) ((ih : Int) * s) := by
  have hkl : k < anchors_fpn.length := (List.getElem?_eq_some_iff.mp hk).1
  have hmod : ((ih * W + iw) * anchors_fpn.length + k) % anchors_fpn.length = k := by
    rw [Nat.add_comm, Nat.add_mul_mod_self_right, Nat.mod_eq_of_lt hkl]
  have hdiv : ((ih * W + iw) * anchors_fpn.length + k) / anchors_fpn.length = ih * W + iw := by
    rw [Nat.add_comm, Nat.add_mul_div_right _ _ (Nat.lt_of_le_of_lt (Nat.zero_le k) hkl),
      Nat.div_eq_of_lt hkl, Nat.zero_add]
  have hmodw : (ih * W + iw) % W = iw := by
    rw [Nat.add_comm, Nat.add_mul_mod_self_right, Nat.mod_eq_of_lt hiw]
  have hdivw : (ih * W + iw) / W = ih := by
    rw [Nat.add_comm, Nat.add_mul_div_right _ _ (Nat.lt_of_le_of_lt (Nat.zero_le iw) hiw),
      Nat.div_eq_of_lt hiw, Nat.zero_add]
  unfold planeEntry
  rw [hmod, hdiv, hmodw, hdivw, hk]
  rfl

/-- A loop whose body keeps the length and the entries already right, and makes the entries
at the positions `Wr x` right, makes the entries at all these positions right. -/
theorem foldl_writes_inv {ι : Type} (val : Nat → Anchor) (N : Nat)
    (body : List Anchor → ι → List Anchor) (Wr : ι → Nat → Prop) :
    ∀ (xs : List ι),
      (∀ x ∈ xs, ∀ (l : List Anchor) (G : Nat → Prop),
        (l.length = N ∧ ∀ q, G q → l[q]? = some (val q)) →
        ((body l x).length = N ∧ ∀ q, (G q ∨ Wr x q) → (body l x)[q]? = some (val q))) →
      ∀ (l : List Anchor) (G : Nat → Prop),
        (l.length = N ∧ ∀ q, G q → l[q]? = some (val q)) →
        ((xs.foldl body l).length = N ∧
          ∀ q, (G q ∨ ∃ x ∈ xs, Wr x q) → (xs.foldl body l)[q]? = some (val q)) := by
  intro xs
  induction xs with
  | nil =>
    intro _ l G hl
    refine ⟨hl.1, ?_⟩
    intro q hq
    rcases hq with hq | ⟨x, hx, _⟩
    · exact hl.2 q hq
    · exact absurd hx (List.not_mem_nil _)
  | cons x rest ih =>
    intro hbody l G hl
    have hstep := hbody x (List.mem_cons_self _ _) l G hl
    have hrest := ih (fun y hy => hbody y (List.mem_cons_of_mem _ hy)) (body l x)
      (fun q => G q ∨ Wr x q) hstep
    rw [List.foldl_cons]
    refine ⟨hrest.1, ?_⟩
    intro q hq
    apply hrest.2 q
    rcases hq with hq | ⟨y, hy, hyq⟩
    · exact Or.inl (Or.inl hq)
    · rcases List.mem_cons.mp hy with hyx | hyr
      · rw [hyx] at hyq
        exact Or.inl (Or.inr hyq)
      · exact Or.inr ⟨y, hyr, hyq⟩

theorem anchorsPlane_spec (s : Int) (H W : Nat) (anchors_fpn : List Anchor) :
    (anchorsPlane s H W anchors_fpn).length = H * W * anchors_fpn.length ∧
    ∀ ih iw k : Nat, ∀ a : Anchor, ih < H → iw < W → anchors_fpn[k]? = some a →
      (anchorsPlane s H W anchors_fpn)[(ih * W + iw) * anchors_fpn.length + k]? =
        some (shiftAnchor a ((iw : Int) * s) ((ih : Int) * s)) := by
  have hinner : ∀ iw ∈ List.range W, ∀ ih ∈ List.range H,
      ∀ (l : List Anchor) (G : Nat → Prop),
      (l.length = H * W * anchors_fpn.length ∧
        ∀ q, G q → l[q]? = some (planeEntry s W anchors_fpn q)) →
      ((anchors_fpn.enum.foldl (fun anchors ka =>
          anchors.set ((ih * W + iw) * anchors_fpn.length + ka.1)
            (shiftAnchor ka.2 ((iw : Int) * s) ((ih : Int) * s))) l).length
          = H * W * anchors_fpn.length ∧
        ∀ q, (G q ∨ ∃ ka ∈ anchors_fpn.enum, q = (ih * W + iw) * anchors_fpn.length + ka.1) →
          (anchors_fpn.enum.foldl (fun anchors ka =>
            anchors.set ((ih * W + iw) * anchors_fpn.length + ka.1)
              (shiftAnchor ka.2 ((iw : Int) * s) ((ih : Int) * s))) l)[q]?
            = some (planeEntry s W anchors_fpn q)) := by
    intro iw hiw ih hih l G hl
    refine foldl_writes_inv (planeEntry s W anchors_fpn) (H * W * anchors_fpn.length) _
      (fun ka q => q = (ih * W + iw) * anchors_fpn.length + ka.1) anchors_fpn.enum ?_ l G hl
    intro ka hka l' G' hl'
    have hget : anchors_fpn[ka.1]? = some ka.2 := List.mem_enum_iff_getElem?.mp hka
    have hk : ka.1 < anchors_fpn.length := (List.getElem?_eq_some_iff.mp hget).1
    have hlt := plane_index_lt H W anchors_fpn.length ih iw ka.1 (List.mem_range.mp hih)
      (List.mem_range.mp hiw) hk
    refine ⟨by rw [List.length_set]; exact hl'.1, ?_⟩
    intro q hq
    by_cases hqe : q = (ih * W + iw) * anchors_fpn.length + ka.1
    · rw [hqe, List.getElem?_set_self (by rw [hl'.1]; exact hlt),
        planeEntry_at s W anchors_fpn ih iw ka.1 ka.2 (List.mem_range.mp hiw) hget]
    · rw [List.getElem?_set_ne (fun h => hqe h.symm)]
      rcases hq with hq | hq
      · exact hl'.2 q hq
      · exact absurd hq hqe
  have hmiddle : ∀ iw ∈ List.range W, ∀ (l : List Anchor) (G : Nat → Prop),
      (l.length = H * W * anchors_fpn.length ∧
        ∀ q, G q → l[q]? = some (planeEntry s W anchors_fpn q)) →
      (((List.range H).foldl (fun anchors ih =>
          anchors_fpn.enum.foldl (fun anchors ka =>
            anchors.set ((ih * W + iw) * anchors_fpn.length + ka.1)
              (shiftAnchor ka.2 ((iw : Int) * s) ((ih : Int) * s))) anchors) l).length
          = H * W * anchors_fpn.length ∧
        ∀ q, (G q ∨ ∃ ih ∈ List.range H, ∃ ka ∈ anchors_fpn.enum,
            q = (ih * W + iw) * anchors_fpn.length + ka.1) →
          ((List.range H).foldl (fun anchors ih =>
            anchors_fpn.enum.foldl (fun anchors ka =>
              anchors.set ((ih * W + iw) * anchors_fpn.length + ka.1)
                (shiftAnchor ka.2 ((iw : Int) * s) ((ih : Int) * s))) anchors) l)[q]?
            = some (planeEntry s W anchors_fpn q)) := by
    intro iw hiw l G hl
    exact foldl_writes_inv (planeEntry s W anchors_fpn) (H * W * anchors_fpn.length) _
      (fun ih q => ∃ ka ∈ anchors_fpn.enum, q = (ih * W + iw) * anchors_fpn.length + ka.1)
      (List.range H) (fun ih hih l' G' hl' => hinner iw hiw ih hih l' G' hl') l G hl
  have houter := foldl_writes_inv (planeEntry s W anchors_fpn) (H * W * anchors_fpn.length)
    (fun anchors iw => (List.range H).foldl (fun anchors ih =>
      anchors_fpn.enum.foldl (fun anchors ka =>
        anchors.set ((ih * W + iw) * anchors_fpn.length + ka.1)
          (shiftAnchor ka.2 ((iw : Int) * s) ((ih : Int) * s))) anchors) anchors)
    (fun iw q => ∃ ih ∈ List.range H, ∃ ka ∈ anchors_fpn.enum,
      q = (ih * W + iw) * anchors_fpn.length + ka.1)
    (List.range W) (fun iw hiw l' G' hl' => hmiddle iw hiw l' G' hl')
    (List.replicate (H * W * anchors_fpn.length) ⟨0, 0, 0, 0⟩) (fun _ => False)
    ⟨List.length_replicate _ _, fun q hq => absurd hq id⟩
  refine ⟨houter.1, ?_⟩
  intro ih iw k a hih hiw hk
  have := houter.2 ((ih * W + iw) * anchors_fpn.length + k)
    (Or.inr ⟨iw, List.mem_range.mpr hiw, ih, List.mem_range.mpr hih, (k, a),
      List.mem_enum_iff_getElem?.mpr hk, rfl⟩)
  rw [planeEntry_at s W anchors_fpn ih iw k a hiw hk] at this
  exact this

/-- C10: the strided anchors plane has `H*W*A` entries; the entry at index
`(ih*W + iw)*A + k` is the canonical anchor `k` with left and right increased by `iw*s` and top
and bottom increased by `ih*s`; on a non-empty grid the entries `0 .. A-1` are the canonical
anchors themselves. -/
theorem anchorsPlane_entries (s : Int) (H W : Nat) (anchors_fpn : List Anchor) :
    (anchorsPlane s H W anchors_fpn).length = H * W * anchors_fpn.length ∧
    (∀ ih iw k : Nat, ∀ a : Anchor, ih < H → iw < W → anchors_fpn[k]? = some a →
      (anchorsPlane s H W anchors_fpn)[(ih * W + iw) * anchors_fpn.length + k]? =
        some ⟨a.left + (iw : Int) * s, a.top + (ih : Int) * s,
          a.right + (iw : Int) * s, a.bottom + (ih : Int) * s⟩) ∧
    (∀ k : Nat, ∀ a : Anchor, 0 < H → 0 < W → anchors_fpn[k]? = some a →
      (anchorsPlane s H W anchors_fpn)[k]? = some a) := by
  obtain ⟨hlen, hget⟩ := anchorsPlane_spec s H W anchors_fpn
  refine ⟨hlen, ?_, ?_⟩
  · intro ih iw k a hih hiw hk
    rw [hget ih iw k a hih hiw hk]
    simp [shiftAnchor]
  · intro k a hH hW hk
    have := hget 0 0 k a hH hW hk
    simpa [shiftAnchor] using this

/-- C10 (witness): stride 16, a 2 × 2 grid and two canonical anchors; the entry of the cell
`(1, 1)` for the anchor 1 is at index 7. -/
theorem anchorsPlane_entries_witness :
    (anchorsPlane 16 2 2 [⟨0, 0, 15, 15⟩, ⟨-8, -8, 23, 23⟩]).length = 2 * 2 * 2 ∧
      (anchorsPlane 16 2 2 [⟨0, 0, 15, 15⟩, ⟨-8, -8, 23, 23⟩])[(1 * 2 + 1) * 2 + 1]? =
        some ⟨-8 + ((1 : Nat) : Int) * 16, -8 + ((1 : Nat) : Int) * 16,
          23 + ((1 : Nat) : Int) * 16, 23 + ((1 : Nat) : Int) * 16⟩ ∧
      (anchorsPlane 16 2 2 [⟨0, 0, 15, 15⟩, ⟨-8, -8, 23, 23⟩])[1]? = some ⟨-8, -8, 23, 23⟩ :=
  have h := anchorsPlane_entries 16 2 2 [⟨0, 0, 15, 15⟩, ⟨-8, -8, 23, 23⟩]
  ⟨h.1, h.2.1 1 1 1 ⟨-8, -8, 23, 23⟩ (by decide) (by decide) rfl,
    h.2.2 1 ⟨-8, -8, 23, 23⟩ (by decide) (by decide) rfl⟩


/-! ## Claims on the tensor decoders -/

/-- A loop in which a step may fail: when every step succeeds from any state of the right
length, keeps the entries already right and makes the entries at the positions `Wr x` right,
the loop succeeds and makes the entries at all these positions right. -/
theorem foldlM_writes_inv {ι : Type} (val : Nat → ℚ) (N : Nat)
    (body : List ℚ → ι → Option (List ℚ)) (Wr : ι → Nat → Prop) :
    ∀ (xs : List ι),
      (∀ x ∈ xs, ∀ (l : List ℚ) (G : Nat → Prop),
        (l.length = N ∧ ∀ q, G q → l[q]? = some (val q)) →
        ∃ l', body l x = some l' ∧ l'.length = N ∧
          ∀ q, (G q ∨ Wr x q) → l'[q]? = some (val q)) →
      ∀ (l : List ℚ) (G : Nat → Prop),
        (l.length = N ∧ ∀ q, G q → l[q]? = some (val q)) →
        ∃ l', xs.foldlM body l = some l' ∧ l'.length = N ∧
          ∀ q, (G q ∨ ∃ x ∈ xs, Wr x q) → l'[q]? = some (val q) := by
  intro xs
  induction xs with
  | nil =>
    intro _ l G hl
    refine ⟨l, rfl, hl.1, ?_⟩
    intro q hq
    rcases hq with hq | ⟨x, hx, _⟩
    · exact hl.2 q hq
    · exact absurd hx (List.not_mem_nil _)
  | cons x rest ih =>
    intro hbody l G hl
    obtain ⟨l1, hl1, hlen1, hval1⟩ := hbody x (List.mem_cons_self _ _) l G hl
    obtain ⟨l2, hl2, hlen2, hval2⟩ := ih (fun y hy => hbody y (List.mem_cons_of_mem _ hy)) l1
      (fun q => G q ∨ Wr x q) ⟨hlen1, hval1⟩
    refine ⟨l2, ?_, hlen2, ?_⟩
    · rw [List.foldlM_cons, hl1]
      exact hl2
    · intro q hq
      apply hval2 q
      rcases hq with hq | ⟨y, hy, hyq⟩
      · exact Or.inl (Or.inl hq)
      · rcases List.mem_cons.mp hy with hyx | hyr
        · rw [hyx] at hyq
          exact Or.inl (Or.inr hyq)
        · exact Or.inr ⟨y, hyr, hyq⟩


/-- The source position of the output entry `q` of the score extraction. -/
theorem scores_source_index (A R H W x y z : Nat) (hx : A ≤ x) (hxR : x - A < R) (hz : z < W) :
    ((((y * W + z) * R + (x - A)) % R + A) * H + ((y * W + z) * R + (x - A)) / R / W) * W +
      ((y * W + z) * R + (x - A)) / R % W = (x * H + y) * W + z := by
  have hR : 0 < R := Nat.lt_of_le_of_lt (Nat.zero_le _) hxR
  have hW : 0 < W := Nat.lt_of_le_of_lt (Nat.zero_le _) hz
  have hmod : ((y * W + z) * R + (x - A)) % R = x - A := by
    rw [Nat.add_comm, Nat.add_mul_mod_self_right, Nat.mod_eq_of_lt hxR]
  have hdiv : ((y * W + z) * R + (x - A)) / R = y * W + z := by
    rw [Nat.add_comm, Nat.add_mul_div_right _ _ hR, Nat.div_eq_of_lt hxR, Nat.zero_add]
  have hmodw : (y * W + z) % W = z := by
    rw [Nat.add_comm, Nat.add_mul_mod_self_right, Nat.mod_eq_of_lt hz]
  have hdivw : (y * W + z) / W = y := by
    rw [Nat.add_comm, Nat.add_mul_div_right _ _ hW, Nat.div_eq_of_lt hz, Nat.zero_add]
  rw [hmod, hdiv, hmodw, hdivw, Nat.sub_add_cancel hx]

theorem get_scores_spec (t : Tensor) (A : Nat) (hA : A ≤ t.channels)
    (hdata : t.data.length = t.channels * t.height * t.width) :
    ∃ out, _get_scores t A = some out ∧
      out.length = (t.channels - A) * t.height * t.width ∧
      ∀ x y z : Nat, A ≤ x → x < t.channels → y < t.height → z < t.width →
        out[(y * t.width + z) * (t.channels - A) + (x - A)]? =
          t.data[(x * t.height + y) * t.width + z]? := by
  obtain ⟨C, H, W, data⟩ := t
  simp only at hA hdata ⊢
  have hval : ∀ x y z : Nat, A ≤ x → x < C → y < H → z < W →
      ∀ (l : List ℚ) (G : Nat → Prop),
      (l.length = (C - A) * H * W ∧ ∀ q, G q → l[q]? = some
        ((data[((q % (C - A) + A) * H + q / (C - A) / W) * W + q / (C - A) % W]?).getD 0)) →
      ∃ l', (match data[(x * H + y) * W + z]? with
          | some v => some (l.set ((y * W + z) * (C - A) + (x - A)) v)
          | none => none) = some l' ∧ l'.length = (C - A) * H * W ∧
        ∀ q, (G q ∨ q = (y * W + z) * (C - A) + (x - A)) → l'[q]? = some
          ((data[((q % (C - A) + A) * H + q / (C - A) / W) * W + q / (C - A) % W]?).getD 0) := by
    intro x y z hx hxC hy hz l G hl
    have hsrc : (x * H + y) * W + z < data.length := by
      rw [hdata]
      exact plane_index_lt C H W x y z hxC hy hz
    have hxR : x - A < C - A := by omega
    have hdst : (y * W + z) * (C - A) + (x - A) < (C - A) * H * W := by
      have := plane_index_lt H W (C - A) y z (x - A) hy hz hxR
      calc (y * W + z) * (C - A) + (x - A) < H * W * (C - A) := this
        _ = (C - A) * H * W := by ring
    rw [List.getElem?_eq_getElem hsrc]
    refine ⟨_, rfl, by rw [List.length_set]; exact hl.1, ?_⟩
    intro q hq
    by_cases hqe : q = (y * W + z) * (C - A) + (x - A)
    · rw [hqe, List.getElem?_set_self (by rw [hl.1]; exact hdst),
        scores_source_index A (C - A) H W x y z hx hxR hz, List.getElem?_eq_getElem hsrc]
      rfl
    · rw [List.getElem?_set_ne (fun h => hqe h.symm)]
      rcases hq with hq | hq
      · exact hl.2 q hq
      · exact absurd hq hqe
  unfold _get_scores
  simp only
  rw [if_neg (not_lt.mpr hA)]
  obtain ⟨out, hout, hlen, hget⟩ := foldlM_writes_inv
    (fun q => (data[((q % (C - A) + A) * H + q / (C - A) / W) * W + q / (C - A) % W]?).getD 0)
    ((C - A) * H * W) _
    (fun x q => ∃ y ∈ List.range H, ∃ z ∈ List.range W,
      q = (y * W + z) * (C - A) + (x - A))
    (List.range' A (C - A))
    (by
      intro x hx l G hl
      have hxr := List.mem_range'_1.mp hx
      exact foldlM_writes_inv _ _ _
        (fun y q => ∃ z ∈ List.range W, q = (y * W + z) * (C - A) + (x - A))
        (List.range H)
        (by
          intro y hy l' G' hl'
          exact foldlM_writes_inv _ _ _
            (fun z q => q = (y * W + z) * (C - A) + (x - A))
            (List.range W)
            (by
              intro z hz l'' G'' hl''
              exact hval x y z hxr.1 (by omega) (List.mem_range.mp hy) (List.mem_range.mp hz)
                l'' G'' hl'')
            l' G' hl')
        l G hl)
    (List.replicate ((C - A) * H * W) 0) (fun _ => False)
    ⟨List.length_replicate _ _, fun q hq => absurd hq id⟩
  refine ⟨out, hout, hlen, ?_⟩
  intro x y z hx hxC hy hz
  have hxR : x - A < C - A := by omega
  rw [hget _ (Or.inr ⟨x, List.mem_range'_1.mpr ⟨hx, by omega⟩, y, List.mem_range.mpr hy, z,
    List.mem_range.mpr hz, rfl⟩), scores_source_index A (C - A) H W x y z hx hxR hz]
  have hsrc : (x * H + y) * W + z < data.length := by
    rw [hdata]
    exact plane_index_lt C H W x y z hxC hy hz
  rw [List.getElem?_eq_getElem hsrc]
  rfl


/-- A tensor of `2A` channels that stores `v[(y*W+z)*A + k]` at channel `A + k`, row `y`,
column `z` is decoded to `v`. -/
theorem get_scores_stored (t : Tensor) (A : Nat)
    (hdata : t.data.length = t.channels * t.height * t.width) (v : List ℚ)
    (hC : t.channels = 2 * A) (hv : v.length = t.height * t.width * A)
    (hstore : ∀ k y z : Nat, k < A → y < t.height → z < t.width →
      t.data[((A + k) * t.height + y) * t.width + z]? = v[(y * t.width + z) * A + k]?) :
    _get_scores t A = some v := by
  have hA : A ≤ t.channels := by omega
  obtain ⟨out, hout, hlen, hget⟩ := get_scores_spec t A hA hdata
  rw [hout]
  congr 1
  have hR : t.channels - A = A := by omega
  rw [hR] at hlen hget
  apply List.ext_getElem?
  intro q
  by_cases hq : q < t.height * t.width * A
  · have hApos : 0 < A := by
      rcases Nat.eq_zero_or_pos A with h0 | h0
      · rw [h0] at hq
        simp at hq
      · exact h0
    have hcell : q / A < t.height * t.width := by
      rw [Nat.div_lt_iff_lt_mul hApos]
      exact hq
    have hWpos : 0 < t.width := by
      rcases Nat.eq_zero_or_pos t.width with h0 | h0
      · rw [h0] at hcell
        simp at hcell
      · exact h0
    have hy : q / A / t.width < t.height := by
      rw [Nat.div_lt_iff_lt_mul hWpos]
      exact hcell
    have hz : q / A % t.width < t.width := Nat.mod_lt _ hWpos
    have hk : q % A < A := Nat.mod_lt _ hApos
    have hcelleq : q / A / t.width * t.width + q / A % t.width = q / A :=
      Nat.div_add_mod' (q / A) t.width
    have hqeq : (q / A / t.width * t.width + q / A % t.width) * A + q % A = q := by
      rw [hcelleq]
      exact Nat.div_add_mod' q A
    have h1 := hget (A + q % A) (q / A / t.width) (q / A % t.width) (by omega) (by omega) hy hz
    rw [Nat.add_sub_cancel_left, hqeq] at h1
    have h2 := hstore (q % A) (q / A / t.width) (q / A % t.width) hk hy hz
    rw [hqeq] at h2
    rw [h1, h2]
  · have h1 : out.length ≤ q := by
      rw [hlen]
      have : A * t.height * t.width = t.height * t.width * A := by ring
      omega
    have h2 : v.length ≤ q := by omega
    rw [List.getElem?_eq_none h1, List.getElem?_eq_none h2]

/-- C11: for a tensor with a full buffer and at least `A` channels, `_get_scores` returns
`(C-A)*H*W` values with `out[(y*W+z)*(C-A) + (x-A)] = tensor[x][y][z]` for every channel
`x` in `[A, C)`; and if the tensor has `2A` channels and stores `v[(y*W+z)*A + k]` at channel
`A + k`, row `y`, column `z`, for a list `v` of `H*W*A` values, then `_get_scores` returns
exactly `v`. -/
theorem get_scores_round_trip (t : Tensor) (A : Nat) (hA : A ≤ t.channels)
    (hdata : t.data.length = t.channels * t.height * t.width) :
    (∃ out, _get_scores t A = some out ∧
      out.length = (t.channels - A) * t.height * t.width ∧
      ∀ x y z : Nat, A ≤ x → x < t.channels → y < t.height → z < t.width →
        out[(y * t.width + z) * (t.channels - A) + (x - A)]? =
          t.data[(x * t.height + y) * t.width + z]?) ∧
    (∀ v : List ℚ, t.channels = 2 * A → v.length = t.height * t.width * A →
      (∀ k y z : Nat, k < A → y < t.height → z < t.width →
        t.data[((A + k) * t.height + y) * t.width + z]? = v[(y * t.width + z) * A + k]?) →
      _get_scores t A = some v) :=
  ⟨get_scores_spec t A hA hdata,
    fun v hC hv hstore => get_scores_stored t A hdata v hC hv hstore⟩

/-- C11 (witness): two anchors on a 1 × 2 grid; the foreground values 1, 2, 3, 4 stored in
the channels 2 and 3 come back in the order cell by cell, anchor by anchor. -/
theorem get_scores_round_trip_witness :
    _get_scores ⟨4, 1, 2, [9, 9, 9, 9, 1, 3, 2, 4]⟩ 2 = some [1, 2, 3, 4] :=
  (get_scores_round_trip ⟨4, 1, 2, [9, 9, 9, 9, 1, 3, 2, 4]⟩ 2 (by decide) (by decide)).2
    [1, 2, 3, 4] (by decide) (by decide) (by
      intro k y z hk hy hz
      have hy0 : y = 0 := by simpa using hy
      subst hy0
      interval_cases k <;> interval_cases z <;> rfl)

/-- C20: the mask score decoder is the score extractor started at the channel
`2 * anchor_num`. -/
theorem get_mask_scores_eq_get_scores (rawData : Tensor) (anchor_num : Nat) :
    _get_mask_scores rawData anchor_num = _get_scores rawData (2 * anchor_num) := by
  unfold _get_mask_scores _get_scores
  rw [Nat.mul_comm anchor_num 2]

theorem collectAll_eq_some {α : Type} :
    ∀ (l : List (Option α)) (res : List α), collectAll l = some res →
      res.length = l.length ∧ ∀ i : Nat, i < l.length → l[i]? = (res[i]?).map some
  | [], res, h => by
    rw [collectAll] at h
    simp only [Option.some.injEq] at h
    rw [← h]
    exact ⟨rfl, fun i hi => absurd hi (Nat.not_lt_zero i)⟩
  | none :: rest, res, h => by
    rw [collectAll] at h
    exact absurd h (by simp)
  | some a :: rest, res, h => by
    rw [collectAll] at h
    split at h
    · rename_i as has
      simp only [Option.some.injEq] at h
      obtain ⟨hl, hg⟩ := collectAll_eq_some rest as has
      rw [← h]
      refine ⟨by simp [hl], ?_⟩
      intro i hi
      cases i with
      | zero => simp
      | succ i =>
        simp only [List.getElem?_cons_succ]
        exact hg i (by simpa using hi)
    · exact absurd h (by simp)

/-- C14 (what the code returns): whenever `_get_landmarks` returns, it returns one sequence per
anchor, and every sequence is empty: `reserve` does not change the size of `retVal[i]`, and the
assignments `retVal[i][j] = ...` do not either. -/
theorem get_landmarks_sequences_empty (acc : AnchorAccessors) (rawData : Tensor)
    (anchor_num : Nat) (anchors : List Anchor) (landmark_std : ℚ)
    (res : List (List Point2f))
    (h : _get_landmarks acc rawData anchor_num anchors landmark_std = some res) :
    res.length = anchors.length ∧ ∀ seq ∈ res, seq.length = 0 := by
  unfold _get_landmarks at h
  split at h
  · exact absurd h (by simp)
  · obtain ⟨hlen, hget⟩ := collectAll_eq_some _ res h
    rw [List.length_map, List.enum_length] at hlen hget
    refine ⟨hlen, ?_⟩
    intro seq hseq
    obtain ⟨i, hi, hseqi⟩ := List.getElem_of_mem hseq
    have h1 := hget i (by rw [← hlen]; exact hi)
    rw [List.getElem?_map, List.getElem?_eq_getElem hi, hseqi] at h1
    cases hia : anchors.enum[i]? with
    | none =>
      rw [hia] at h1
      exact absurd h1 (by simp)
    | some ia =>
      rw [hia] at h1
      simp only [Option.map_some'] at h1
      split at h1
      · simp only [Option.some.injEq] at h1
        rw [← h1]
        rfl
      · exact absurd h1 (by simp)

/-- C14 (witness): a landmark tensor of shape (1, 20, 1, 1) and the two anchors of one cell:
two sequences are returned, both empty, where five points each are expected. -/
theorem get_landmarks_sequences_empty_witness :
    _get_landmarks inclusiveAccessors ⟨20, 1, 1, List.replicate 20 0⟩ 2
        [⟨-8, -8, 23, 23⟩, ⟨0, 0, 15, 15⟩] (1 / 5) = some [[], []] ∧
      ([[], []] : List (List Point2f)).length = [(⟨-8, -8, 23, 23⟩ : Anchor), ⟨0, 0, 15, 15⟩].length ∧
      ∀ seq ∈ ([[], []] : List (List Point2f)), seq.length = 0 :=
  ⟨by decide!,
    get_landmarks_sequences_empty inclusiveAccessors ⟨20, 1, 1, List.replicate 20 0⟩ 2
      [⟨-8, -8, 23, 23⟩, ⟨0, 0, 15, 15⟩] (1 / 5) [[], []] (by decide!)⟩

/-! ## Claims on `postprocess` -/

theorem mem_insertByScore (scores : List ℚ) (o x : Int) :
    ∀ l : List Int, x ∈ insertByScore scores o l ↔ x = o ∨ x ∈ l
  | [] => by simp [insertByScore]
  | p :: rest => by
    unfold insertByScore
    split
    · simp
    · rw [List.mem_cons, mem_insertByScore scores o x rest, List.mem_cons]
      tauto

theorem perm_insertByScore (scores : List ℚ) (o : Int) :
    ∀ l : List Int, List.Perm (insertByScore scores o l) (o :: l)
  | [] => by simp [insertByScore]
  | p :: rest => by
    unfold insertByScore
    split
    · exact List.Perm.refl _
    · exact ((perm_insertByScore scores o rest).cons p).trans (List.Perm.swap o p rest)

theorem pairwise_insertByScore (scores : List ℚ) (o : Int) :
    ∀ l : List Int, l.Pairwise (fun o1 o2 => ¬ scoreAt scores o2 > scoreAt scores o1) →
      (insertByScore scores o l).Pairwise (fun o1 o2 => ¬ scoreAt scores o2 > scoreAt scores o1)
  | [], _ => by simp [insertByScore]
  | p :: rest, h => by
    unfold insertByScore
    split
    · rename_i hgt
      refine List.Pairwise.cons ?_ h
      intro x hx
      rcases List.mem_cons.mp hx with hxp | hxr
      · rw [hxp]
        exact not_lt.mpr (le_of_lt hgt)
      · have := List.rel_of_pairwise_cons h hxr
        exact not_lt.mpr (le_trans (not_lt.mp this) (le_of_lt hgt))
    · rename_i hngt
      refine List.Pairwise.cons ?_ (pairwise_insertByScore scores o rest (List.Pairwise.of_cons h))
      intro x hx
      rcases (mem_insertByScore scores o x rest).mp hx with hxo | hxr
      · rw [hxo]
        exact hngt
      · exact List.rel_of_pairwise_cons h hxr

/-- The stable sort meets the contract of `std::sort`. -/
theorem stableSort_isSortedOrder (scores : List ℚ) : IsSortedOrder scores (stableSort scores) := by
  have hfold : ∀ (l acc : List Int),
      acc.Pairwise (fun o1 o2 => ¬ scoreAt scores o2 > scoreAt scores o1) →
      List.Perm (l.foldl (fun acc o => insertByScore scores o acc) acc) (acc ++ l) ∧
      (l.foldl (fun acc o => insertByScore scores o acc) acc).Pairwise
        (fun o1 o2 => ¬ scoreAt scores o2 > scoreAt scores o1) := by
    intro l
    induction l with
    | nil =>
      intro acc hacc
      exact ⟨by simp, hacc⟩
    | cons o rest ih =>
      intro acc hacc
      obtain ⟨hp, hs⟩ := ih (insertByScore scores o acc) (pairwise_insertByScore scores o acc hacc)
      rw [List.foldl_cons]
      refine ⟨hp.trans ?_, hs⟩
      have h1 : List.Perm (insertByScore scores o acc ++ rest) ((o :: acc) ++ rest) :=
        (perm_insertByScore scores o acc).append_right rest
      exact h1.trans (by simpa using (@List.perm_middle _ o acc rest).symm)
  obtain ⟨hp, hs⟩ := hfold (iota scores.length) [] List.Pairwise.nil
  exact ⟨by simpa [stableSort] using hp, hs⟩

/-- When every score is negative and the sort meets its contract, the scan stops at once and
`nms` returns the empty list. -/
theorem nms_all_negative (sort : List ℚ → List Int) (boxes : List Anchor) (scores : List ℚ)
    (thresh : ℚ) (hne : scores ≠ []) (hneg : ∀ s ∈ scores, s < 0)
    (hsort : IsSortedOrder scores (sort scores)) : nms sort boxes scores thresh = some [] := by
  have hlen : (sort scores).length = scores.length := by
    rw [hsort.1.length_eq]
    simp [iota]
  match hord : sort scores, hlen with
  | [], hlen =>
    exact absurd (List.length_eq_zero.mp hlen.symm) hne
  | o :: rest, _ =>
    have homem : o ∈ iota scores.length := hsort.1.subset (by rw [hord]; exact List.mem_cons_self _ _)
    have hlt := ((mem_iota _ _).mp homem).2
    have hcount : countActive scores (o :: rest) = some 0 := by
      rw [countActive, if_neg (not_lt.mpr ((mem_iota _ _).mp homem).1),
        List.getElem?_eq_getElem hlt]
      simp only []
      rw [if_neg (not_le.mpr (hneg _ (List.getElem_mem hlt)))]
    unfold nms
    simp only [hord, hcount, List.take_zero]
    rfl

theorem collectAll_map_some {α β : Type} (f : α → Option β) (g : α → β) :
    ∀ l : List α, (∀ x ∈ l, f x = some (g x)) → collectAll (l.map f) = some (l.map g)
  | [], _ => rfl
  | x :: rest, h => by
    rw [List.map_cons, h x (List.mem_cons_self _ _), collectAll,
      collectAll_map_some f g rest (fun y hy => h y (List.mem_cons_of_mem _ hy))]
    rfl

theorem mem_markBelowThreshold_of_all_below (thr : ℚ) (scores : List ℚ)
    (hbelow : ∀ s ∈ scores, s < thr) : ∀ s ∈ markBelowThreshold thr scores, s < 0 := by
  intro s hs
  unfold markBelowThreshold at hs
  obtain ⟨r, hr, hrs⟩ := List.mem_map.mp hs
  rw [if_pos (hbelow r hr)] at hrs
  rw [← hrs]
  norm_num

/-- A level on which every score is below the confidence threshold contributes no candidate. -/
theorem keepLevel_all_below (env : Env) (m : ModelRetinaFace) (d : LevelDecoded)
    (hsort : ∀ scores, IsSortedOrder scores (env.sort scores))
    (hbelow : ∀ s ∈ d.scores, s < m.confidenceThreshold) :
    keepLevel env m d = some ⟨[], [], [], []⟩ := by
  unfold keepLevel
  simp only []
  split
  · rfl
  · rename_i hlen
    have hne : markBelowThreshold m.confidenceThreshold d.scores ≠ [] :=
      fun h => hlen (by rw [h]; rfl)
    rw [nms_all_negative env.sort d.proposals _ (1 / 2) hne
      (mem_markBelowThreshold_of_all_below _ _ hbelow) (hsort _)]
    rfl

/-- Every emitted object has a confidence strictly above the threshold. -/
theorem emitObjects_confidence_gt (acc : AnchorAccessors) (thr scale_x scale_y : ℚ)
    (scores_list : List ℚ) (proposals_list : List Anchor) :
    ∀ obj ∈ emitObjects acc thr scale_x scale_y scores_list proposals_list,
      thr < obj.confidence := by
  intro obj hobj
  unfold emitObjects at hobj
  obtain ⟨sp, _, hsp⟩ := List.mem_filterMap.mp hobj
  simp only [] at hsp
  split at hsp
  · rename_i hgt
    simp only [Option.some.injEq] at hsp
    rw [← hsp]
    exact hgt
  · exact absurd hsp (by simp)

theorem postprocess_objects_confidence_gt (env : Env) (m : ModelRetinaFace)
    (infResult : InferenceResult) (result : DetectionResult)
    (h : postprocess env m infResult = some result) :
    ∀ obj ∈ result.objects, m.confidenceThreshold < obj.confidence := by
  unfold postprocess at h
  split at h
  · exact absurd h (by simp)
  · simp only [Option.some.injEq] at h
    rw [← h]
    exact emitObjects_confidence_gt _ _ _ _ _ _

/-- C6 (run of the code on the failing input): the default configuration, one cell with two
anchors per level, confidence threshold 1/2; on the level 2 (stride 8) the foreground scores
are 1/2 and 1/10, on the other levels all scores are 1/10. The first candidate of the level 2
has a score equal to the threshold: it is not marked, `nms` returns its index 0 and it is
collected with its score 1/2; yet `postprocess` emits no object, because the final check is
`desc.confidence > confidenceThreshold`. With the threshold 2/5 the same candidate is emitted
with confidence 1/2. This holds with either reading of the accessors of `Anchor`. -/
theorem postprocess_drops_score_equal_to_threshold :
    (decodeLevel (exampleEnv inclusiveAccessors) (exampleModel (1 / 2)) exampleResult 2
        ⟨8, [2, 1], 16, [1]⟩).map (fun d => d.scores) = some [1 / 2, 1 / 10] ∧
      markBelowThreshold (1 / 2) [1 / 2, 1 / 10] = [1 / 2, -1] ∧
      nms stableSort [⟨-8, -8, 23, 23⟩, ⟨0, 0, 15, 15⟩] [1 / 2, -1] (1 / 2) = some [0] ∧
      ((decodeLevel (exampleEnv inclusiveAccessors) (exampleModel (1 / 2)) exampleResult 2
        ⟨8, [2, 1], 16, [1]⟩).bind (keepLevel (exampleEnv inclusiveAccessors)
          (exampleModel (1 / 2)))).map (fun kept => kept.scores) = some [1 / 2] ∧
      (postprocess (exampleEnv inclusiveAccessors) (exampleModel (1 / 2)) exampleResult).map
        (fun r => r.objects) = some [] ∧
      (postprocess (exampleEnv specAccessors) (exampleModel (1 / 2)) exampleResult).map
        (fun r => r.objects) = some [] ∧
      (postprocess (exampleEnv inclusiveAccessors) (exampleModel (2 / 5)) exampleResult).map
        (fun r => r.objects.map (fun obj => obj.confidence)) = some [1 / 2] := by
  decide!

/-- C7: for a non-empty score list whose entries are all below the confidence threshold (so
that all are marked `-1`), `nms` returns the empty list; and when on every scale level the
decoders complete and every score is below the threshold, `postprocess` returns a result with
no object. The sort is assumed to meet the contract of `std::sort`. -/
theorem empty_results_are_valid (env : Env) (m : ModelRetinaFace) (infResult : InferenceResult)
    (hsort : ∀ scores, IsSortedOrder scores (env.sort scores)) :
    (∀ (boxes : List Anchor) (scores : List ℚ) (confidenceThreshold thresh : ℚ),
      scores ≠ [] → (∀ s ∈ scores, s < confidenceThreshold) →
      nms env.sort boxes (markBelowThreshold confidenceThreshold scores) thresh = some []) ∧
    ((∀ (idx : Nat) (cfgLine : AnchorCfgLine), m.anchorCfg[idx]? = some cfgLine →
        ∃ d, decodeLevel env m infResult idx cfgLine = some d ∧
          ∀ s ∈ d.scores, s < m.confidenceThreshold) →
      ∃ result, postprocess env m infResult = some result ∧ result.objects = []) := by
  constructor
  · intro boxes scores thr thresh hne hbelow
    have hne' : markBelowThreshold thr scores ≠ [] := by
      intro h
      unfold markBelowThreshold at h
      exact hne (List.map_eq_nil_iff.mp h)
    exact nms_all_negative env.sort boxes _ thresh hne'
      (mem_markBelowThreshold_of_all_below thr scores hbelow) (hsort _)
  · intro hlevels
    have hall : ∀ ic ∈ m.anchorCfg.enum,
        (match decodeLevel env m infResult ic.1 ic.2 with
          | none => none
          | some d => keepLevel env m d) = some ((fun _ => (⟨[], [], [], []⟩ : LevelKept)) ic) := by
      intro ic hic
      obtain ⟨d, hd, hbelow⟩ := hlevels ic.1 ic.2 (List.mem_enum_iff_getElem?.mp hic)
      rw [hd]
      exact keepLevel_all_below env m d hsort hbelow
    unfold postprocess
    rw [collectAll_map_some _ _ _ hall]
    refine ⟨_, rfl, ?_⟩
    simp [emitObjects]

/-- C7 (witness): the example with the confidence threshold 19/20, above all its scores. -/
theorem empty_results_are_valid_witness :
    (nms (exampleEnv inclusiveAccessors).sort [⟨-8, -8, 23, 23⟩, ⟨0, 0, 15, 15⟩]
        (markBelowThreshold (19 / 20) [1 / 2, 1 / 10]) (1 / 2) = some []) ∧
      ∃ result, postprocess (exampleEnv inclusiveAccessors) (exampleModel (19 / 20))
        exampleResult = some result ∧ result.objects = [] :=
  have h := empty_results_are_valid (exampleEnv inclusiveAccessors) (exampleModel (19 / 20))
    exampleResult (fun scores => stableSort_isSortedOrder scores)
  ⟨h.1 _ [1 / 2, 1 / 10] (19 / 20) (1 / 2) (by decide) (by decide!),
    h.2 (by
      intro idx cfgLine hcfg
      match idx, hcfg with
      | 0, hcfg =>
        have hline : cfgLine = ⟨32, [32, 16], 16, [1]⟩ := by
          simp only [exampleModel, defaultAnchorCfg, List.getElem?_cons_zero,
            Option.some.injEq] at hcfg
          exact hcfg.symm
        subst hline
        exact ⟨⟨[⟨-248, -248, 263, 263⟩, ⟨-120, -120, 135, 135⟩], [[], []],
          [1 / 10, 1 / 10], []⟩, by decide!, by decide!⟩
      | 1, hcfg =>
        have hline : cfgLine = ⟨16, [8, 4], 16, [1]⟩ := by
          simp only [exampleModel, defaultAnchorCfg, List.getElem?_cons_succ,
            List.getElem?_cons_zero, Option.some.injEq] at hcfg
          exact hcfg.symm
        subst hline
        exact ⟨⟨[⟨-56, -56, 71, 71⟩, ⟨-24, -24, 39, 39⟩], [[], []],
          [1 / 10, 1 / 10], []⟩, by decide!, by decide!⟩
      | 2, hcfg =>
        have hline : cfgLine = ⟨8, [2, 1], 16, [1]⟩ := by
          simp only [exampleModel, defaultAnchorCfg, List.getElem?_cons_succ,
            List.getElem?_cons_zero, Option.some.injEq] at hcfg
          exact hcfg.symm
        subst hline
        exact ⟨⟨[⟨-8, -8, 23, 23⟩, ⟨0, 0, 15, 15⟩], [[], []], [1 / 2, 1 / 10], []⟩,
          by decide!, by decide!⟩
      | n + 3, hcfg =>
        simp [exampleModel, defaultAnchorCfg] at hcfg)⟩

theorem gatherKept_lengths (b : Bool) (d : LevelDecoded) (scores : List ℚ) :
    ∀ (keep : List Int) (kept : LevelKept), gatherKept b d scores keep = some kept →
      kept.proposals.length = keep.length ∧ kept.landmarks.length = keep.length ∧
        kept.scores.length = keep.length
  | [], kept, h => by
    rw [gatherKept] at h
    simp only [Option.some.injEq] at h
    rw [← h]
    exact ⟨rfl, rfl, rfl⟩
  | kp :: keep, kept, h => by
    rw [gatherKept] at h
    split at h
    · split at h
      · rename_i rest hrest
        obtain ⟨h1, h2, h3⟩ := gatherKept_lengths b d scores keep rest hrest
        simp only [Option.some.injEq] at h
        rw [← h]
        simp [h1, h2, h3]
      · exact absurd h (by simp)
    · exact absurd h (by simp)

theorem keepLevel_lengths (env : Env) (m : ModelRetinaFace) (d : LevelDecoded)
    (kept : LevelKept) (h : keepLevel env m d = some kept) :
    kept.proposals.length = kept.scores.length ∧ kept.landmarks.length = kept.scores.length := by
  unfold keepLevel at h
  simp only at h
  split at h
  · simp only [Option.some.injEq] at h
    rw [← h]
    exact ⟨rfl, rfl⟩
  · split at h
    · exact absurd h (by simp)
    · rename_i keep _
      obtain ⟨h1, h2, h3⟩ := gatherKept_lengths _ d _ keep kept h
      exact ⟨by rw [h1, h3], by rw [h2, h3]⟩

theorem length_flatten_map_eq {α β γ : Type} (f : α → List β) (g : α → List γ) :
    ∀ l : List α, (∀ x ∈ l, (f x).length = (g x).length) →
      (l.map f).flatten.length = (l.map g).flatten.length
  | [], _ => rfl
  | x :: rest, h => by
    simp only [List.map_cons, List.flatten_cons, List.length_append]
    rw [h x (List.mem_cons_self _ _),
      length_flatten_map_eq f g rest (fun y hy => h y (List.mem_cons_of_mem _ hy))]

theorem collectAll_mem {α : Type} :
    ∀ (l : List (Option α)) (res : List α), collectAll l = some res →
      ∀ a ∈ res, some a ∈ l
  | [], res, h => by
    rw [collectAll] at h
    simp only [Option.some.injEq] at h
    rw [← h]
    intro a ha
    exact absurd ha (List.not_mem_nil a)
  | none :: rest, res, h => by
    rw [collectAll] at h
    exact absurd h (by simp)
  | some a :: rest, res, h => by
    rw [collectAll] at h
    split at h
    · rename_i as has
      simp only [Option.some.injEq] at h
      rw [← h]
      intro b hb
      rcases List.mem_cons.mp hb with hba | hbr
      · rw [hba]
        exact List.mem_cons_self _ _
      · exact List.mem_cons_of_mem _ (collectAll_mem rest as has b hbr)
    · exact absurd h (by simp)

/-- There is one landmark set per kept candidate, whether or not the candidate passes the
final check, so there are at least as many landmark sets as objects. -/
theorem postprocess_objects_le_landmarks (env : Env) (m : ModelRetinaFace)
    (infResult : InferenceResult) (result : DetectionResult)
    (h : postprocess env m infResult = some result) :
    result.objects.length ≤ result.landmarks_regression.length := by
  unfold postprocess at h
  split at h
  · exact absurd h (by simp)
  · rename_i levels hlevels
    simp only [Option.some.injEq] at h
    rw [← h]
    simp only [List.length_map]
    have hall : ∀ l ∈ levels, l.landmarks.length = l.scores.length := by
      intro l hl
      have hmem := collectAll_mem _ levels hlevels l hl
      obtain ⟨ic, _, hic⟩ := List.mem_map.mp hmem
      split at hic
      · exact absurd hic (by simp)
      · rename_i d _
        exact (keepLevel_lengths env m d l hic).2
    rw [length_flatten_map_eq (fun l => l.landmarks) (fun l => l.scores) levels hall]
    unfold emitObjects
    refine le_trans (List.length_filterMap_le _ _) ?_
    rw [List.length_zip]
    exact Nat.min_le_left _ _

/-- C13 (run of the code on the failing input): the input of C6. With the confidence
threshold 1/2 the candidate of score 1/2 is kept by `nms`, so its landmark set is stored, but
no object is emitted for it: `landmarks_regression` has one entry and `objects` has none. With
the threshold 2/5 the object is emitted, and the landmark set stored for it is empty (it has
none of the five points). -/
theorem postprocess_landmark_set_without_object :
    postprocess (exampleEnv inclusiveAccessors) (exampleModel (1 / 2)) exampleResult =
        some ⟨[], [[]]⟩ ∧
      (postprocess (exampleEnv inclusiveAccessors) (exampleModel (2 / 5)) exampleResult).map
        (fun r => (r.objects.length, r.landmarks_regression)) = some (1, [[]]) := by
  decide!

theorem emitObjects_single (acc : AnchorAccessors) (thr scale_x scale_y sc : ℚ) (p : Anchor)
    (hsc : thr < sc) :
    emitObjects acc thr scale_x scale_y [sc] [p] =
      [⟨p.left / scale_x, p.top / scale_y, acc.getWidth p / scale_x,
        acc.getHeight p / scale_y, sc, 1, "Face"⟩] := by
  unfold emitObjects
  simp only [List.zip_cons_cons, List.zip_nil_right, List.filterMap_cons, List.filterMap_nil]
  rw [if_pos hsc]

/-- With the inclusive convention for the width of an anchor, the box `(0, 0, 100, 100)` is
emitted with width and height 101/2 at the scale factor 2. -/
theorem emitObjects_inclusive_example (thr sc : ℚ) (hsc : thr < sc) :
    emitObjects inclusiveAccessors thr (((300 : Nat) : ℚ) / ((150 : Int) : ℚ))
        (((300 : Nat) : ℚ) / ((150 : Int) : ℚ)) [sc] [⟨0, 0, 100, 100⟩] =
      [⟨0, 0, 101 / 2, 101 / 2, sc, 1, "Face"⟩] := by
  rw [emitObjects_single _ _ _ _ _ _ hsc]
  simp only [inclusiveAccessors]
  norm_num

theorem mem_emitObjects (acc : AnchorAccessors) (thr scale_x scale_y : ℚ)
    (scores_list : List ℚ) (proposals_list : List Anchor) (obj : DetectedObject) :
    obj ∈ emitObjects acc thr scale_x scale_y scores_list proposals_list ↔
      ∃ sc p, (sc, p) ∈ scores_list.zip proposals_list ∧ thr < sc ∧
        obj = ⟨p.left / scale_x, p.top / scale_y, acc.getWidth p / scale_x,
          acc.getHeight p / scale_y, sc, 1, "Face"⟩ := by
  unfold emitObjects
  rw [List.mem_filterMap]
  constructor
  · rintro ⟨⟨sc, p⟩, hmem, h⟩
    simp only at h
    split at h
    · rename_i hlt
      exact ⟨sc, p, hmem, hlt, (Option.some.inj h).symm⟩
    · exact absurd h (by simp)
  · rintro ⟨sc, p, hmem, hlt, hobj⟩
    refine ⟨(sc, p), hmem, ?_⟩
    simp only
    rw [if_pos hlt, hobj]

theorem zip_flatten_levels :
    ∀ levels : List LevelKept, (∀ l ∈ levels, l.scores.length = l.proposals.length) →
      ((levels.map (fun l => l.scores)).flatten).zip
          ((levels.map (fun l => l.proposals)).flatten) =
        (levels.map (fun l => l.scores.zip l.proposals)).flatten
  | [], _ => rfl
  | l :: rest, h => by
    simp only [List.map_cons, List.flatten_cons]
    rw [List.zip_append (h l (List.mem_cons_self _ _)),
      zip_flatten_levels rest (fun x hx => h x (List.mem_cons_of_mem _ hx))]

theorem gatherKept_proposals_mem (b : Bool) (d : LevelDecoded) (scores : List ℚ) :
    ∀ (keep : List Int) (kept : LevelKept), gatherKept b d scores keep = some kept →
      ∀ p ∈ kept.proposals, p ∈ d.proposals
  | [], kept, h => by
    rw [gatherKept] at h
    simp only [Option.some.injEq] at h
    rw [← h]
    intro p hp
    exact absurd hp (List.not_mem_nil p)
  | kp :: keep, kept, h => by
    rw [gatherKept] at h
    split at h
    · rename_i p0 l0 sc0 ms0 hp0 _ _ _
      split at h
      · rename_i rest hrest
        simp only [Option.some.injEq] at h
        rw [← h]
        intro p hp
        rcases List.mem_cons.mp hp with heq | hmem
        · rw [heq]
          exact List.mem_iff_getElem?.mpr ⟨_, hp0⟩
        · exact gatherKept_proposals_mem b d scores keep rest hrest p hmem
      · exact absurd h (by simp)
    · exact absurd h (by simp)

theorem keepLevel_proposals_mem (env : Env) (m : ModelRetinaFace) (d : LevelDecoded)
    (kept : LevelKept) (h : keepLevel env m d = some kept) :
    ∀ p ∈ kept.proposals, p ∈ d.proposals := by
  unfold keepLevel at h
  simp only at h
  split at h
  · simp only [Option.some.injEq] at h
    rw [← h]
    intro p hp
    exact absurd hp (List.not_mem_nil p)
  · split at h
    · exact absurd h (by simp)
    · rename_i keep _
      exact gatherKept_proposals_mem _ d _ keep kept h

/-- The end of `postprocess`: the scale factors are computed from the size of the network
input and the size of the image, and the objects are emitted from the lists collected over
the levels. -/
theorem postprocess_objects_eq (env : Env) (m : ModelRetinaFace) (infResult : InferenceResult)
    (result : DetectionResult) (h : postprocess env m infResult = some result) :
    ∃ levels, collectAll (m.anchorCfg.enum.map (fun (ic : Nat × AnchorCfgLine) =>
        match decodeLevel env m infResult ic.1 ic.2 with
        | none => none
        | some d => keepLevel env m d)) = some levels ∧
      result.objects = emitObjects env.acc m.confidenceThreshold
        ((m.netInputWidth : ℚ) / (infResult.imgWidth : ℚ))
        ((m.netInputHeight : ℚ) / (infResult.imgHeight : ℚ))
        ((levels.map (fun l => l.scores)).flatten)
        ((levels.map (fun l => l.proposals)).flatten) := by
  unfold postprocess at h
  split at h
  · exact absurd h (by simp)
  · rename_i levels hlevels
    simp only [Option.some.injEq] at h
    exact ⟨levels, hlevels, by rw [← h]⟩

/-- C12: whenever `postprocess` returns, with the scale factors `netInputWidth / image width`
and `netInputHeight / image height` that it computes: every object of the result is a proposal
`p` decoded on one of the levels, with `x = p.left / scale_x`, `y = p.top / scale_y`,
`width = getWidth(p) / scale_x` and `height = getHeight(p) / scale_y`; every kept candidate
whose confidence passes the final check is emitted in this way; and with `width = right - left`
and `height = bottom - top`, a network input of 300 × 300 and an image of 150 × 150, the kept
proposal `(0, 0, 100, 100)` is emitted with `x = 0`, `y = 0`, `width = 50`, `height = 50`. -/
theorem rescale_divides_by_scale_factor (env : Env) (m : ModelRetinaFace)
    (infResult : InferenceResult) (result : DetectionResult)
    (h : postprocess env m infResult = some result) :
    (∀ obj ∈ result.objects, ∃ idx cfgLine d p, m.anchorCfg[idx]? = some cfgLine ∧
      decodeLevel env m infResult idx cfgLine = some d ∧ p ∈ d.proposals ∧
      obj.x = p.left / ((m.netInputWidth : ℚ) / (infResult.imgWidth : ℚ)) ∧
      obj.y = p.top / ((m.netInputHeight : ℚ) / (infResult.imgHeight : ℚ)) ∧
      obj.width = env.acc.getWidth p / ((m.netInputWidth : ℚ) / (infResult.imgWidth : ℚ)) ∧
      obj.height =
        env.acc.getHeight p / ((m.netInputHeight : ℚ) / (infResult.imgHeight : ℚ))) ∧
    (∀ (idx : Nat) (cfgLine : AnchorCfgLine) (d : LevelDecoded) (kept : LevelKept) (j : Nat)
        (sc : ℚ) (p : Anchor),
      m.anchorCfg[idx]? = some cfgLine → decodeLevel env m infResult idx cfgLine = some d →
      keepLevel env m d = some kept → kept.scores[j]? = some sc →
      kept.proposals[j]? = some p → m.confidenceThreshold < sc →
      (⟨p.left / ((m.netInputWidth : ℚ) / (infResult.imgWidth : ℚ)),
        p.top / ((m.netInputHeight : ℚ) / (infResult.imgHeight : ℚ)),
        env.acc.getWidth p / ((m.netInputWidth : ℚ) / (infResult.imgWidth : ℚ)),
        env.acc.getHeight p / ((m.netInputHeight : ℚ) / (infResult.imgHeight : ℚ)),
        sc, 1, "Face"⟩ : DetectedObject) ∈ result.objects ∧
      (env.acc = specAccessors → m.netInputWidth = 300 → m.netInputHeight = 300 →
        infResult.imgWidth = 150 → infResult.imgHeight = 150 → p = ⟨0, 0, 100, 100⟩ →
        (⟨0, 0, 50, 50, sc, 1, "Face"⟩ : DetectedObject) ∈ result.objects)) := by
  obtain ⟨levels, hlevels, hobjs⟩ := postprocess_objects_eq env m infResult result h
  have hall : ∀ l ∈ levels, l.scores.length = l.proposals.length := by
    intro l hl
    have hmem := collectAll_mem _ levels hlevels l hl
    obtain ⟨ic, _, hic⟩ := List.mem_map.mp hmem
    split at hic
    · exact absurd hic (by simp)
    · rename_i d _
      exact (keepLevel_lengths env m d l hic).1.symm
  have hmemobj : ∀ (idx : Nat) (cfgLine : AnchorCfgLine) (d : LevelDecoded) (kept : LevelKept)
      (j : Nat) (sc : ℚ) (p : Anchor),
      m.anchorCfg[idx]? = some cfgLine → decodeLevel env m infResult idx cfgLine = some d →
      keepLevel env m d = some kept → kept.scores[j]? = some sc →
      kept.proposals[j]? = some p → m.confidenceThreshold < sc →
      (⟨p.left / ((m.netInputWidth : ℚ) / (infResult.imgWidth : ℚ)),
        p.top / ((m.netInputHeight : ℚ) / (infResult.imgHeight : ℚ)),
        env.acc.getWidth p / ((m.netInputWidth : ℚ) / (infResult.imgWidth : ℚ)),
        env.acc.getHeight p / ((m.netInputHeight : ℚ) / (infResult.imgHeight : ℚ)),
        sc, 1, "Face"⟩ : DetectedObject) ∈ result.objects := by
    intro idx cfgLine d kept j sc p hcfg hdec hkeep hsc hp hthr
    obtain ⟨_, hget⟩ := collectAll_eq_some _ levels hlevels
    have hidx : idx < m.anchorCfg.length := (List.getElem?_eq_some_iff.mp hcfg).1
    have h1 := hget idx (by rw [List.length_map, List.enum_length]; exact hidx)
    have he : m.anchorCfg.enum[idx]? = some (idx, cfgLine) := by
      rw [List.enum_eq_zip_range, List.getElem?_zip_eq_some]
      exact ⟨by rw [List.getElem?_range hidx], hcfg⟩
    rw [List.getElem?_map, he, Option.map_some'] at h1
    simp only [hdec, hkeep] at h1
    have hlev : levels[idx]? = some kept := by
      cases hl : levels[idx]? with
      | none =>
        rw [hl] at h1
        exact absurd h1 (by simp)
      | some l =>
        rw [hl, Option.map_some'] at h1
        rw [Option.some.inj (Option.some.inj h1)]
    rw [hobjs, mem_emitObjects, zip_flatten_levels levels hall]
    refine ⟨sc, p, ?_, hthr, rfl⟩
    rw [List.mem_flatten]
    refine ⟨kept.scores.zip kept.proposals, ?_, ?_⟩
    · exact List.mem_map.mpr ⟨kept, List.mem_iff_getElem?.mpr ⟨idx, hlev⟩, rfl⟩
    · exact List.mem_iff_getElem?.mpr ⟨j, List.getElem?_zip_eq_some.mpr ⟨hsc, hp⟩⟩
  constructor
  · intro obj hobj
    rw [hobjs, mem_emitObjects, zip_flatten_levels levels hall] at hobj
    obtain ⟨sc, p, hmem, _, hobjeq⟩ := hobj
    obtain ⟨z, hz, hpz⟩ := List.mem_flatten.mp hmem
    obtain ⟨level, hlevel, hzeq⟩ := List.mem_map.mp hz
    rw [← hzeq] at hpz
    have hp : p ∈ level.proposals := (List.of_mem_zip hpz).2
    have hsome := collectAll_mem _ levels hlevels level hlevel
    obtain ⟨ic, hic, hfic⟩ := List.mem_map.mp hsome
    obtain ⟨idx, cfgLine⟩ := ic
    simp only at hfic
    split at hfic
    · exact absurd hfic (by simp)
    · rename_i d hd
      refine ⟨idx, cfgLine, d, p, List.mk_mem_enum_iff_getElem?.mp hic, hd,
        keepLevel_proposals_mem env m d level hfic p hp, ?_⟩
      rw [hobjeq]
      exact ⟨rfl, rfl, rfl, rfl⟩
  · intro idx cfgLine d kept j sc p hcfg hdec hkeep hsc hp hthr
    have hm := hmemobj idx cfgLine d kept j sc p hcfg hdec hkeep hsc hp hthr
    refine ⟨hm, ?_⟩
    intro hacc hw hh hiw hih hpeq
    rw [hacc, hw, hh, hiw, hih, hpeq] at hm
    have heq : (⟨(⟨0, 0, 100, 100⟩ : Anchor).left / (((300 : Nat) : ℚ) / ((150 : Int) : ℚ)),
        (⟨0, 0, 100, 100⟩ : Anchor).top / (((300 : Nat) : ℚ) / ((150 : Int) : ℚ)),
        specAccessors.getWidth ⟨0, 0, 100, 100⟩ / (((300 : Nat) : ℚ) / ((150 : Int) : ℚ)),
        specAccessors.getHeight ⟨0, 0, 100, 100⟩ / (((300 : Nat) : ℚ) / ((150 : Int) : ℚ)),
        sc, 1, "Face"⟩ : DetectedObject) = ⟨0, 0, 50, 50, sc, 1, "Face"⟩ := by
      simp only [specAccessors]
      norm_num
    rw [heq] at hm
    exact hm

/-- C12 (witness): a run of `postprocess` with a network input of 300 × 300 and an image of
150 × 150, `width = right - left`, one level with one cell and two anchors. The first
candidate, of score 9/10, is decoded to the proposal (0, 0, 100, 100) and kept; the object
emitted for it has `x = 0`, `y = 0`, `width = 50` and `height = 50`. -/
theorem rescale_divides_by_scale_factor_witness :
    (decodeLevel (exampleEnv specAccessors)
        (singleLevelModel ⟨32, [32, 16], 16, [1]⟩
          [⟨-1 / 2, -1 / 2, 201 / 2, 201 / 2⟩, ⟨0, 0, 15, 15⟩] (1 / 2) 300 300)
        (singleLevelResult ⟨8, 1, 1, List.replicate 8 0⟩
          ⟨4, 1, 1, [1 / 10, 9 / 10, 9 / 10, 1 / 10]⟩ ⟨20, 1, 1, List.replicate 20 0⟩ 150 150)
        0 ⟨32, [32, 16], 16, [1]⟩).map (fun d => d.proposals) =
      some [⟨0, 0, 100, 100⟩, ⟨1 / 2, 1 / 2, 29 / 2, 29 / 2⟩] ∧
    postprocess (exampleEnv specAccessors)
        (singleLevelModel ⟨32, [32, 16], 16, [1]⟩
          [⟨-1 / 2, -1 / 2, 201 / 2, 201 / 2⟩, ⟨0, 0, 15, 15⟩] (1 / 2) 300 300)
        (singleLevelResult ⟨8, 1, 1, List.replicate 8 0⟩
          ⟨4, 1, 1, [1 / 10, 9 / 10, 9 / 10, 1 / 10]⟩ ⟨20, 1, 1, List.replicate 20 0⟩ 150 150) =
      some ⟨[⟨0, 0, 50, 50, 9 / 10, 1, "Face"⟩], [[]]⟩ ∧
    (⟨0, 0, 50, 50, 9 / 10, 1, "Face"⟩ : DetectedObject) ∈
      ([⟨0, 0, 50, 50, 9 / 10, 1, "Face"⟩] : List DetectedObject) :=
  ⟨by decide!, by decide!,
    ((rescale_divides_by_scale_factor (exampleEnv specAccessors)
      (singleLevelModel ⟨32, [32, 16], 16, [1]⟩
        [⟨-1 / 2, -1 / 2, 201 / 2, 201 / 2⟩, ⟨0, 0, 15, 15⟩] (1 / 2) 300 300)
      (singleLevelResult ⟨8, 1, 1, List.replicate 8 0⟩
        ⟨4, 1, 1, [1 / 10, 9 / 10, 9 / 10, 1 / 10]⟩ ⟨20, 1, 1, List.replicate 20 0⟩ 150 150)
      ⟨[⟨0, 0, 50, 50, 9 / 10, 1, "Face"⟩], [[]]⟩ (by decide!)).2 0 ⟨32, [32, 16], 16, [1]⟩
      ⟨[⟨0, 0, 100, 100⟩, ⟨1 / 2, 1 / 2, 29 / 2, 29 / 2⟩], [[], []], [9 / 10, 1 / 10], []⟩
      ⟨[⟨0, 0, 100, 100⟩], [[]], [9 / 10], []⟩ 0 (9 / 10) ⟨0, 0, 100, 100⟩ rfl (by decide!)
      (by decide!) rfl rfl (by decide!)).2 rfl rfl rfl rfl rfl rfl⟩

theorem collectAll_map_exists {α β : Type} (f : α → Option β) :
    ∀ l : List α, (∀ x ∈ l, ∃ y, f x = some y) → ∃ res, collectAll (l.map f) = some res
  | [], _ => ⟨[], rfl⟩
  | x :: rest, h => by
    obtain ⟨y, hy⟩ := h x (List.mem_cons_self _ _)
    obtain ⟨res, hres⟩ :=
      collectAll_map_exists f rest (fun z hz => h z (List.mem_cons_of_mem _ hz))
    refine ⟨y :: res, ?_⟩
    rw [List.map_cons, hy, collectAll, hres]

theorem mem_enum_lt {α : Type} (l : List α) (ia : Nat × α) (h : ia ∈ l.enum) :
    ia.1 < l.length := by
  obtain ⟨i, a⟩ := ia
  have h1 := List.mk_mem_enum_iff_getElem?.mp h
  exact (List.getElem?_eq_some_iff.mp h1).1

/-- The last of the four reads of `_get_proposals` for an anchor of a full plane with two
anchors per cell lies inside a buffer of at least eight channels. -/
theorem proposal_reads_lt (B C i : Nat) (hC : 8 ≤ C) (hi : i < B * 2) :
    B * (C / 2) * (i % 2) + i / 2 + B * 3 < C * B := by
  have h1 : B * 4 ≤ B * (C / 2) := Nat.mul_le_mul_left _ (by omega)
  have h2 : B * (C / 2 * 2) ≤ B * C := Nat.mul_le_mul_left _ (by omega)
  have h3 : B * (C / 2 * 2) = B * (C / 2) * 2 := by ring
  have h4 : B * C = C * B := Nat.mul_comm _ _
  rcases Nat.mod_two_eq_zero_or_one i with h | h
  · rw [h]
    omega
  · rw [h]
    omega

/-- The reads of `_get_landmarks` for an anchor of a full plane with two anchors per cell lie
inside a buffer of at least twenty channels. -/
theorem landmark_reads_lt (B C i j : Nat) (hC : 20 ≤ C) (hi : i < B * 2) (hj : j < 5) :
    C / 2 * B + i / 2 + (j * 2 + 1) * B < C * B := by
  have h1 : (C / 2 + 10) * B ≤ C * B := Nat.mul_le_mul_right _ (by omega)
  have h2 : (j * 2 + 1) * B ≤ 9 * B := Nat.mul_le_mul_right _ (by omega)
  have h3 : (C / 2 + 10) * B = C / 2 * B + 10 * B := by ring
  omega

theorem proposalAt_some (acc : AnchorAccessors) (exp : ℚ → ℚ) (t : Tensor) (i : Nat)
    (anchor : Anchor) (hC : 8 ≤ t.channels)
    (hdata : t.data.length = t.channels * t.height * t.width)
    (hi : i < t.height * t.width * 2) :
    ∃ p, proposalAt acc exp t 2 i anchor = some p := by
  have hlt : t.height * t.width * (t.channels / 2) * (i % 2) + i / 2 +
      t.height * t.width * 3 < t.data.length := by
    rw [hdata, Nat.mul_assoc t.channels t.height t.width]
    exact proposal_reads_lt (t.height * t.width) t.channels i hC hi
  unfold proposalAt
  simp only
  rw [List.getElem?_eq_getElem (by omega : _ < t.data.length),
    List.getElem?_eq_getElem (by omega : _ < t.data.length),
    List.getElem?_eq_getElem (by omega : _ < t.data.length),
    List.getElem?_eq_getElem (by omega : _ < t.data.length)]
  exact ⟨_, rfl⟩

theorem landmarkPoint_some (acc : AnchorAccessors) (t : Tensor) (landmark_std : ℚ) (i : Nat)
    (anchor : Anchor) (j : Nat) (hC : 20 ≤ t.channels)
    (hdata : t.data.length = t.channels * t.height * t.width)
    (hi : i < t.height * t.width * 2) (hj : j < 5) :
    ∃ p, landmarkPoint acc t 2 landmark_std i anchor j = some p := by
  have hlt : t.channels / 2 * t.height * t.width + i / 2 +
      (j * 2 + 1) * (t.height * t.width) < t.data.length := by
    rw [hdata, Nat.mul_assoc (t.channels / 2) t.height t.width,
      Nat.mul_assoc t.channels t.height t.width]
    exact landmark_reads_lt (t.height * t.width) t.channels i j hC hi hj
  have e1 : (j * 2 + 1) * (t.height * t.width) =
      j * 2 * (t.height * t.width) + t.height * t.width := by ring
  unfold landmarkPoint
  simp only
  by_cases hodd : i % 2 ≠ 0
  · rw [if_pos hodd, if_pos hodd,
      List.getElem?_eq_getElem (by omega : _ < t.data.length),
      List.getElem?_eq_getElem (by omega : _ < t.data.length)]
    exact ⟨_, rfl⟩
  · rw [if_neg hodd, if_neg hodd,
      List.getElem?_eq_getElem (by omega : _ < t.data.length),
      List.getElem?_eq_getElem (by omega : _ < t.data.length)]
    exact ⟨_, rfl⟩

/-- With two anchors per cell, at least eight channels and a full buffer, `_get_proposals`
reads within the buffer and returns one box per anchor. -/
theorem get_proposals_some (acc : AnchorAccessors) (exp : ℚ → ℚ) (t : Tensor)
    (anchors : List Anchor) (hC : 8 ≤ t.channels)
    (hdata : t.data.length = t.channels * t.height * t.width)
    (hlen : anchors.length ≤ t.height * t.width * 2) :
    ∃ ps, _get_proposals acc exp t 2 anchors = some ps ∧ ps.length = anchors.length := by
  unfold _get_proposals
  rw [if_neg (by decide)]
  obtain ⟨ps, hps⟩ := collectAll_map_exists
    (fun (ia : Nat × Anchor) => proposalAt acc exp t 2 ia.1 ia.2) anchors.enum
    (fun ia hia => proposalAt_some acc exp t ia.1 ia.2 hC hdata
      (lt_of_lt_of_le (mem_enum_lt anchors ia hia) hlen))
  refine ⟨ps, hps, ?_⟩
  rw [(collectAll_eq_some _ ps hps).1, List.length_map, List.enum_length]

/-- With two anchors per cell, at least twenty channels and a full buffer, `_get_landmarks`
reads within the buffer and returns one (empty) sequence per anchor. -/
theorem get_landmarks_some (acc : AnchorAccessors) (t : Tensor) (anchors : List Anchor)
    (landmark_std : ℚ) (hC : 20 ≤ t.channels)
    (hdata : t.data.length = t.channels * t.height * t.width)
    (hlen : anchors.length ≤ t.height * t.width * 2) :
    _get_landmarks acc t 2 anchors landmark_std = some (List.replicate anchors.length []) := by
  unfold _get_landmarks
  rw [if_neg (by decide)]
  rw [collectAll_map_some _ (fun _ => ([] : List Point2f))]
  · rw [List.map_const', List.enum_length]
  · intro ia hia
    obtain ⟨pts, hpts⟩ := collectAll_map_exists
      (fun j => landmarkPoint acc t 2 landmark_std ia.1 ia.2 j) (List.range LANDMARKS_NUM)
      (fun j hj => landmarkPoint_some acc t landmark_std ia.1 ia.2 j hC hdata
        (lt_of_lt_of_le (mem_enum_lt anchors ia hia) hlen) (List.mem_range.mp hj))
    simp only [hpts]

theorem get_mask_scores_two (t : Tensor) : _get_mask_scores t 2 = _get_scores t 4 := rfl

theorem gatherKept_some (b : Bool) (d : LevelDecoded) (scores : List ℚ) :
    ∀ keep : List Int,
      (∀ k ∈ keep, k.toNat < d.proposals.length ∧ k.toNat < d.landmarks.length ∧
        k.toNat < scores.length ∧ (b = true → k.toNat < d.maskScores.length)) →
      ∃ kept, gatherKept b d scores keep = some kept
  | [], _ => ⟨_, rfl⟩
  | kp :: keep, h => by
    obtain ⟨h1, h2, h3, h4⟩ := h kp (List.mem_cons_self _ _)
    obtain ⟨rest, hrest⟩ :=
      gatherKept_some b d scores keep (fun k hk => h k (List.mem_cons_of_mem _ hk))
    rw [gatherKept, List.getElem?_eq_getElem h1, List.getElem?_eq_getElem h2,
      List.getElem?_eq_getElem h3]
    cases b with
    | false =>
      simp only [Bool.false_eq_true, if_false, hrest]
      exact ⟨_, rfl⟩
    | true =>
      simp only [if_true, List.getElem?_eq_getElem (h4 rfl), hrest]
      exact ⟨_, rfl⟩

theorem levelBlob_eq_some (m : ModelRetinaFace) (infResult : InferenceResult)
    (type : EOutputType) (idx : Nat) (t : Tensor) (h : levelBlob m infResult type idx = some t) :
    ∃ name, (m.separateOutputsNames type)[idx]? = some name ∧
      infResult.outputsData.lookup name = some t := by
  unfold levelBlob at h
  split at h
  · exact absurd h (by simp)
  · rename_i name hname
    exact ⟨name, hname, h⟩

theorem length_markBelowThreshold (thr : ℚ) (scores : List ℚ) :
    (markBelowThreshold thr scores).length = scores.length := by
  unfold markBelowThreshold
  rw [List.length_map]

/-- Once `nms` has returned, the loop over the kept indices reads the decoded sequences within
their bounds, provided these have the length of the scores. -/
theorem keepLevel_some_of_nms (env : Env) (m : ModelRetinaFace) (d : LevelDecoded)
    (keep : List Int) (hp : d.proposals.length = d.scores.length)
    (hl : d.landmarks.length = d.scores.length)
    (hm : m.shouldDetectMasks = true → d.maskScores.length = d.scores.length)
    (h : nms env.sort d.proposals (markBelowThreshold m.confidenceThreshold d.scores) (1 / 2) =
      some keep) :
    ∃ kept, keepLevel env m d = some kept := by
  unfold keepLevel
  simp only
  split
  · exact ⟨_, rfl⟩
  · rw [h]
    refine gatherKept_some _ d _ keep ?_
    intro k hk
    have hlt := (nms_kept_score_nonneg _ _ _ _ keep h k hk).2.1
    rw [length_markBelowThreshold] at hlt
    refine ⟨by rw [hp]; exact hlt, by rw [hl]; exact hlt,
      by rw [length_markBelowThreshold]; exact hlt, fun hb => by rw [hm hb]; exact hlt⟩

/-- C15 (amended): `postprocess` makes no check of the dimensions. When, on a level with two
anchors per cell, the score, landmark and (if requested) mask-score blobs have the spatial
dimensions of the bounding-box blob, full buffers and 4, at least 20 and 6 channels, and the
bounding-box blob has a full buffer of at least 8 channels, then the level is decoded with every
blob read within its bounds, into `2 * height * width` proposals, landmark sequences and
scores; and whenever `nms` returns, the kept entries are read within these sequences. -/
theorem decodeLevel_reads_in_bounds (env : Env) (m : ModelRetinaFace)
    (infResult : InferenceResult) (idx : Nat) (cfgLine : AnchorCfgLine)
    (bbox cls landmark : Tensor)
    (hA : (mapGet m._anchors_fpn cfgLine.stride).length = 2)
    (hbbox : levelBlob m infResult EOutputType.OT_BBOX idx = some bbox)
    (hcls : levelBlob m infResult EOutputType.OT_SCORES idx = some cls)
    (hlandmark : levelBlob m infResult EOutputType.OT_LANDMARK idx = some landmark)
    (hmask : m.shouldDetectMasks = true →
      ∃ mask, levelBlob m infResult EOutputType.OT_MASKSCORES idx = some mask ∧
        fitsGrid mask bbox ∧ mask.channels = 6)
    (hbboxC : 8 ≤ bbox.channels) (hbboxG : fitsGrid bbox bbox)
    (hclsC : cls.channels = 4) (hclsG : fitsGrid cls bbox)
    (hlandmarkC : 20 ≤ landmark.channels) (hlandmarkG : fitsGrid landmark bbox) :
    ∃ d, decodeLevel env m infResult idx cfgLine = some d ∧
      d.proposals.length = 2 * bbox.height * bbox.width ∧
      d.landmarks.length = 2 * bbox.height * bbox.width ∧
      d.scores.length = 2 * bbox.height * bbox.width ∧
      (m.shouldDetectMasks = true → d.maskScores.length = 2 * bbox.height * bbox.width) ∧
      ∀ keep, nms env.sort d.proposals (markBelowThreshold m.confidenceThreshold d.scores)
          (1 / 2) = some keep → ∃ kept, keepLevel env m d = some kept := by
  obtain ⟨bn, hbn, hbl⟩ := levelBlob_eq_some _ _ _ _ _ hbbox
  obtain ⟨cn, hcn, hcl⟩ := levelBlob_eq_some _ _ _ _ _ hcls
  obtain ⟨ln, hln, hll⟩ := levelBlob_eq_some _ _ _ _ _ hlandmark
  obtain ⟨hch, hcw, hcd⟩ := hclsG
  obtain ⟨hlh, hlw, hld⟩ := hlandmarkG
  obtain ⟨scores, hscores, hslen, _⟩ := get_scores_spec cls 2 (by omega) hcd
  have hplane := (anchorsPlane_spec cfgLine.stride bbox.height bbox.width
    (mapGet m._anchors_fpn cfgLine.stride)).1
  rw [hA] at hplane
  obtain ⟨ps, hps, hpslen⟩ := get_proposals_some env.acc env.exp bbox
    (anchorsPlane cfgLine.stride bbox.height bbox.width (mapGet m._anchors_fpn cfgLine.stride))
    hbboxC hbboxG.2.2 (le_of_eq hplane)
  have hls := get_landmarks_some env.acc landmark
    (anchorsPlane cfgLine.stride bbox.height bbox.width (mapGet m._anchors_fpn cfgLine.stride))
    m.landmark_std hlandmarkC hld (by rw [hlh, hlw]; exact le_of_eq hplane)
  have e1 : ps.length = 2 * bbox.height * bbox.width := by
    rw [hpslen, hplane]
    ring
  have e2 : (List.replicate (anchorsPlane cfgLine.stride bbox.height bbox.width
      (mapGet m._anchors_fpn cfgLine.stride)).length ([] : List Point2f)).length =
      2 * bbox.height * bbox.width := by
    rw [List.length_replicate, hplane]
    ring
  have e3 : scores.length = 2 * bbox.height * bbox.width := by
    rw [hslen, hclsC, hch, hcw]
  by_cases hb : m.shouldDetectMasks = true
  · obtain ⟨mask, hmk, ⟨hmh, hmw, hmd⟩, hmc⟩ := hmask hb
    obtain ⟨mn, hmn, hml⟩ := levelBlob_eq_some _ _ _ _ _ hmk
    obtain ⟨ms, hms, hmslen, _⟩ := get_scores_spec mask 4 (by omega) hmd
    have e4 : ms.length = 2 * bbox.height * bbox.width := by
      rw [hmslen, hmc, hmh, hmw]
    refine ⟨⟨ps, _, scores, ms⟩, ?_, e1, e2, e3, fun _ => e4, ?_⟩
    · unfold decodeLevel
      simp only [hA, hbn, hbl, hcn, hcl, hln, hll, Option.bind_eq_bind, Option.some_bind,
        hscores, hps, hls, hb, if_true, hmn, hml, get_mask_scores_two, hms]
    · intro keep hkeep
      exact keepLevel_some_of_nms env m _ keep (by rw [e1, e3]) (by rw [e2, e3])
        (fun _ => by rw [e4, e3]) hkeep
  · have hbf : m.shouldDetectMasks = false := by simpa using hb
    refine ⟨⟨ps, _, scores, []⟩, ?_, e1, e2, e3, fun h => absurd h hb, ?_⟩
    · unfold decodeLevel
      simp only [hA, hbn, hbl, hcn, hcl, hln, hll, Option.bind_eq_bind, Option.some_bind,
        hscores, hps, hls, hbf, Bool.false_eq_true, if_false]
    · intro keep hkeep
      exact keepLevel_some_of_nms env m _ keep (by rw [e1, e3]) (by rw [e2, e3])
        (fun h => absurd h hb) hkeep

/-- C15 (witness): the level of stride 8 of `exampleModel` on `exampleResult`. -/
theorem decodeLevel_reads_in_bounds_witness :
    ∃ d, decodeLevel (exampleEnv inclusiveAccessors) (exampleModel (1 / 2)) exampleResult 2
        ⟨8, [2, 1], 16, [1]⟩ = some d ∧
      d.proposals.length = 2 * 1 * 1 ∧ d.landmarks.length = 2 * 1 * 1 ∧
      d.scores.length = 2 * 1 * 1 ∧
      ((exampleModel (1 / 2)).shouldDetectMasks = true → d.maskScores.length = 2 * 1 * 1) ∧
      ∀ keep, nms (exampleEnv inclusiveAccessors).sort d.proposals
          (markBelowThreshold (exampleModel (1 / 2)).confidenceThreshold d.scores) (1 / 2) =
            some keep →
        ∃ kept, keepLevel (exampleEnv inclusiveAccessors) (exampleModel (1 / 2)) d = some kept :=
  decodeLevel_reads_in_bounds (exampleEnv inclusiveAccessors) (exampleModel (1 / 2))
    exampleResult 2 ⟨8, [2, 1], 16, [1]⟩ ⟨8, 1, 1, List.replicate 8 0⟩
    ⟨4, 1, 1, [1 / 2, 9 / 10, 1 / 2, 1 / 10]⟩ ⟨20, 1, 1, List.replicate 20 0⟩
    (by decide) (by decide!) (by decide!) (by decide!) (fun h => absurd h (by decide))
    (by decide) (by decide) rfl (by decide) (by decide) (by decide)

/-- C15 (counterexample): on the level of stride 8 the bounding-box blob has a grid of 1 × 1.
With a landmark blob on a grid of 2 × 2, `postprocess` still returns a result, with one
object. With a score blob on a grid of 1 × 2 the level is decoded into two proposals and four
scores; the two highest scores have the indices 2 and 3, which come first in the order, and
`nms` reads `boxes[2]`, outside the two boxes: `postprocess` has no defined result. -/
theorem postprocess_does_not_check_grid :
    (postprocess (exampleEnv inclusiveAccessors) (exampleModel (2 / 5))
        (replaceBlob exampleResult "landmark_2" ⟨20, 2, 2, List.replicate 80 0⟩)).map
      (fun r => r.objects.length) = some 1 ∧
    (decodeLevel (exampleEnv inclusiveAccessors) (exampleModel (2 / 5))
        (replaceBlob exampleResult "cls_2"
          ⟨4, 1, 2, [1 / 2, 1 / 2, 1 / 2, 1 / 2, 1 / 10, 9 / 10, 1 / 10, 9 / 10]⟩)
        2 ⟨8, [2, 1], 16, [1]⟩).map (fun d => (d.proposals, d.scores)) =
      some ([⟨-8, -8, 23, 23⟩, ⟨0, 0, 15, 15⟩], [1 / 10, 1 / 10, 9 / 10, 9 / 10]) ∧
    stableSort (markBelowThreshold (2 / 5) [1 / 10, 1 / 10, 9 / 10, 9 / 10]) = [2, 3, 0, 1] ∧
    ([⟨-8, -8, 23, 23⟩, ⟨0, 0, 15, 15⟩] : List Anchor)[2]? = none ∧
    nms stableSort [⟨-8, -8, 23, 23⟩, ⟨0, 0, 15, 15⟩]
      (markBelowThreshold (2 / 5) [1 / 10, 1 / 10, 9 / 10, 9 / 10]) (1 / 2) = none ∧
    postprocess (exampleEnv inclusiveAccessors) (exampleModel (2 / 5))
        (replaceBlob exampleResult "cls_2"
          ⟨4, 1, 2, [1 / 2, 1 / 2, 1 / 2, 1 / 2, 1 / 10, 9 / 10, 1 / 10, 9 / 10]⟩) = none := by
  decide!

theorem scoreAt_natCast (scores : List ℚ) (i : Nat) (hi : i < scores.length) :
    scoreAt scores (i : Int) = scores[i] := by
  unfold scoreAt
  rw [Int.toNat_natCast, List.getElem?_eq_getElem hi]
  rfl

/-- When exactly one score is non-negative, and the sort meets its contract, `nms` returns the
index of that score and nothing else. -/
theorem nms_single_active (sort : List ℚ → List Int) (boxes : List Anchor) (scores : List ℚ)
    (thresh : ℚ) (hsort : IsSortedOrder scores (sort scores))
    (hlen : boxes.length = scores.length) (k : Nat) (hk : k < scores.length)
    (hk0 : 0 ≤ scoreAt scores (k : Int))
    (hothers : ∀ i : Nat, i < scores.length → i ≠ k → scoreAt scores (i : Int) < 0)
    (hex : ∃ i : Nat, i < scores.length ∧ i ≠ k) :
    nms sort boxes scores thresh = some [(k : Int)] := by
  obtain ⟨i, hi, hik⟩ := hex
  have hneg : ∃ s ∈ scores, s < 0 := by
    refine ⟨scores[i], List.getElem_mem hi, ?_⟩
    rw [← scoreAt_natCast scores i hi]
    exact hothers i hi hik
  obtain ⟨keep, hkeep⟩ := (nms_returns_iff sort boxes scores thresh hsort hlen).mpr hneg
  have hall : ∀ j ∈ keep, j = (k : Int) := by
    intro j hj
    obtain ⟨hj0, hjlt, hjs⟩ := nms_kept_score_nonneg sort boxes scores thresh keep hkeep j hj
    by_contra hne
    have hne2 : j.toNat ≠ k := by
      intro h
      apply hne
      rw [← h, Int.toNat_of_nonneg hj0]
    have := hothers j.toNat hjlt hne2
    rw [Int.toNat_of_nonneg hj0] at this
    exact absurd hjs (not_le.mpr this)
  have hnodup : keep.Nodup :=
    List.Nodup.sublist (nms_keep_sublist sort boxes scores thresh keep hkeep)
      ((List.Perm.nodup_iff hsort.1).mpr (iota_nodup scores.length))
  obtain ⟨k1, hk1, _⟩ :=
    (nms_complete_of_returned sort boxes scores thresh keep hsort hkeep).2 ⟨k, hk, hk0⟩
  rw [hkeep]
  cases keep with
  | nil => exact absurd hk1 (List.not_mem_nil _)
  | cons a rest =>
    cases rest with
    | nil => rw [hall a (List.mem_cons_self _ _)]
    | cons b rest2 =>
      have ha := hall a (List.mem_cons_self _ _)
      have hb := hall b (List.mem_cons_of_mem _ (List.mem_cons_self _ _))
      rw [ha, hb] at hnodup
      exact absurd (List.mem_cons_self _ _) (List.nodup_cons.mp hnodup).1

/-- With all the deltas zero, `exp 0 = 1` and the inclusive convention for the width, the box
decoded for an anchor is the anchor itself. -/
theorem proposalAt_zero_deltas (exp : ℚ → ℚ) (hexp : exp 0 = 1) (t : Tensor) (i : Nat)
    (anchor : Anchor) (hC : 8 ≤ t.channels)
    (hdata : t.data = List.replicate (t.channels * t.height * t.width) 0)
    (hi : i < t.height * t.width * 2) :
    proposalAt inclusiveAccessors exp t 2 i anchor = some anchor := by
  have hlt : t.height * t.width * (t.channels / 2) * (i % 2) + i / 2 +
      t.height * t.width * 3 < t.channels * t.height * t.width := by
    rw [Nat.mul_assoc t.channels t.height t.width]
    exact proposal_reads_lt (t.height * t.width) t.channels i hC hi
  have hread : ∀ q : Nat, q < t.channels * t.height * t.width → t.data[q]? = some 0 := by
    intro q hq
    rw [hdata, List.getElem?_replicate, if_pos hq]
  unfold proposalAt
  simp only
  rw [hread _ (by omega), hread _ (by omega), hread _ (by omega), hread _ (by omega)]
  simp only [hexp, inclusiveAccessors]
  obtain ⟨l, tp, r, b⟩ := anchor
  simp only [Option.some.injEq, Anchor.mk.injEq]
  refine ⟨?_, ?_, ?_, ?_⟩ <;> ring

theorem get_proposals_zero_deltas (exp : ℚ → ℚ) (hexp : exp 0 = 1) (t : Tensor)
    (anchors : List Anchor) (hC : 8 ≤ t.channels)
    (hdata : t.data = List.replicate (t.channels * t.height * t.width) 0)
    (hlen : anchors.length ≤ t.height * t.width * 2) :
    _get_proposals inclusiveAccessors exp t 2 anchors = some anchors := by
  unfold _get_proposals
  rw [if_neg (by decide)]
  rw [collectAll_map_some _ (fun (ia : Nat × Anchor) => ia.2)]
  · rw [List.enum_map_snd]
  · intro ia hia
    exact proposalAt_zero_deltas exp hexp t ia.1 ia.2 hC hdata
      (lt_of_lt_of_le (mem_enum_lt anchors ia hia) hlen)

/-- The level of `singleLevelModel` with two canonical anchors on a grid of 2 × 2, with all
regression deltas zero: the proposals are the anchors of the plane, and the scores are those
of the foreground channels. -/
theorem decodeLevel_single (env : Env) (hexp : env.exp 0 = 1)
    (hacc : env.acc = inclusiveAccessors) (cfgLine : AnchorCfgLine) (anchors_fpn : List Anchor)
    (hA : anchors_fpn.length = 2) (thr : ℚ) (netInputHeight netInputWidth : Nat)
    (imgWidth imgHeight : Int) (cls : Tensor) (hC : cls.channels = 4) (hH : cls.height = 2)
    (hW : cls.width = 2) (hD : cls.data.length = 16) :
    ∃ scores, decodeLevel env
        (singleLevelModel cfgLine anchors_fpn thr netInputHeight netInputWidth)
        (singleLevelResult ⟨8, 2, 2, List.replicate 32 0⟩ cls ⟨20, 2, 2, List.replicate 80 0⟩
          imgWidth imgHeight) 0 cfgLine =
        some ⟨anchorsPlane cfgLine.stride 2 2 anchors_fpn, List.replicate 8 [], scores, []⟩ ∧
      scores.length = 8 ∧
      ∀ x y z : Nat, 2 ≤ x → x < 4 → y < 2 → z < 2 →
        scores[(y * 2 + z) * 2 + (x - 2)]? = cls.data[(x * 2 + y) * 2 + z]? := by
  obtain ⟨scores, hscores, hslen, hsv⟩ := get_scores_spec cls 2 (by omega)
    (by rw [hC, hH, hW]; exact hD)
  rw [hC, hH, hW] at hslen hsv
  have hfpn : mapGet (singleLevelModel cfgLine anchors_fpn thr netInputHeight
      netInputWidth)._anchors_fpn cfgLine.stride = anchors_fpn := by
    simp [singleLevelModel, mapGet, mapEmplace, emptyAnchorMap]
  have hplane := (anchorsPlane_spec cfgLine.stride 2 2 anchors_fpn).1
  rw [hA] at hplane
  have hps := get_proposals_zero_deltas env.exp hexp ⟨8, 2, 2, List.replicate 32 0⟩
    (anchorsPlane cfgLine.stride 2 2 anchors_fpn) (by decide) rfl (le_of_eq hplane)
  have hls := get_landmarks_some inclusiveAccessors ⟨20, 2, 2, List.replicate 80 0⟩
    (anchorsPlane cfgLine.stride 2 2 anchors_fpn) (1 / 5) (by decide) rfl (le_of_eq hplane)
  rw [hplane] at hls
  refine ⟨scores, ?_, hslen, hsv⟩
  unfold decodeLevel
  simp only [hfpn, hA, hacc]
  simp only [singleLevelModel, singleLevelResult, List.getElem?_cons_zero, Option.bind_eq_bind,
    Option.some_bind, List.lookup]
  have e1 : ("cls" == "bbox") = false := by decide
  have e2 : ("landmark" == "bbox") = false := by decide
  have e3 : ("landmark" == "cls") = false := by decide
  simp only [e1, e2, e3, beq_self_eq_true, Option.some_bind, hscores, hps, hls]
  rfl

theorem getElem?_markBelowThreshold (thr : ℚ) (scores : List ℚ) (i : Nat) :
    (markBelowThreshold thr scores)[i]? =
      (scores[i]?).map (fun sc => if sc < thr then -1 else sc) := by
  unfold markBelowThreshold
  rw [List.getElem?_map]

/-- A level on which exactly one score is not below the confidence threshold, and this score is
not negative, contributes this one candidate. -/
theorem keepLevel_single (env : Env) (hsort : ∀ scores, IsSortedOrder scores (env.sort scores))
    (m : ModelRetinaFace) (hm : m.shouldDetectMasks = false) (d : LevelDecoded) (q : Nat)
    (p : Anchor) (l : List Point2f) (sc : ℚ) (hlen : d.proposals.length = d.scores.length)
    (hp : d.proposals[q]? = some p) (hl : d.landmarks[q]? = some l)
    (hs : d.scores[q]? = some sc) (hthr : m.confidenceThreshold ≤ sc) (h0 : 0 ≤ sc)
    (hothers : ∀ (i : Nat) (v : ℚ), i ≠ q → d.scores[i]? = some v → v < m.confidenceThreshold)
    (hex : ∃ i : Nat, i < d.scores.length ∧ i ≠ q) :
    keepLevel env m d = some ⟨[p], [l], [sc], []⟩ := by
  have hq : q < d.scores.length := (List.getElem?_eq_some_iff.mp hs).1
  have hsq : (markBelowThreshold m.confidenceThreshold d.scores)[q]? = some sc := by
    rw [getElem?_markBelowThreshold, hs, Option.map_some', if_neg (not_lt.mpr hthr)]
  have hnms := nms_single_active env.sort d.proposals
    (markBelowThreshold m.confidenceThreshold d.scores) (1 / 2) (hsort _)
    (by rw [length_markBelowThreshold]; exact hlen) q
    (by rw [length_markBelowThreshold]; exact hq)
    (by
      unfold scoreAt
      rw [Int.toNat_natCast, hsq]
      exact h0)
    (by
      intro i hi hiq
      rw [length_markBelowThreshold] at hi
      unfold scoreAt
      rw [Int.toNat_natCast, getElem?_markBelowThreshold, List.getElem?_eq_getElem hi,
        Option.map_some', if_pos (hothers i _ hiq (List.getElem?_eq_getElem hi))]
      exact (by norm_num : (-1 : ℚ) < 0))
    (by rw [length_markBelowThreshold]; exact hex)
  unfold keepLevel
  simp only
  rw [if_neg (by rw [length_markBelowThreshold]; omega), hnms]
  simp only [gatherKept, Int.toNat_natCast, hp, hl, hsq, hm, Bool.false_eq_true, if_false]

/-- C18 (amended): a single configuration line with two anchors per cell on a grid of 2 × 2,
all regression deltas zero, `exp 0 = 1`, and the width of an anchor being `right - left + 1`.
When the foreground score of the anchor `k` of the cell (1,1) is non-negative and above the
confidence threshold, and every other foreground score is below the threshold, `postprocess`
returns exactly one object: the canonical anchor `k` translated by (stride, stride), with its
corner and its size divided by the scale factors of the two axes. -/
theorem single_level_end_to_end (env : Env)
    (hsort : ∀ scores, IsSortedOrder scores (env.sort scores)) (hexp : env.exp 0 = 1)
    (hacc : env.acc = inclusiveAccessors) (cfgLine : AnchorCfgLine) (anchors_fpn : List Anchor)
    (hA : anchors_fpn.length = 2) (k : Nat) (a : Anchor) (ha : anchors_fpn[k]? = some a)
    (thr : ℚ) (netInputHeight netInputWidth : Nat) (imgWidth imgHeight : Int) (cls : Tensor)
    (hC : cls.channels = 4) (hH : cls.height = 2) (hW : cls.width = 2)
    (hD : cls.data.length = 16) (sc : ℚ)
    (hsc : cls.data[((2 + k) * 2 + 1) * 2 + 1]? = some sc) (hthr : thr < sc) (h0 : 0 ≤ sc)
    (hothers : ∀ (x y z : Nat) (v : ℚ), 2 ≤ x → x < 4 → y < 2 → z < 2 →
      (x ≠ 2 + k ∨ y ≠ 1 ∨ z ≠ 1) → cls.data[(x * 2 + y) * 2 + z]? = some v → v < thr) :
    postprocess env (singleLevelModel cfgLine anchors_fpn thr netInputHeight netInputWidth)
        (singleLevelResult ⟨8, 2, 2, List.replicate 32 0⟩ cls ⟨20, 2, 2, List.replicate 80 0⟩
          imgWidth imgHeight) =
      some ⟨[⟨(a.left + (cfgLine.stride : ℚ)) / ((netInputWidth : ℚ) / (imgWidth : ℚ)),
          (a.top + (cfgLine.stride : ℚ)) / ((netInputHeight : ℚ) / (imgHeight : ℚ)),
          (a.right - a.left + 1) / ((netInputWidth : ℚ) / (imgWidth : ℚ)),
          (a.bottom - a.top + 1) / ((netInputHeight : ℚ) / (imgHeight : ℚ)), sc, 1, "Face"⟩],
        [[]]⟩ := by
  have hk : k < 2 := by
    rw [← hA]
    exact (List.getElem?_eq_some_iff.mp ha).1
  obtain ⟨scores, hdec, hslen, hsv⟩ := decodeLevel_single env hexp hacc cfgLine anchors_fpn hA
    thr netInputHeight netInputWidth imgWidth imgHeight cls hC hH hW hD
  have hplane := anchorsPlane_spec cfgLine.stride 2 2 anchors_fpn
  rw [hA] at hplane
  have hkeep := keepLevel_single env hsort
    (singleLevelModel cfgLine anchors_fpn thr netInputHeight netInputWidth) rfl
    ⟨anchorsPlane cfgLine.stride 2 2 anchors_fpn, List.replicate 8 [], scores, []⟩ (6 + k)
    (shiftAnchor a (((1 : Nat) : Int) * cfgLine.stride) (((1 : Nat) : Int) * cfgLine.stride)) []
    sc (by rw [hplane.1, hslen])
    (by
      have := hplane.2 1 1 k a (by decide) (by decide) ha
      simpa using this)
    (by
      rw [List.getElem?_replicate, if_pos (by omega)])
    (by
      have := hsv (2 + k) 1 1 (by omega) (by omega) (by decide) (by decide)
      rw [hsc] at this
      rw [← this]
      congr 1
      omega)
    (le_of_lt hthr) h0
    (by
      intro i v hi hv
      have hi8 : i < 8 := by
        rw [← hslen]
        exact (List.getElem?_eq_some_iff.mp hv).1
      have := hsv (2 + i % 2) (i / 4) (i / 2 % 2) (by omega) (by omega) (by omega) (by omega)
      have hidx : (i / 4 * 2 + i / 2 % 2) * 2 + (2 + i % 2 - 2) = i := by omega
      rw [hidx] at this
      change scores[i]? = some v at hv
      rw [hv] at this
      exact hothers (2 + i % 2) (i / 4) (i / 2 % 2) v (by omega) (by omega) (by omega)
        (by omega) (by omega) this.symm)
    ⟨0, by rw [hslen]; decide, by omega⟩
  have hcfg : (singleLevelModel cfgLine anchors_fpn thr netInputHeight
      netInputWidth).anchorCfg = [cfgLine] := rfl
  have henum : [cfgLine].enum = [(0, cfgLine)] := rfl
  unfold postprocess
  rw [hcfg, henum]
  simp only [List.map_cons, List.map_nil, hdec, hkeep, collectAll, List.flatten_cons,
    List.flatten_nil, List.append_nil]
  simp only [singleLevelModel, singleLevelResult]
  rw [emitObjects_single _ _ _ _ _ _ hthr, hacc]
  simp only [inclusiveAccessors, shiftAnchor, Nat.cast_one, one_mul, Option.some.injEq,
    DetectionResult.mk.injEq, List.cons.injEq, DetectedObject.mk.injEq, and_true, true_and]
  refine ⟨?_, ?_⟩ <;> ring
/-- C18 (witness): stride 8, the canonical anchors (-8,-8,23,23) and (0,0,15,15), a network
input of 16 × 16 and an image of 8 × 8; the second anchor of the cell (1,1) has the score 9/10,
every other anchor 1/10, and the threshold is 1/2. The object is the anchor (8,8,23,23) at half
the size: corner (4,4), width and height 8. -/
theorem single_level_end_to_end_witness :
    postprocess (exampleEnv inclusiveAccessors)
        (singleLevelModel ⟨8, [2, 1], 16, [1]⟩ [⟨-8, -8, 23, 23⟩, ⟨0, 0, 15, 15⟩] (1 / 2) 16 16)
        (singleLevelResult ⟨8, 2, 2, List.replicate 32 0⟩
          ⟨4, 2, 2, List.replicate 8 (1 / 2) ++ List.replicate 7 (1 / 10) ++ [9 / 10]⟩
          ⟨20, 2, 2, List.replicate 80 0⟩ 8 8) =
      some ⟨[⟨4, 4, 8, 8, 9 / 10, 1, "Face"⟩], [[]]⟩ :=
  (single_level_end_to_end (exampleEnv inclusiveAccessors)
    (fun scores => stableSort_isSortedOrder scores) rfl rfl ⟨8, [2, 1], 16, [1]⟩
    [⟨-8, -8, 23, 23⟩, ⟨0, 0, 15, 15⟩] rfl 1 ⟨0, 0, 15, 15⟩ rfl (1 / 2) 16 16 8 8
    ⟨4, 2, 2, List.replicate 8 (1 / 2) ++ List.replicate 7 (1 / 10) ++ [9 / 10]⟩ rfl rfl rfl
    (by decide) (9 / 10) (by decide!) (by norm_num) (by norm_num)
    (by
      intro x y z v hx hx4 hy hz hne hv
      interval_cases x <;> interval_cases y <;> interval_cases z <;>
        first
        | (exfalso; revert hne; decide)
        | (simp at hv
           rw [← hv]
           norm_num))).trans (by norm_num)

/-- C18 (counterexample): with one anchor per cell (stride 16, the canonical anchor
(0,0,15,15)) on a grid of 2 × 2, zero deltas and only the score of the cell (1,1) above the
threshold, the landmark decoder reads its blob of 10 channels beyond the end for the anchors
of odd index, so `postprocess` has no defined result. With two anchors per cell and the width
of an anchor taken as `right - left`, the object returned for the anchor (8,8,23,23) at the
scale factor 2 has the corner (17/4, 17/4) and the size 7, not the corner (4,4) and the size
15/2 of the anchor. -/
theorem single_anchor_per_cell_reads_outside :
    _get_landmarks inclusiveAccessors ⟨10, 2, 2, List.replicate 40 0⟩ 1
        (anchorsPlane 16 2 2 [⟨0, 0, 15, 15⟩]) (1 / 5) = none ∧
      postprocess (exampleEnv inclusiveAccessors)
        (singleLevelModel ⟨16, [1], 16, [1]⟩ [⟨0, 0, 15, 15⟩] (1 / 2) 32 32)
        (singleLevelResult ⟨4, 2, 2, List.replicate 16 0⟩
          ⟨2, 2, 2, [1 / 2, 1 / 2, 1 / 2, 1 / 2, 1 / 10, 1 / 10, 1 / 10, 9 / 10]⟩
          ⟨10, 2, 2, List.replicate 40 0⟩ 32 32) = none ∧
      postprocess (exampleEnv specAccessors)
        (singleLevelModel ⟨8, [2, 1], 16, [1]⟩ [⟨-8, -8, 23, 23⟩, ⟨0, 0, 15, 15⟩] (1 / 2) 16 16)
        (singleLevelResult ⟨8, 2, 2, List.replicate 32 0⟩
          ⟨4, 2, 2, List.replicate 8 (1 / 2) ++ List.replicate 7 (1 / 10) ++ [9 / 10]⟩
          ⟨20, 2, 2, List.replicate 80 0⟩ 8 8) =
        some ⟨[⟨17 / 4, 17 / 4, 7, 7, 9 / 10, 1, "Face"⟩], [[]]⟩ := by
  decide!

/-! ## Claims on the box and landmark decoders, the scale variants and the anchor map -/

/-- What the body of the loop of `_get_proposals` computes from the four deltas it reads. -/
theorem proposalAt_eq_some (acc : AnchorAccessors) (exp : ℚ → ℚ) (t : Tensor) (A i : Nat)
    (a b : Anchor) (h : proposalAt acc exp t A i a = some b) :
    ∃ dx dy dw dh,
      t.data[t.height * t.width * (t.channels / A) * (i % A) + i / A]? = some dx ∧
      t.data[t.height * t.width * (t.channels / A) * (i % A) + i / A +
        t.height * t.width]? = some dy ∧
      t.data[t.height * t.width * (t.channels / A) * (i % A) + i / A +
        t.height * t.width * 2]? = some dw ∧
      t.data[t.height * t.width * (t.channels / A) * (i % A) + i / A +
        t.height * t.width * 3]? = some dh ∧
      b = ⟨dx * acc.getWidth a + acc.getXCenter a - 1 / 2 * (exp dw * acc.getWidth a - 1),
        dy * acc.getHeight a + acc.getYCenter a - 1 / 2 * (exp dh * acc.getHeight a - 1),
        dx * acc.getWidth a + acc.getXCenter a + 1 / 2 * (exp dw * acc.getWidth a - 1),
        dy * acc.getHeight a + acc.getYCenter a + 1 / 2 * (exp dh * acc.getHeight a - 1)⟩ := by
  unfold proposalAt at h
  simp only at h
  split at h
  · rename_i dx dy dw dh h1 h2 h3 h4
    simp only [Option.some.injEq] at h
    exact ⟨dx, dy, dw, dh, h1, h2, h3, h4, h.symm⟩
  · exact absurd h (by simp)

/-- The entry `i` of what `_get_proposals` returns is the box computed for the anchor `i`. -/
theorem get_proposals_entry (acc : AnchorAccessors) (exp : ℚ → ℚ) (t : Tensor) (A : Nat)
    (anchors ps : List Anchor) (h : _get_proposals acc exp t A anchors = some ps) (i : Nat)
    (a : Anchor) (ha : anchors[i]? = some a) :
    ∃ b, ps[i]? = some b ∧ proposalAt acc exp t A i a = some b := by
  unfold _get_proposals at h
  split at h
  · exact absurd h (by simp)
  · obtain ⟨hlen, hget⟩ := collectAll_eq_some _ ps h
    rw [List.length_map, List.enum_length] at hlen hget
    have hi : i < anchors.length := (List.getElem?_eq_some_iff.mp ha).1
    have h1 := hget i hi
    have he : anchors.enum[i]? = some (i, a) := by
      rw [List.enum_eq_zip_range, List.getElem?_zip_eq_some]
      exact ⟨by rw [List.getElem?_range hi], ha⟩
    rw [List.getElem?_map, he, Option.map_some'] at h1
    have hps : i < ps.length := by rw [hlen]; exact hi
    rw [List.getElem?_eq_getElem hps, Option.map_some'] at h1
    exact ⟨ps[i], List.getElem?_eq_getElem hps, Option.some.inj h1⟩

theorem proposal_offset_lt (B A i c : Nat) (hi : i < B * A) (hc : c < 4) :
    B * 4 * (i % A) + i / A + c * B < 4 * A * B := by
  have hA : 0 < A := by
    rcases Nat.eq_zero_or_pos A with h | h
    · rw [h] at hi
      exact absurd hi (by simp)
    · exact h
  have hr : i % A + 1 ≤ A := Nat.mod_lt i hA
  have hd : i / A < B := (Nat.div_lt_iff_lt_mul hA).mpr hi
  have h1 : B * 4 * (i % A + 1) ≤ B * 4 * A := Nat.mul_le_mul_left _ hr
  have h2 : B * 4 * (i % A + 1) = B * 4 * (i % A) + B * 4 := by ring
  have h3 : 4 * A * B = B * 4 * A := by ring
  have h4 : c * B ≤ 3 * B := Nat.mul_le_mul_right _ (by omega)
  omega

/-- On a blob of `4 * anchor_num` channels with a full buffer, `_get_proposals` reads within
the buffer and returns one box per anchor of the plane. -/
theorem get_proposals_returns (acc : AnchorAccessors) (exp : ℚ → ℚ) (t : Tensor) (A : Nat)
    (anchors : List Anchor) (hA : 1 ≤ A) (hC : t.channels = 4 * A)
    (hdata : t.data.length = 4 * A * t.height * t.width)
    (hlen : anchors.length = t.height * t.width * A) :
    ∃ ps, _get_proposals acc exp t A anchors = some ps ∧ ps.length = anchors.length := by
  have hq : t.channels / A = 4 := by
    rw [hC, Nat.mul_div_cancel _ (by omega)]
  have hd : t.data.length = 4 * A * (t.height * t.width) := by
    rw [hdata, Nat.mul_assoc]
  unfold _get_proposals
  rw [if_neg (by omega)]
  obtain ⟨ps, hps⟩ := collectAll_map_exists
    (fun (ia : Nat × Anchor) => proposalAt acc exp t A ia.1 ia.2) anchors.enum
    (fun ia hia => by
      have hi : ia.1 < t.height * t.width * A := by
        rw [← hlen]
        exact mem_enum_lt anchors ia hia
      have h0 := proposal_offset_lt (t.height * t.width) A ia.1 0 hi (by decide)
      have h1 := proposal_offset_lt (t.height * t.width) A ia.1 1 hi (by decide)
      have h2 := proposal_offset_lt (t.height * t.width) A ia.1 2 hi (by decide)
      have h3 := proposal_offset_lt (t.height * t.width) A ia.1 3 hi (by decide)
      unfold proposalAt
      simp only [hq]
      rw [List.getElem?_eq_getElem (by omega : _ < t.data.length),
        List.getElem?_eq_getElem (by omega : _ < t.data.length),
        List.getElem?_eq_getElem (by omega : _ < t.data.length),
        List.getElem?_eq_getElem (by omega : _ < t.data.length)]
      exact ⟨_, rfl⟩)
  refine ⟨ps, hps, ?_⟩
  rw [(collectAll_eq_some _ ps hps).1, List.length_map, List.enum_length]

/-- The place of the anchor `i` of a plane of `B = H * W` cells with `A` anchors per cell, and
of the delta `c` read for it, in a blob of `4 * A` channels. -/
theorem proposal_offset_cell (H W A i c : Nat) (hi : i < H * W * A) :
    H * W * 4 * (i % A) + i / A + c * (H * W) =
        ((4 * (i % A) + c) * H + i / A / W) * W + i / A % W ∧
      i % A < A ∧ i / A / W < H ∧ i / A % W < W ∧
      i = (i / A / W * W + i / A % W) * A + i % A := by
  have hA : 0 < A := by
    rcases Nat.eq_zero_or_pos A with h | h
    · rw [h] at hi
      exact absurd hi (by simp)
    · exact h
  have hd : i / A < H * W := (Nat.div_lt_iff_lt_mul hA).mpr hi
  have hW : 0 < W := by
    rcases Nat.eq_zero_or_pos W with h | h
    · rw [h] at hd
      exact absurd hd (by simp)
    · exact h
  have e1 : i / A / W * W + i / A % W = i / A := Nat.div_add_mod' _ _
  refine ⟨?_, Nat.mod_lt i hA, (Nat.div_lt_iff_lt_mul hW).mpr hd, Nat.mod_lt _ hW, ?_⟩
  · have e2 : ((4 * (i % A) + c) * H + i / A / W) * W + i / A % W =
        (4 * (i % A) + c) * (H * W) + (i / A / W * W + i / A % W) := by ring
    rw [e2, e1]
    ring
  · rw [e1]
    exact (Nat.div_add_mod' i A).symm

/-- C27: for `A ≥ 1`, a blob of shape (1, 4A, H, W) with a buffer of `4A*H*W` values and a list
of `H*W*A` anchors, `_get_proposals` returns one box per anchor, and for every `i < H*W*A`
each offset `H*W*4*(i mod A) + i/A + c*H*W`, `c < 4`, is below `4A*H*W` and is the position of
channel `4*(i mod A) + c`, row `i/A/W`, column `i/A mod W`; `i` is the index
`(row*W + column)*A + (i mod A)` of the anchor plane and of the score list; and the box `i`
is computed from the four values at these offsets. -/
theorem get_proposals_reads_in_bounds (acc : AnchorAccessors) (exp : ℚ → ℚ) (t : Tensor)
    (A : Nat) (anchors : List Anchor) (hA : 1 ≤ A) (hC : t.channels = 4 * A)
    (hdata : t.data.length = 4 * A * t.height * t.width)
    (hlen : anchors.length = t.height * t.width * A) :
    ∃ ps, _get_proposals acc exp t A anchors = some ps ∧ ps.length = anchors.length ∧
      ∀ i : Nat, i < t.height * t.width * A →
        (∀ c : Nat, c < 4 →
          t.height * t.width * 4 * (i % A) + i / A + c * (t.height * t.width) <
            4 * A * t.height * t.width ∧
          t.height * t.width * 4 * (i % A) + i / A + c * (t.height * t.width) =
            ((4 * (i % A) + c) * t.height + i / A / t.width) * t.width + i / A % t.width) ∧
        i % A < A ∧ i / A / t.width < t.height ∧ i / A % t.width < t.width ∧
        i = (i / A / t.width * t.width + i / A % t.width) * A + i % A ∧
        ∃ a dx dy dw dh, anchors[i]? = some a ∧
          t.data[t.height * t.width * 4 * (i % A) + i / A]? = some dx ∧
          t.data[t.height * t.width * 4 * (i % A) + i / A + t.height * t.width]? = some dy ∧
          t.data[t.height * t.width * 4 * (i % A) + i / A + t.height * t.width * 2]? =
            some dw ∧
          t.data[t.height * t.width * 4 * (i % A) + i / A + t.height * t.width * 3]? =
            some dh ∧
          ps[i]? = some
            ⟨dx * acc.getWidth a + acc.getXCenter a - 1 / 2 * (exp dw * acc.getWidth a - 1),
              dy * acc.getHeight a + acc.getYCenter a - 1 / 2 * (exp dh * acc.getHeight a - 1),
              dx * acc.getWidth a + acc.getXCenter a + 1 / 2 * (exp dw * acc.getWidth a - 1),
              dy * acc.getHeight a + acc.getYCenter a +
                1 / 2 * (exp dh * acc.getHeight a - 1)⟩ := by
  obtain ⟨ps, hps, hpslen⟩ := get_proposals_returns acc exp t A anchors hA hC hdata hlen
  have hq : t.channels / A = 4 := by
    rw [hC, Nat.mul_div_cancel _ (by omega)]
  refine ⟨ps, hps, hpslen, ?_⟩
  intro i hi
  obtain ⟨_, h2, h3, h4, h5⟩ := proposal_offset_cell t.height t.width A i 0 hi
  refine ⟨?_, h2, h3, h4, h5, ?_⟩
  · intro c hc
    refine ⟨?_, (proposal_offset_cell t.height t.width A i c hi).1⟩
    rw [Nat.mul_assoc (4 * A) t.height t.width]
    exact proposal_offset_lt (t.height * t.width) A i c hi hc
  · have hia : i < anchors.length := by
      rw [hlen]
      exact hi
    obtain ⟨b, hb, hpb⟩ := get_proposals_entry acc exp t A anchors ps hps i anchors[i]
      (List.getElem?_eq_getElem hia)
    obtain ⟨dx, dy, dw, dh, h1, h2, h3, h4, hbox⟩ := proposalAt_eq_some acc exp t A i _ b hpb
    rw [hq] at h1 h2 h3 h4
    exact ⟨anchors[i], dx, dy, dw, dh, List.getElem?_eq_getElem hia, h1, h2, h3, h4,
      by rw [hb, hbox]⟩

/-- C27 (witness): one cell with two anchors and a blob of shape (1, 8, 1, 1). -/
theorem get_proposals_reads_in_bounds_witness :
    ∃ ps, _get_proposals inclusiveAccessors expAtZero ⟨8, 1, 1, List.replicate 8 0⟩ 2
        [⟨-8, -8, 23, 23⟩, ⟨0, 0, 15, 15⟩] = some ps ∧
      ps.length = 2 :=
  (get_proposals_reads_in_bounds inclusiveAccessors expAtZero ⟨8, 1, 1, List.replicate 8 0⟩ 2
    [⟨-8, -8, 23, 23⟩, ⟨0, 0, 15, 15⟩] (by decide) rfl (by decide) rfl).imp
    (fun _ h => ⟨h.1, h.2.1⟩)

/-- C21 (counterexample): with the accessors as the specification words them
(`width = right - left`), the anchor (0,0,15,15) and the deltas (1,0,0,0) give the box
(15.5, 0.5, 29.5, 14.5), whose width is 14, while `exp(0) * width(a)` is 15. -/
theorem get_proposals_spec_width_differs :
    _get_proposals specAccessors expAtZero ⟨4, 1, 1, [1, 0, 0, 0]⟩ 1 [⟨0, 0, 15, 15⟩] =
        some [⟨31 / 2, 1 / 2, 59 / 2, 29 / 2⟩] ∧
      specAccessors.getWidth ⟨31 / 2, 1 / 2, 59 / 2, 29 / 2⟩ = 14 ∧
      expAtZero 0 * specAccessors.getWidth ⟨0, 0, 15, 15⟩ = 15 := by
  decide!

/-- C21 (amended): for every anchor `a` of the list and the deltas `(dx, dy, dw, dh)` read for
it, the box `b` that `_get_proposals` returns at its index has, with the accessors of the
inclusive convention (`width = right - left + 1`), the centre
`(dx * width(a) + centerX(a), dy * height(a) + centerY(a))`, the width `exp(dw) * width(a)`
and the height `exp(dh) * height(a)`; with the accessors as the specification words them the
centre is the same expression, and the width and height are `exp(dw) * width(a) - 1` and
`exp(dh) * height(a) - 1`. On a blob of shape (1, 4A, H, W) and `H*W*A` anchors the function
returns. -/
theorem get_proposals_center_and_size (exp : ℚ → ℚ) (t : Tensor) (A : Nat)
    (anchors : List Anchor) (i : Nat) (a : Anchor) (ha : anchors[i]? = some a) :
    (∀ acc : AnchorAccessors, 1 ≤ A → t.channels = 4 * A →
      t.data.length = 4 * A * t.height * t.width → anchors.length = t.height * t.width * A →
      ∃ ps, _get_proposals acc exp t A anchors = some ps) ∧
    (∀ ps, _get_proposals inclusiveAccessors exp t A anchors = some ps →
      ∃ b dx dy dw dh, ps[i]? = some b ∧
        t.data[t.height * t.width * (t.channels / A) * (i % A) + i / A]? = some dx ∧
        t.data[t.height * t.width * (t.channels / A) * (i % A) + i / A +
          t.height * t.width]? = some dy ∧
        t.data[t.height * t.width * (t.channels / A) * (i % A) + i / A +
          t.height * t.width * 2]? = some dw ∧
        t.data[t.height * t.width * (t.channels / A) * (i % A) + i / A +
          t.height * t.width * 3]? = some dh ∧
        inclusiveAccessors.getXCenter b =
          dx * inclusiveAccessors.getWidth a + inclusiveAccessors.getXCenter a ∧
        inclusiveAccessors.getYCenter b =
          dy * inclusiveAccessors.getHeight a + inclusiveAccessors.getYCenter a ∧
        inclusiveAccessors.getWidth b = exp dw * inclusiveAccessors.getWidth a ∧
        inclusiveAccessors.getHeight b = exp dh * inclusiveAccessors.getHeight a) ∧
    (∀ ps, _get_proposals specAccessors exp t A anchors = some ps →
      ∃ b dx dy dw dh, ps[i]? = some b ∧
        t.data[t.height * t.width * (t.channels / A) * (i % A) + i / A]? = some dx ∧
        t.data[t.height * t.width * (t.channels / A) * (i % A) + i / A +
          t.height * t.width]? = some dy ∧
        t.data[t.height * t.width * (t.channels / A) * (i % A) + i / A +
          t.height * t.width * 2]? = some dw ∧
        t.data[t.height * t.width * (t.channels / A) * (i % A) + i / A +
          t.height * t.width * 3]? = some dh ∧
        specAccessors.getXCenter b =
          dx * specAccessors.getWidth a + specAccessors.getXCenter a ∧
        specAccessors.getYCenter b =
          dy * specAccessors.getHeight a + specAccessors.getYCenter a ∧
        specAccessors.getWidth b = exp dw * specAccessors.getWidth a - 1 ∧
        specAccessors.getHeight b = exp dh * specAccessors.getHeight a - 1) := by
  refine ⟨?_, ?_, ?_⟩
  · intro acc hA hC hdata hlen
    obtain ⟨ps, hps, _⟩ := get_proposals_returns acc exp t A anchors hA hC hdata hlen
    exact ⟨ps, hps⟩
  · intro ps hps
    obtain ⟨b, hb, hpb⟩ := get_proposals_entry _ exp t A anchors ps hps i a ha
    obtain ⟨dx, dy, dw, dh, h1, h2, h3, h4, hbox⟩ := proposalAt_eq_some _ exp t A i a b hpb
    refine ⟨b, dx, dy, dw, dh, hb, h1, h2, h3, h4, ?_⟩
    rw [hbox]
    simp only [inclusiveAccessors]
    refine ⟨?_, ?_, ?_, ?_⟩ <;> ring
  · intro ps hps
    obtain ⟨b, hb, hpb⟩ := get_proposals_entry _ exp t A anchors ps hps i a ha
    obtain ⟨dx, dy, dw, dh, h1, h2, h3, h4, hbox⟩ := proposalAt_eq_some _ exp t A i a b hpb
    refine ⟨b, dx, dy, dw, dh, hb, h1, h2, h3, h4, ?_⟩
    rw [hbox]
    simp only [specAccessors]
    refine ⟨?_, ?_, ?_, ?_⟩ <;> ring

/-- C21 (witness): the anchor (0,0,15,15), alone in its cell, with the deltas (1,0,0,0): under
the inclusive convention the box returned for it is (16,0,31,15). -/
theorem get_proposals_center_and_size_witness :
    _get_proposals inclusiveAccessors expAtZero ⟨4, 1, 1, [1, 0, 0, 0]⟩ 1 [⟨0, 0, 15, 15⟩] =
        some [⟨16, 0, 31, 15⟩] ∧
    ∃ b dx dy dw dh, [(⟨16, 0, 31, 15⟩ : Anchor)][0]? = some b ∧
      (⟨4, 1, 1, [1, 0, 0, 0]⟩ : Tensor).data[1 * 1 * (4 / 1) * (0 % 1) + 0 / 1]? = some dx ∧
      (⟨4, 1, 1, [1, 0, 0, 0]⟩ : Tensor).data[1 * 1 * (4 / 1) * (0 % 1) + 0 / 1 + 1 * 1]? =
        some dy ∧
      (⟨4, 1, 1, [1, 0, 0, 0]⟩ : Tensor).data[1 * 1 * (4 / 1) * (0 % 1) + 0 / 1 + 1 * 1 * 2]? =
        some dw ∧
      (⟨4, 1, 1, [1, 0, 0, 0]⟩ : Tensor).data[1 * 1 * (4 / 1) * (0 % 1) + 0 / 1 + 1 * 1 * 3]? =
        some dh ∧
      inclusiveAccessors.getXCenter b =
        dx * inclusiveAccessors.getWidth ⟨0, 0, 15, 15⟩ +
          inclusiveAccessors.getXCenter ⟨0, 0, 15, 15⟩ ∧
      inclusiveAccessors.getYCenter b =
        dy * inclusiveAccessors.getHeight ⟨0, 0, 15, 15⟩ +
          inclusiveAccessors.getYCenter ⟨0, 0, 15, 15⟩ ∧
      inclusiveAccessors.getWidth b = expAtZero dw * inclusiveAccessors.getWidth ⟨0, 0, 15, 15⟩ ∧
      inclusiveAccessors.getHeight b =
        expAtZero dh * inclusiveAccessors.getHeight ⟨0, 0, 15, 15⟩ :=
  ⟨by decide!,
    (get_proposals_center_and_size expAtZero ⟨4, 1, 1, [1, 0, 0, 0]⟩ 1 [⟨0, 0, 15, 15⟩] 0
      ⟨0, 0, 15, 15⟩ rfl).2.1 [⟨16, 0, 31, 15⟩] (by decide!)⟩

/-- C22 (counterexample): with the accessors as the specification words them, the anchor
(0,0,15,15) and zero deltas give the box (0.5, 0.5, 14.5, 14.5), not the anchor. -/
theorem get_proposals_spec_zero_deltas_shrink :
    _get_proposals specAccessors expAtZero ⟨4, 1, 1, [0, 0, 0, 0]⟩ 1 [⟨0, 0, 15, 15⟩] =
      some [⟨1 / 2, 1 / 2, 29 / 2, 29 / 2⟩] := by
  decide!

/-- C22 (amended): with the accessors of the inclusive convention (`width = right - left + 1`,
centre `left + (width - 1) / 2`) and `exp 0 = 1`, the box that `_get_proposals` returns for an
anchor whose four deltas are zero is the anchor itself; with the accessors as the
specification words them it is the anchor shrunk by half a pixel on every side. On a blob of
shape (1, 4A, H, W) and `H*W*A` anchors the function returns. -/
theorem get_proposals_zero_deltas_identity (exp : ℚ → ℚ) (hexp : exp 0 = 1) (t : Tensor)
    (A : Nat) (anchors : List Anchor) (i : Nat) (a : Anchor) (ha : anchors[i]? = some a)
    (hdx : t.data[t.height * t.width * (t.channels / A) * (i % A) + i / A]? = some 0)
    (hdy : t.data[t.height * t.width * (t.channels / A) * (i % A) + i / A +
      t.height * t.width]? = some 0)
    (hdw : t.data[t.height * t.width * (t.channels / A) * (i % A) + i / A +
      t.height * t.width * 2]? = some 0)
    (hdh : t.data[t.height * t.width * (t.channels / A) * (i % A) + i / A +
      t.height * t.width * 3]? = some 0) :
    (∀ acc : AnchorAccessors, 1 ≤ A → t.channels = 4 * A →
      t.data.length = 4 * A * t.height * t.width → anchors.length = t.height * t.width * A →
      ∃ ps, _get_proposals acc exp t A anchors = some ps) ∧
    (∀ ps, _get_proposals inclusiveAccessors exp t A anchors = some ps → ps[i]? = some a) ∧
    (∀ ps, _get_proposals specAccessors exp t A anchors = some ps →
      ps[i]? = some ⟨a.left + 1 / 2, a.top + 1 / 2, a.right - 1 / 2, a.bottom - 1 / 2⟩) := by
  refine ⟨?_, ?_, ?_⟩
  · intro acc hA hC hdata hlen
    obtain ⟨ps, hps, _⟩ := get_proposals_returns acc exp t A anchors hA hC hdata hlen
    exact ⟨ps, hps⟩
  · intro ps hps
    obtain ⟨b, hb, hpb⟩ := get_proposals_entry _ exp t A anchors ps hps i a ha
    obtain ⟨dx, dy, dw, dh, h1, h2, h3, h4, hbox⟩ := proposalAt_eq_some _ exp t A i a b hpb
    rw [hdx] at h1
    rw [hdy] at h2
    rw [hdw] at h3
    rw [hdh] at h4
    rw [← Option.some.inj h1, ← Option.some.inj h2, ← Option.some.inj h3,
      ← Option.some.inj h4, hexp] at hbox
    rw [hb, hbox]
    obtain ⟨l, tp, r, bt⟩ := a
    simp only [inclusiveAccessors, Option.some.injEq, Anchor.mk.injEq]
    refine ⟨?_, ?_, ?_, ?_⟩ <;> ring
  · intro ps hps
    obtain ⟨b, hb, hpb⟩ := get_proposals_entry _ exp t A anchors ps hps i a ha
    obtain ⟨dx, dy, dw, dh, h1, h2, h3, h4, hbox⟩ := proposalAt_eq_some _ exp t A i a b hpb
    rw [hdx] at h1
    rw [hdy] at h2
    rw [hdw] at h3
    rw [hdh] at h4
    rw [← Option.some.inj h1, ← Option.some.inj h2, ← Option.some.inj h3,
      ← Option.some.inj h4, hexp] at hbox
    rw [hb, hbox]
    obtain ⟨l, tp, r, bt⟩ := a
    simp only [specAccessors, Option.some.injEq, Anchor.mk.injEq]
    refine ⟨?_, ?_, ?_, ?_⟩ <;> ring

/-- C22 (witness): the two anchors of one cell of stride 8 with a blob of zeros: the second
box returned is the second anchor. -/
theorem get_proposals_zero_deltas_identity_witness :
    _get_proposals inclusiveAccessors expAtZero ⟨8, 1, 1, List.replicate 8 0⟩ 2
        [⟨-8, -8, 23, 23⟩, ⟨0, 0, 15, 15⟩] = some [⟨-8, -8, 23, 23⟩, ⟨0, 0, 15, 15⟩] ∧
      [(⟨-8, -8, 23, 23⟩ : Anchor), ⟨0, 0, 15, 15⟩][1]? = some ⟨0, 0, 15, 15⟩ :=
  ⟨by decide!,
    (get_proposals_zero_deltas_identity expAtZero rfl ⟨8, 1, 1, List.replicate 8 0⟩ 2
      [⟨-8, -8, 23, 23⟩, ⟨0, 0, 15, 15⟩] 1 ⟨0, 0, 15, 15⟩ rfl (by decide!) (by decide!)
      (by decide!) (by decide!)).2.1 [⟨-8, -8, 23, 23⟩, ⟨0, 0, 15, 15⟩] (by decide!)⟩

/-- C25 (counterexample): with the accessors as the specification words them
(`width = right - left`), the anchor (0,0,15,15) of width 15 and the scale 2 give the anchor
(-7,-7,22,22) of width 29, not 30. -/
theorem scale_enum_spec_width_differs :
    _scale_enum specAccessors ⟨0, 0, 15, 15⟩ [2] = [⟨-7, -7, 22, 22⟩] ∧
      specAccessors.getWidth ⟨-7, -7, 22, 22⟩ = 29 ∧
      specAccessors.getWidth ⟨0, 0, 15, 15⟩ * 2 = 30 := by
  decide!

theorem scale_enum_getElem (acc : AnchorAccessors) (a : Anchor) (scales : List ℚ) (j : Nat)
    (s : ℚ) (hs : scales[j]? = some s) :
    (_scale_enum acc a scales)[j]? =
      some ⟨acc.getXCenter a - 1 / 2 * (acc.getWidth a * s - 1),
        acc.getYCenter a - 1 / 2 * (acc.getHeight a * s - 1),
        acc.getXCenter a + 1 / 2 * (acc.getWidth a * s - 1),
        acc.getYCenter a + 1 / 2 * (acc.getHeight a * s - 1)⟩ := by
  unfold _scale_enum
  simp only [List.getElem?_map, hs, Option.map_some']

/-- C25 (amended): `_scale_enum` returns one anchor per scale, in the order of the scales. With
the accessors of the inclusive convention (`width = right - left + 1`) the anchor returned
for the scale `s` has the centre of `a`, the width `width(a) * s` and the height
`height(a) * s`; with the accessors as the specification words them it has the centre of
`a`, the width `width(a) * s - 1` and the height `height(a) * s - 1`. -/
theorem scale_enum_center_and_size (a : Anchor) (scales : List ℚ) (j : Nat) (s : ℚ)
    (hs : scales[j]? = some s) :
    (∀ acc : AnchorAccessors, (_scale_enum acc a scales).length = scales.length) ∧
    (∃ b, (_scale_enum inclusiveAccessors a scales)[j]? = some b ∧
      inclusiveAccessors.getXCenter b = inclusiveAccessors.getXCenter a ∧
      inclusiveAccessors.getYCenter b = inclusiveAccessors.getYCenter a ∧
      inclusiveAccessors.getWidth b = inclusiveAccessors.getWidth a * s ∧
      inclusiveAccessors.getHeight b = inclusiveAccessors.getHeight a * s) ∧
    (∃ b, (_scale_enum specAccessors a scales)[j]? = some b ∧
      specAccessors.getXCenter b = specAccessors.getXCenter a ∧
      specAccessors.getYCenter b = specAccessors.getYCenter a ∧
      specAccessors.getWidth b = specAccessors.getWidth a * s - 1 ∧
      specAccessors.getHeight b = specAccessors.getHeight a * s - 1) := by
  refine ⟨?_, ?_, ?_⟩
  · intro acc
    unfold _scale_enum
    simp only [List.length_map]
  · refine ⟨_, scale_enum_getElem inclusiveAccessors a scales j s hs, ?_⟩
    simp only [inclusiveAccessors]
    refine ⟨?_, ?_, ?_, ?_⟩ <;> ring
  · refine ⟨_, scale_enum_getElem specAccessors a scales j s hs, ?_⟩
    simp only [specAccessors]
    refine ⟨?_, ?_, ?_, ?_⟩ <;> ring

/-- C25 (witness): the base anchor (0,0,15,15) and the scales 2 and 1 of the stride 8: the
variant of scale 2 is (-8,-8,23,23), of width 32, with the centre (7.5, 7.5). -/
theorem scale_enum_center_and_size_witness :
    _scale_enum inclusiveAccessors ⟨0, 0, 15, 15⟩ [2, 1] =
        [⟨-8, -8, 23, 23⟩, ⟨0, 0, 15, 15⟩] ∧
      ∃ b, (_scale_enum inclusiveAccessors ⟨0, 0, 15, 15⟩ [2, 1])[0]? = some b ∧
        inclusiveAccessors.getXCenter b = inclusiveAccessors.getXCenter ⟨0, 0, 15, 15⟩ ∧
        inclusiveAccessors.getYCenter b = inclusiveAccessors.getYCenter ⟨0, 0, 15, 15⟩ ∧
        inclusiveAccessors.getWidth b = inclusiveAccessors.getWidth ⟨0, 0, 15, 15⟩ * 2 ∧
        inclusiveAccessors.getHeight b = inclusiveAccessors.getHeight ⟨0, 0, 15, 15⟩ * 2 :=
  ⟨by decide!, (scale_enum_center_and_size ⟨0, 0, 15, 15⟩ [2, 1] 0 2 rfl).2.1⟩

/-- The entries of the map after the loop of `generate_anchors_fpn` over lines of pairwise
different strides: those of the map before the loop, and for every other stride of a line the
anchors generated for that line. -/
theorem foldl_emplace_entries (acc : AnchorAccessors) :
    ∀ (l : List AnchorCfgLine) (m0 : AnchorMap), (l.map (fun line => line.stride)).Nodup →
      ∀ (k : Int) (v : List Anchor),
        (l.foldl (fun m cfgLine => mapEmplace m cfgLine.stride
          (generate_anchors acc cfgLine.baseSize cfgLine.ratios cfgLine.scales)) m0) k = some v ↔
        (m0 k = some v ∨ (m0 k = none ∧ ∃ line ∈ l, line.stride = k ∧
          v = generate_anchors acc line.baseSize line.ratios line.scales))
  | [], m0, _, k, v => by
    simp only [List.foldl_nil, List.not_mem_nil, false_and, exists_false, and_false, or_false]
  | x :: rest, m0, hnd, k, v => by
    rw [List.map_cons, List.nodup_cons] at hnd
    rw [List.foldl_cons, foldl_emplace_entries acc rest _ hnd.2 k v]
    have hx : ∀ line ∈ rest, line.stride ≠ x.stride := by
      intro line hline heq
      exact hnd.1 (List.mem_map.mpr ⟨line, hline, heq⟩)
    unfold mapEmplace
    by_cases hk : k = x.stride
    · rw [if_pos hk]
      cases hm : m0 k with
      | some old =>
        simp only [Option.some.injEq, false_and, or_false, reduceCtorEq]
      | none =>
        simp only [Option.some.injEq, false_and, or_false, reduceCtorEq, true_and, false_or,
          List.mem_cons, exists_eq_or_imp]
        constructor
        · intro h
          exact Or.inl ⟨hk.symm, h.symm⟩
        · rintro (⟨_, h⟩ | ⟨line, hline, hs, _⟩)
          · exact h.symm
          · exact absurd (hs.trans hk) (hx line hline)
    · rw [if_neg hk]
      constructor
      · rintro (h | ⟨h0, line, hline, hs, hv⟩)
        · exact Or.inl h
        · exact Or.inr ⟨h0, line, List.mem_cons_of_mem _ hline, hs, hv⟩
      · rintro (h | ⟨h0, line, hline, hs, hv⟩)
        · exact Or.inl h
        · rcases List.mem_cons.mp hline with heq | hmem
          · rw [heq] at hs
            exact absurd hs.symm hk
          · exact Or.inr ⟨h0, line, hmem, hs, hv⟩

/-- C24 (counterexample): two lines of the same stride 8 with the base sizes 16 and 32. Both
orders of the two lines are sorted by stride, and the entry stored for the stride 8 is the one
of the line that comes first: (0,0,15,15) for one order, (0,0,31,31) for the other. -/
theorem generate_anchors_fpn_depends_on_order :
    IsSortedCfg [⟨8, [1], 16, [1]⟩, ⟨8, [1], 32, [1]⟩] [⟨8, [1], 16, [1]⟩, ⟨8, [1], 32, [1]⟩] ∧
    IsSortedCfg [⟨8, [1], 32, [1]⟩, ⟨8, [1], 16, [1]⟩] [⟨8, [1], 32, [1]⟩, ⟨8, [1], 16, [1]⟩] ∧
    List.Perm [(⟨8, [1], 32, [1]⟩ : AnchorCfgLine), ⟨8, [1], 16, [1]⟩]
      [⟨8, [1], 16, [1]⟩, ⟨8, [1], 32, [1]⟩] ∧
    generate_anchors_fpn inclusiveAccessors (fun cfg => cfg)
        [⟨8, [1], 16, [1]⟩, ⟨8, [1], 32, [1]⟩] emptyAnchorMap 8 = some [⟨0, 0, 15, 15⟩] ∧
    generate_anchors_fpn inclusiveAccessors (fun cfg => cfg)
        [⟨8, [1], 32, [1]⟩, ⟨8, [1], 16, [1]⟩] emptyAnchorMap 8 = some [⟨0, 0, 31, 31⟩] ∧
    generate_anchors inclusiveAccessors 32 [1] [1] = [⟨0, 0, 31, 31⟩] := by
  have h16 := (generate_anchors_unit_aux 16 (by decide)).1
  have h32 := (generate_anchors_unit_aux 32 (by decide)).1
  refine ⟨by decide!, by decide!, by decide!, ?_, ?_, ?_⟩
  · simp only [generate_anchors_fpn, List.foldl_cons, List.foldl_nil, h16, h32]
    decide!
  · simp only [generate_anchors_fpn, List.foldl_cons, List.foldl_nil, h16, h32]
    decide!
  · rw [h32]
    decide!

/-- C24 (amended): for a list of configuration lines with pairwise different strides and any
rearrangement of it, `generate_anchors_fpn`, started on the empty map and with sorts that meet
the contract of `std::sort`, builds the same map, and the entry of this map at the stride of
every line holds the anchors that `generate_anchors` returns for that line. -/
theorem generate_anchors_fpn_order_independent (acc : AnchorAccessors)
    (sortCfg sortCfg' : List AnchorCfgLine → List AnchorCfgLine)
    (anchorCfg anchorCfg' : List AnchorCfgLine) (hperm : List.Perm anchorCfg' anchorCfg)
    (hnodup : (anchorCfg.map (fun line => line.stride)).Nodup)
    (hsort : IsSortedCfg anchorCfg (sortCfg anchorCfg))
    (hsort' : IsSortedCfg anchorCfg' (sortCfg' anchorCfg')) :
    generate_anchors_fpn acc sortCfg' anchorCfg' emptyAnchorMap =
        generate_anchors_fpn acc sortCfg anchorCfg emptyAnchorMap ∧
      ∀ line ∈ anchorCfg,
        generate_anchors_fpn acc sortCfg anchorCfg emptyAnchorMap line.stride =
          some (generate_anchors acc line.baseSize line.ratios line.scales) := by
  have hp1 : List.Perm (sortCfg anchorCfg) anchorCfg := hsort.1
  have hp2 : List.Perm (sortCfg' anchorCfg') anchorCfg := hsort'.1.trans hperm
  have hn1 : ((sortCfg anchorCfg).map (fun line => line.stride)).Nodup :=
    (List.Perm.nodup_iff (hp1.map _)).mpr hnodup
  have hn2 : ((sortCfg' anchorCfg').map (fun line => line.stride)).Nodup :=
    (List.Perm.nodup_iff (hp2.map _)).mpr hnodup
  have hchar : ∀ (l : List AnchorCfgLine), List.Perm l anchorCfg →
      (l.map (fun line => line.stride)).Nodup → ∀ (k : Int) (v : List Anchor),
      (l.foldl (fun m cfgLine => mapEmplace m cfgLine.stride
        (generate_anchors acc cfgLine.baseSize cfgLine.ratios cfgLine.scales))
        emptyAnchorMap) k = some v ↔
      ∃ line ∈ anchorCfg, line.stride = k ∧
        v = generate_anchors acc line.baseSize line.ratios line.scales := by
    intro l hl hn k v
    rw [foldl_emplace_entries acc l emptyAnchorMap hn k v]
    simp only [emptyAnchorMap, reduceCtorEq, false_or, true_and]
    constructor
    · rintro ⟨line, hline, hs, hv⟩
      exact ⟨line, hl.subset hline, hs, hv⟩
    · rintro ⟨line, hline, hs, hv⟩
      exact ⟨line, hl.symm.subset hline, hs, hv⟩
  constructor
  · funext k
    unfold generate_anchors_fpn
    apply Option.ext
    intro v
    rw [Option.mem_def, Option.mem_def, hchar _ hp2 hn2 k v, hchar _ hp1 hn1 k v]
  · intro line hline
    unfold generate_anchors_fpn
    rw [hchar _ hp1 hn1 line.stride _]
    exact ⟨line, hline, rfl, rfl⟩

/-- C24 (witness): the three lines of the constructor and their reverse order, both left as
they are by the sort of the first and put in descending order by the sort of the second. -/
theorem generate_anchors_fpn_order_independent_witness :
    generate_anchors_fpn inclusiveAccessors (fun _ => defaultAnchorCfg)
        defaultAnchorCfg.reverse emptyAnchorMap =
      generate_anchors_fpn inclusiveAccessors (fun cfg => cfg) defaultAnchorCfg
        emptyAnchorMap ∧
    ∀ line ∈ defaultAnchorCfg,
      generate_anchors_fpn inclusiveAccessors (fun cfg => cfg) defaultAnchorCfg emptyAnchorMap
          line.stride =
        some (generate_anchors inclusiveAccessors line.baseSize line.ratios line.scales) :=
  generate_anchors_fpn_order_independent inclusiveAccessors (fun cfg => cfg)
    (fun _ => defaultAnchorCfg) defaultAnchorCfg defaultAnchorCfg.reverse (by decide!)
    (by decide) (by decide!) (by decide!)

/-- When the scan stops, the number it has counted is the number of indices whose score is not
negative. -/
theorem countActive_eq_count (scores : List ℚ) (order : List Int) (n : Nat)
    (hsort : IsSortedOrder scores order) (hn : countActive scores order = some n) :
    n = ((iota scores.length).filter (fun o => decide (0 ≤ scoreAt scores o))).length := by
  obtain ⟨hact, o, ho, _, _⟩ := countActive_spec scores order n hn
  have hnlt : n < order.length := (List.getElem?_eq_some_iff.mp ho).1
  have hall := (active_range_spec scores order n hsort hn).2
  have hnd : (order.take n).Nodup :=
    List.Nodup.sublist (List.take_sublist n order)
      ((List.Perm.nodup_iff hsort.1).mpr (iota_nodup scores.length))
  have hnd2 : ((iota scores.length).filter
      (fun o => decide (0 ≤ scoreAt scores o))).Nodup :=
    List.Nodup.filter _ (iota_nodup scores.length)
  have hperm : List.Perm (order.take n)
      ((iota scores.length).filter (fun o => decide (0 ≤ scoreAt scores o))) := by
    rw [List.perm_ext_iff_of_nodup hnd hnd2]
    intro a
    rw [List.mem_filter, mem_iota, decide_eq_true_eq]
    constructor
    · intro ha
      have hmem : a ∈ iota scores.length := hsort.1.subset (List.mem_of_mem_take ha)
      exact ⟨(mem_iota _ _).mp hmem, (hact a ha).1⟩
    · rintro ⟨⟨h0, hlt⟩, hs⟩
      exact hall a h0 hlt hs
  rw [← hperm.length_eq, List.length_take, Nat.min_eq_left (le_of_lt hnlt)]

/-- C26 (the scan on every input): when no score is negative the scan that counts the active
range passes the last entry of `order` and reads beyond it, for every order that the sort may
produce, so `nms` has no defined result; when some score is negative (and the sort meets its
contract) the scan stops inside `order`, at the number of entries whose score is not
negative. -/
theorem scan_leaves_order_without_negative_score (sort : List ℚ → List Int)
    (boxes : List Anchor) (scores : List ℚ) (thresh : ℚ)
    (hsort : IsSortedOrder scores (sort scores)) :
    ((∀ s ∈ scores, 0 ≤ s) →
      countActive scores (sort scores) = none ∧ nms sort boxes scores thresh = none) ∧
    ((∃ s ∈ scores, s < 0) →
      ∃ n, countActive scores (sort scores) = some n ∧ n < scores.length ∧
        n = ((iota scores.length).filter (fun o => decide (0 ≤ scoreAt scores o))).length) := by
  constructor
  · intro hall
    have hnone := countActive_none_of_nonneg scores hall (sort scores)
    refine ⟨hnone, ?_⟩
    unfold nms
    simp only [hnone]
  · rintro ⟨s, hs, hneg⟩
    obtain ⟨i, hi, hget⟩ := List.getElem_of_mem hs
    have hmemi : (i : Int) ∈ sort scores :=
      hsort.1.symm.subset ((mem_iota _ _).mpr ⟨Int.natCast_nonneg i, by simpa using hi⟩)
    obtain ⟨n, hn⟩ := countActive_some scores (sort scores)
      (fun o ho => (mem_iota _ _).mp (hsort.1.subset ho))
      ⟨(i : Int), hmemi, by
        unfold scoreAt
        rw [Int.toNat_natCast, List.getElem?_eq_getElem hi, hget]
        exact hneg⟩
    obtain ⟨_, o, ho, _, _⟩ := countActive_spec scores (sort scores) n hn
    have hnlt : n < (sort scores).length := (List.getElem?_eq_some_iff.mp ho).1
    have hlen : (sort scores).length = scores.length := by
      rw [hsort.1.length_eq]
      unfold iota
      simp
    exact ⟨n, hn, by rw [← hlen]; exact hnlt, countActive_eq_count scores _ n hsort hn⟩

/-- C26 (witness, the failing input): the scores 0.1 and 0.1 of the two candidates of a level
of `exampleResult`, none of which is below the confidence threshold 0.05: the scan leaves
`order`, and `postprocess` has no defined result. -/
theorem scan_leaves_order_without_negative_score_witness :
    (countActive (markBelowThreshold (1 / 20) [1 / 10, 1 / 10])
          (stableSort (markBelowThreshold (1 / 20) [1 / 10, 1 / 10])) = none ∧
        nms stableSort [⟨-248, -248, 263, 263⟩, ⟨-120, -120, 135, 135⟩]
          (markBelowThreshold (1 / 20) [1 / 10, 1 / 10]) (1 / 2) = none) ∧
      postprocess (exampleEnv inclusiveAccessors) (exampleModel (1 / 20)) exampleResult = none :=
  ⟨(scan_leaves_order_without_negative_score stableSort
      [⟨-248, -248, 263, 263⟩, ⟨-120, -120, 135, 135⟩]
      (markBelowThreshold (1 / 20) [1 / 10, 1 / 10]) (1 / 2)
      (stableSort_isSortedOrder _)).1 (by decide!),
    by decide!⟩

/-! ## Claims on label names -/

theorem toSizeT_of_nonneg (n : Int) (h0 : 0 ≤ n) (h1 : n < 2 ^ 31) : toSizeT n = n.toNat := by
  unfold toSizeT
  omega

theorem toSizeT_of_neg (n : Int) (h0 : n < 0) (h1 : -2 ^ 31 ≤ n) :
    2 ^ 64 - 2 ^ 31 ≤ toSizeT n := by
  unfold toSizeT
  omega

/-- C17: for an `int` value `labelID` and a label table (of fewer than `2^64 - 2^31` entries,
as every table in memory), `getLabelName` returns `labels[labelID]` when
`0 ≤ labelID < |labels|`, and otherwise, for a negative or too large `labelID`, the string
"Label #" followed by the decimal representation of `labelID`. -/
theorem getLabelName_spec (labels : List String) (labelID : Int)
    (hlo : -2 ^ 31 ≤ labelID) (hhi : labelID < 2 ^ 31)
    (hsize : labels.length < 2 ^ 64 - 2 ^ 31) :
    (0 ≤ labelID → ∀ h : labelID.toNat < labels.length,
      getLabelName labels labelID = labels[labelID.toNat]) ∧
    ((labelID < 0 ∨ (labels.length : Int) ≤ labelID) →
      getLabelName labels labelID = "Label #" ++ std_to_string labelID) := by
  constructor
  · intro h0 h
    have hc := toSizeT_of_nonneg labelID h0 hhi
    unfold getLabelName
    rw [dif_pos (by rw [hc]; exact h)]
    simp only [hc]
  · intro hout
    unfold getLabelName
    rw [dif_neg]
    rcases hout with hneg | hbig
    · have := toSizeT_of_neg labelID hneg hlo
      omega
    · have h0 : 0 ≤ labelID := le_trans (Int.ofNat_nonneg _) hbig
      rw [toSizeT_of_nonneg labelID h0 hhi]
      omega

/-- C17 (witness): a table of two labels; the ids 1, -3 and 2. -/
theorem getLabelName_spec_witness :
    getLabelName ["background", "face"] 1 = "face" ∧
      getLabelName ["background", "face"] (-3) = "Label #" ++ std_to_string (-3) ∧
      getLabelName ["background", "face"] 2 = "Label #" ++ std_to_string 2 ∧
      getLabelName [] 0 = "Label #" ++ std_to_string 0 ∧
      std_to_string (-3) = "-3" ∧ std_to_string 2 = "2" :=
  ⟨(getLabelName_spec ["background", "face"] 1 (by decide) (by decide) (by decide)).1
      (by decide) (by decide),
    (getLabelName_spec ["background", "face"] (-3) (by decide) (by decide) (by decide)).2
      (Or.inl (by decide)),
    (getLabelName_spec ["background", "face"] 2 (by decide) (by decide) (by decide)).2
      (Or.inr (by decide)),
    (getLabelName_spec [] 0 (by decide) (by decide) (by decide)).2 (Or.inr (by decide)),
    by decide, by decide⟩

/-! ## Claims on `prepareInputsOutputs` -/

theorem visitOutput_some (b : Bool) (st : OutputsState) (o : NetOutput)
    (hdims : 3 ≤ o.dims.length) :
    ∃ st1, visitOutput b st o = some st1 ∧ st1.outputsNames = st.outputsNames ++ [o.name] := by
  unfold visitOutput
  cases classifyOutput b o.name with
  | none => exact ⟨_, rfl, rfl⟩
  | some type =>
    have h2 : o.dims[2]? = some (o.dims[2]) := List.getElem?_eq_getElem (by omega)
    simp only [h2]
    exact ⟨_, rfl, rfl⟩

theorem visitOutputs_some (b : Bool) :
    ∀ (outputs : List NetOutput) (st : OutputsState), (∀ o ∈ outputs, 3 ≤ o.dims.length) →
      ∃ st1, visitOutputs b st outputs = some st1 ∧
        st1.outputsNames = st.outputsNames ++ outputs.map (fun o => o.name)
  | [], st, _ => ⟨st, rfl, by simp⟩
  | o :: rest, st, h => by
    obtain ⟨st1, h1, hn1⟩ := visitOutput_some b st o (h o (List.mem_cons_self _ _))
    obtain ⟨st2, h2, hn2⟩ :=
      visitOutputs_some b rest st1 (fun x hx => h x (List.mem_cons_of_mem _ hx))
    refine ⟨st2, ?_, ?_⟩
    · rw [visitOutputs, h1]
      exact h2
    · rw [hn2, hn1]
      simp

/-- C16 (counterexample): nine outputs, none of whose names contains "landmark", are accepted:
`prepareInputsOutputs` returns without an error, and no name is recorded for the landmark
head. -/
theorem prepareInputsOutputs_accepts_missing_landmarks :
    (∀ o ∈ networkWithoutLandmarks.outputs, findsIn o.name.data "landmark".data = false) ∧
      networkWithoutLandmarks.outputs.length = 9 ∧
      ∃ names, prepareInputsOutputs false freshNames networkWithoutLandmarks =
          some (Except.ok names) ∧
        names.separateOutputsNames EOutputType.OT_LANDMARK = [] ∧
        names.separateOutputsNames EOutputType.OT_BBOX =
          ["face_rpn_bbox_pred_stride32", "face_rpn_bbox_pred_stride16",
            "face_rpn_bbox_pred_stride8"] :=
  ⟨by decide, rfl, _, rfl, by decide, by decide⟩

/-- C16 (amended): on outputs whose shapes have at least three dimensions,
`prepareInputsOutputs` returns, and it fails with an error exactly when the network does not
have exactly one input or the number of recorded output names is neither 9 nor 12; the names
of the outputs play no part in it. -/
theorem prepareInputsOutputs_error_iff (shouldDetectMasks : Bool) (names : ModelNames)
    (cnnNetwork : CNNNetwork) (hdims : ∀ o ∈ cnnNetwork.outputs, 3 ≤ o.dims.length) :
    ∃ r, prepareInputsOutputs shouldDetectMasks names cnnNetwork = some r ∧
      ((∃ msg, r = Except.error msg) ↔
        (cnnNetwork.inputs.length ≠ 1 ∨
          (names.outputsNames.length + cnnNetwork.outputs.length ≠ 9 ∧
            names.outputsNames.length + cnnNetwork.outputs.length ≠ 12))) := by
  obtain ⟨st, hst, hn⟩ := visitOutputs_some shouldDetectMasks cnnNetwork.outputs
    ⟨names.outputsNames, names.separateOutputsNames, fun _ => []⟩ hdims
  have hlen : st.outputsNames.length = names.outputsNames.length + cnnNetwork.outputs.length := by
    rw [hn]
    simp
  unfold prepareInputsOutputs
  rcases hin : cnnNetwork.inputs with _ | ⟨input, _ | ⟨input2, rest⟩⟩
  · exact ⟨_, rfl, by simp⟩
  · simp only [hst]
    by_cases hc : st.outputsNames.length ≠ 9 ∧ st.outputsNames.length ≠ 12
    · rw [if_pos hc]
      refine ⟨_, rfl, ?_⟩
      rw [hlen] at hc
      simp [hc]
    · rw [if_neg hc]
      refine ⟨_, rfl, ?_⟩
      rw [hlen] at hc
      simp [hc]
  · exact ⟨_, rfl, by simp⟩

/-- C16 (witness): the network of the counterexample has nine outputs of four dimensions. -/
theorem prepareInputsOutputs_error_iff_witness :
    ∃ r, prepareInputsOutputs false freshNames networkWithoutLandmarks = some r ∧
      ((∃ msg, r = Except.error msg) ↔
        (networkWithoutLandmarks.inputs.length ≠ 1 ∨
          (freshNames.outputsNames.length + networkWithoutLandmarks.outputs.length ≠ 9 ∧
            freshNames.outputsNames.length + networkWithoutLandmarks.outputs.length ≠ 12))) :=
  prepareInputsOutputs_error_iff false freshNames networkWithoutLandmarks (by decide)

theorem toSizeT_toInt32 (n : Nat) (hn : n < 2 ^ 31) : toSizeT (toInt32 n) = n := by
  unfold toSizeT toInt32
  omega

/-- The position at which the loop of `prepareInputsOutputs` inserts an output of height `num`
into the lists of its type, kept in step with the recorded sizes: behind every recorded output
that is not higher, in front of the first one that is higher. -/
theorem insertIdx_insertPosition {γ : Type} (g : NetOutput → γ) (num : Nat) (o : NetOutput) :
    ∀ l : List NetOutput, (∀ x ∈ l, tensorHeight x < 2 ^ 31) →
      (l.map g).insertIdx (insertPosition num (l.map (fun x => toInt32 (tensorHeight x))))
          (g o) =
        (l.takeWhile (fun x => decide (tensorHeight x ≤ num)) ++
          o :: l.dropWhile (fun x => decide (tensorHeight x ≤ num))).map g
  | [], _ => rfl
  | x :: rest, h => by
    have hx := h x (List.mem_cons_self _ _)
    have ih := insertIdx_insertPosition g num o rest
      (fun y hy => h y (List.mem_cons_of_mem _ hy))
    rw [List.map_cons, List.map_cons, insertPosition, toSizeT_toInt32 _ hx,
      List.takeWhile_cons, List.dropWhile_cons]
    by_cases hlt : num < tensorHeight x
    · rw [if_pos hlt, List.insertIdx_zero]
      have hd : decide (tensorHeight x ≤ num) = false := by
        rw [decide_eq_false_iff_not]
        omega
      simp only [hd, Bool.false_eq_true, if_false, List.nil_append, List.map_cons]
    · rw [if_neg hlt, List.insertIdx_succ_cons, ih]
      have hd : decide (tensorHeight x ≤ num) = true := by
        rw [decide_eq_true_eq]
        omega
      simp only [hd, if_true, List.cons_append, List.map_cons]

/-- In a list sorted by height, what follows the outputs that are not higher than `num` is
higher than `num`. -/
theorem dropWhile_height_gt (num : Nat) :
    ∀ l : List NetOutput, l.Pairwise (fun a b => tensorHeight a ≤ tensorHeight b) →
      ∀ b ∈ l.dropWhile (fun x => decide (tensorHeight x ≤ num)), num < tensorHeight b
  | [], _, b, hb => absurd hb (List.not_mem_nil b)
  | x :: rest, h, b, hb => by
    rw [List.dropWhile_cons] at hb
    rw [List.pairwise_cons] at h
    by_cases hx : tensorHeight x ≤ num
    · rw [if_pos (decide_eq_true hx)] at hb
      exact dropWhile_height_gt num rest h.2 b hb
    · rw [if_neg (by rw [decide_eq_true_eq]; exact hx)] at hb
      rcases List.mem_cons.mp hb with heq | hmem
      · rw [heq]
        omega
      · have := h.1 b hmem
        omega

/-- The list of the outputs of one type after one more output `o` of that type has been
inserted: still sorted by height, a rearrangement of the old list and `o`, and with `o` behind
the outputs of its own height. -/
theorem insert_head_sorted (num : Nat) (o : NetOutput) (ho : tensorHeight o = num)
    (l : List NetOutput) (hl : l.Pairwise (fun a b => tensorHeight a ≤ tensorHeight b)) :
    (l.takeWhile (fun x => decide (tensorHeight x ≤ num)) ++
        o :: l.dropWhile (fun x => decide (tensorHeight x ≤ num))).Pairwise
      (fun a b => tensorHeight a ≤ tensorHeight b) ∧
    List.Perm (l.takeWhile (fun x => decide (tensorHeight x ≤ num)) ++
        o :: l.dropWhile (fun x => decide (tensorHeight x ≤ num))) (l ++ [o]) ∧
    ∀ n : Nat, (l.takeWhile (fun x => decide (tensorHeight x ≤ num)) ++
        o :: l.dropWhile (fun x => decide (tensorHeight x ≤ num))).filter
          (fun x => decide (tensorHeight x = n)) =
      (l ++ [o]).filter (fun x => decide (tensorHeight x = n)) := by
  have hsplit := List.takeWhile_append_dropWhile (fun x => decide (tensorHeight x ≤ num)) l
  have htw : ∀ a ∈ l.takeWhile (fun x => decide (tensorHeight x ≤ num)),
      tensorHeight a ≤ num := by
    intro a ha
    have := List.mem_takeWhile_imp ha
    simpa using this
  have hdw := dropWhile_height_gt num l hl
  have hl2 := hl
  rw [← hsplit, List.pairwise_append] at hl2
  refine ⟨?_, ?_, ?_⟩
  · rw [List.pairwise_append, List.pairwise_cons]
    refine ⟨hl2.1, ⟨?_, hl2.2.1⟩, ?_⟩
    · intro b hb
      have := hdw b hb
      omega
    · intro a ha b hb
      rcases List.mem_cons.mp hb with heq | hmem
      · rw [heq, ho]
        exact htw a ha
      · exact hl2.2.2 a ha b hmem
  · refine List.perm_middle.trans ?_
    rw [hsplit]
    exact (List.perm_append_singleton o l).symm
  · intro n
    have hnone : tensorHeight o = n →
        (l.dropWhile (fun x => decide (tensorHeight x ≤ num))).filter
          (fun x => decide (tensorHeight x = n)) = [] := by
      intro hn
      rw [List.filter_eq_nil_iff]
      intro b hb
      have := hdw b hb
      rw [decide_eq_true_eq]
      omega
    generalize l.takeWhile (fun x => decide (tensorHeight x ≤ num)) = tw at hsplit hnone ⊢
    generalize l.dropWhile (fun x => decide (tensorHeight x ≤ num)) = dw at hsplit hnone ⊢
    rw [← hsplit]
    simp only [List.filter_append, List.filter_cons, List.filter_nil, List.append_assoc]
    by_cases hn : tensorHeight o = n
    · simp only [decide_eq_true hn, if_true, hnone hn, List.nil_append]
    · have hd : decide (tensorHeight o = n) = false := decide_eq_false hn
      simp only [hd, Bool.false_eq_true, if_false, List.append_nil]

theorem filter_append_singleton_of_not {α : Type} (p : α → Bool) (l : List α) (x : α)
    (hx : p x = false) : (l ++ [x]).filter p = l.filter p := by
  rw [List.filter_append, List.filter_cons, hx]
  simp

theorem filter_append_singleton_of_pos {α : Type} (p : α → Bool) (l : List α) (x : α)
    (hx : p x = true) : (l ++ [x]).filter p = l.filter p ++ [x] := by
  rw [List.filter_append, List.filter_cons, hx]
  simp

/-- One step of the loop over the outputs keeps the record of the outputs of every type. -/
theorem visitOutput_heads (b : Bool) (visited : List NetOutput) (st : OutputsState)
    (heads : EOutputType → List NetOutput) (o : NetOutput) (num : Nat)
    (hnum : o.dims[2]? = some num) (hlt : num < 2 ^ 31)
    (hinv : HeadsRecorded b visited st heads) :
    ∃ st1 heads1, visitOutput b st o = some st1 ∧
      st1.outputsNames = st.outputsNames ++ [o.name] ∧
      HeadsRecorded b (visited ++ [o]) st1 heads1 := by
  have hh : tensorHeight o = num := by
    unfold tensorHeight
    rw [hnum]
    rfl
  unfold visitOutput
  simp only
  cases hc : classifyOutput b o.name with
  | none =>
    refine ⟨_, heads, rfl, rfl, ?_⟩
    intro type
    obtain ⟨h1, h2, h3, h4, h5, h6⟩ := hinv type
    have hf : (visited ++ [o]).filter
        (fun o => decide (classifyOutput b o.name = some type)) =
        visited.filter (fun o => decide (classifyOutput b o.name = some type)) :=
      filter_append_singleton_of_not _ _ _ (by rw [hc]; rfl)
    rw [hf]
    exact ⟨h1, h2, h3, h4, h5, h6⟩
  | some ty =>
    simp only [hnum]
    obtain ⟨g1, g2, g3, g4, g5, g6⟩ := hinv ty
    obtain ⟨k1, k2, k3⟩ := insert_head_sorted num o hh (heads ty) g3
    refine ⟨_, Function.update heads ty
      ((heads ty).takeWhile (fun x => decide (tensorHeight x ≤ num)) ++
        o :: (heads ty).dropWhile (fun x => decide (tensorHeight x ≤ num))), rfl, rfl, ?_⟩
    intro type
    by_cases hty : type = ty
    · subst hty
      have hf : (visited ++ [o]).filter
          (fun o => decide (classifyOutput b o.name = some type)) =
          visited.filter (fun o => decide (classifyOutput b o.name = some type)) ++ [o] :=
        filter_append_singleton_of_pos _ _ _ (by rw [hc]; exact decide_eq_true rfl)
      simp only [Function.update_same]
      refine ⟨?_, ?_, k1, ?_, ?_, ?_⟩
      · rw [g1, g2]
        exact insertIdx_insertPosition (fun o => o.name) num o (heads type) g6
      · rw [g2, ← hh]
        exact insertIdx_insertPosition (fun o => toInt32 (tensorHeight o)) (tensorHeight o) o
          (heads type) g6
      · rw [hf]
        exact k2.trans (List.Perm.append_right _ g4)
      · intro n
        rw [hf, k3 n, List.filter_append, List.filter_append, g5 n]
      · intro x hx
        rcases List.mem_append.mp hx with h | h
        · exact g6 x ((List.takeWhile_sublist _).subset h)
        · rcases List.mem_cons.mp h with heq | hmem
          · rw [heq, hh]
            exact hlt
          · exact g6 x ((List.dropWhile_sublist _).subset hmem)
    · obtain ⟨h1, h2, h3, h4, h5, h6⟩ := hinv type
      have hne : ¬ classifyOutput b o.name = some type := by
        rw [hc]
        intro h
        exact hty (Option.some.inj h).symm
      have hf : (visited ++ [o]).filter
          (fun o => decide (classifyOutput b o.name = some type)) =
          visited.filter (fun o => decide (classifyOutput b o.name = some type)) :=
        filter_append_singleton_of_not _ _ _ (decide_eq_false hne)
      simp only [Function.update_noteq hty]
      rw [hf]
      exact ⟨h1, h2, h3, h4, h5, h6⟩

/-- The loop over the outputs keeps the record of the outputs of every type. -/
theorem visitOutputs_heads (b : Bool) :
    ∀ (outputs visited : List NetOutput) (st : OutputsState)
      (heads : EOutputType → List NetOutput),
      (∀ o ∈ outputs, ∃ num, o.dims[2]? = some num ∧ num < 2 ^ 31) →
      HeadsRecorded b visited st heads →
      ∃ st1 heads1, visitOutputs b st outputs = some st1 ∧
        st1.outputsNames = st.outputsNames ++ outputs.map (fun o => o.name) ∧
        HeadsRecorded b (visited ++ outputs) st1 heads1
  | [], visited, st, heads, _, hinv => by
    refine ⟨st, heads, rfl, by simp, ?_⟩
    rw [List.append_nil]
    exact hinv
  | o :: rest, visited, st, heads, hdims, hinv => by
    obtain ⟨num, hnum, hlt⟩ := hdims o (List.mem_cons_self _ _)
    obtain ⟨st1, heads1, hv, hn1, hinv1⟩ := visitOutput_heads b visited st heads o num hnum hlt hinv
    obtain ⟨st2, heads2, hv2, hn2, hinv2⟩ := visitOutputs_heads b rest (visited ++ [o]) st1
      heads1 (fun x hx => hdims x (List.mem_cons_of_mem _ hx)) hinv1
    refine ⟨st2, heads2, ?_, ?_, ?_⟩
    · rw [visitOutputs, hv]
      exact hv2
    · rw [hn2, hn1]
      simp
    · rw [List.append_assoc] at hinv2
      exact hinv2

/-- C28: on a network with one input and 9 or 12 outputs, whose heights `getDims()[2]` fit in
an `int`, `prepareInputsOutputs` returns without an error, and for every head type the list
`separateOutputsNames[type]` holds the names of exactly the outputs that the chain of tests on
the names classifies to that type, in the order of non-decreasing height, outputs of equal
height in the order in which they were visited. The lines that the constructor pushes to
`anchorCfg` are in the order of decreasing stride, so the index `idx` of a line is that of the
head with the `idx`-th smallest grid. -/
theorem prepareInputsOutputs_heads_sorted (shouldDetectMasks : Bool) (cnnNetwork : CNNNetwork)
    (input : NetInput) (hin : cnnNetwork.inputs = [input])
    (hcount : cnnNetwork.outputs.length = 9 ∨ cnnNetwork.outputs.length = 12)
    (hdims : ∀ o ∈ cnnNetwork.outputs, ∃ num, o.dims[2]? = some num ∧ num < 2 ^ 31) :
    (∃ names, prepareInputsOutputs shouldDetectMasks freshNames cnnNetwork =
        some (Except.ok names) ∧
      ∀ type : EOutputType, ∃ heads : List NetOutput,
        names.separateOutputsNames type = heads.map (fun o => o.name) ∧
        heads.Pairwise (fun x y => tensorHeight x ≤ tensorHeight y) ∧
        List.Perm heads (cnnNetwork.outputs.filter
          (fun o => decide (classifyOutput shouldDetectMasks o.name = some type))) ∧
        ∀ n : Nat, heads.filter (fun o => decide (tensorHeight o = n)) =
          (cnnNetwork.outputs.filter
            (fun o => decide (classifyOutput shouldDetectMasks o.name = some type))).filter
              (fun o => decide (tensorHeight o = n))) ∧
    defaultAnchorCfg.Pairwise (fun x y => y.stride < x.stride) := by
  refine ⟨?_, by decide⟩
  have hinit : HeadsRecorded shouldDetectMasks [] ⟨[], fun _ => [], fun _ => []⟩
      (fun _ => []) := by
    intro type
    refine ⟨rfl, rfl, List.Pairwise.nil, ?_, fun _ => rfl, ?_⟩
    · exact List.Perm.refl _
    · intro x hx
      exact absurd hx (List.not_mem_nil x)
  obtain ⟨st, heads, hst, hnames, hinv⟩ := visitOutputs_heads shouldDetectMasks
    cnnNetwork.outputs [] ⟨[], fun _ => [], fun _ => []⟩ (fun _ => []) hdims hinit
  have hlen : st.outputsNames.length = cnnNetwork.outputs.length := by
    rw [hnames]
    simp
  have hnot : ¬ (st.outputsNames.length ≠ 9 ∧ st.outputsNames.length ≠ 12) := by
    rw [hlen]
    omega
  refine ⟨⟨[] ++ [input.name], st.outputsNames, st.separateOutputsNames, input.height,
    input.width⟩, ?_, ?_⟩
  · unfold prepareInputsOutputs
    rw [hin]
    simp only [freshNames, hst, if_neg hnot]
  · intro type
    obtain ⟨h1, _, h3, h4, h5, _⟩ := hinv type
    rw [List.nil_append] at h4 h5
    exact ⟨heads type, h1, h3, h4, h5⟩

/-- C28 (witness): on `exampleNetwork`, visited in the order of the names (strides 16, 32, 8),
the names of every head are recorded in the order of the strides 32, 16, 8. -/
theorem prepareInputsOutputs_heads_sorted_witness :
    (∃ names, prepareInputsOutputs false freshNames exampleNetwork = some (Except.ok names) ∧
      names.separateOutputsNames EOutputType.OT_BBOX =
        ["face_rpn_bbox_pred_stride32", "face_rpn_bbox_pred_stride16",
          "face_rpn_bbox_pred_stride8"] ∧
      names.separateOutputsNames EOutputType.OT_SCORES =
        ["face_rpn_cls_prob_reshape_stride32", "face_rpn_cls_prob_reshape_stride16",
          "face_rpn_cls_prob_reshape_stride8"] ∧
      names.separateOutputsNames EOutputType.OT_LANDMARK =
        ["face_rpn_landmark_pred_stride32", "face_rpn_landmark_pred_stride16",
          "face_rpn_landmark_pred_stride8"]) ∧
    ((∃ names, prepareInputsOutputs false freshNames exampleNetwork = some (Except.ok names) ∧
      ∀ type : EOutputType, ∃ heads : List NetOutput,
        names.separateOutputsNames type = heads.map (fun o => o.name) ∧
        heads.Pairwise (fun x y => tensorHeight x ≤ tensorHeight y) ∧
        List.Perm heads (exampleNetwork.outputs.filter
          (fun o => decide (classifyOutput false o.name = some type))) ∧
        ∀ n : Nat, heads.filter (fun o => decide (tensorHeight o = n)) =
          (exampleNetwork.outputs.filter
            (fun o => decide (classifyOutput false o.name = some type))).filter
              (fun o => decide (tensorHeight o = n))) ∧
    defaultAnchorCfg.Pairwise (fun x y => y.stride < x.stride)) :=
  ⟨⟨_, rfl, by decide, by decide, by decide⟩,
    prepareInputsOutputs_heads_sorted false exampleNetwork ⟨"data", 8, 8⟩ rfl
      (Or.inl (by decide)) (by
        intro o ho
        simp only [exampleNetwork, List.mem_cons, List.mem_singleton, List.not_mem_nil,
          or_false] at ho
        rcases ho with h | h | h | h | h | h | h | h | h <;> subst h <;>
          exact ⟨_, rfl, by norm_num⟩)⟩

end RetinaFace
